import Mathlib

/-! news-aggregator.cc : the concurrent fetch-and-index pipeline

A shallow embedding of `NewsAggregator::processFeeds` and
`NewsAggregator::processArticles` (src/assign/code/assign5/news-aggregator.cc).

* Part 1: the data the workers manipulate (`std::map`, `std::sort`,
  `std::set_intersection`, `std::min`, the duplicate-title resolver, the index).
* Part 2: the threads as a step relation: one transition per blocking
  operation or mutex-protected section, an explicit thread id picks who moves.
* Part 3: the properties.
-/

namespace NewsAggregator

/-! ## Part 1: data -/

/-- An `Article` is a URL and a title (article.h). -/
structure Article where
  url : String
  title : String
deriving DecidableEq

/-- Modelled from the spec: `operator<` on `Article`, declared in article.h which is not
among the sources: "Two Articles are ordered by the pair (title, URL) lexicographically". -/
def Article.lt (a b : Article) : Prop :=
  a.title < b.title ∨ (a.title = b.title ∧ a.url < b.url)

instance : LT Article := ⟨Article.lt⟩

instance Article.decLt (a b : Article) : Decidable (a < b) :=
  inferInstanceAs (Decidable (a.title < b.title ∨ (a.title = b.title ∧ a.url < b.url)))

/-- The `std::min(a, b)` of `<algorithm>`: `(b < a) ? b : a`. -/
def std_min (a b : Article) : Article := if b < a then b else a

/-- The `std::sort` of a `vector<string>`: the ascending rearrangement of the tokens. -/
def std_sort (tokens : List String) : List String :=
  tokens.insertionSort (fun a b => a ≤ b)

/-- Inner loop of `set_intersection`: the head `a` of the first range is fixed, the
second range is consumed; `recAs` continues with the tail of the first range. -/
def set_intersection_aux {α : Type} [LT α] [DecidableRel (fun a b : α => a < b)]
    (a : α) (recAs : List α → List α) : List α → List α
  | [] => []
  | b :: bs =>
    if a < b then recAs (b :: bs)
    else if b < a then set_intersection_aux a recAs bs
    else a :: recAs bs

/-- The `std::set_intersection` of `<algorithm>` on two ranges:
```
while (first1 != last1 && first2 != last2)
  if (*first1 < *first2) ++first1;
  else { if (!(*first2 < *first1)) *out++ = *first1++; ++first2; }
```
-/
def set_intersection {α : Type} [LT α] [DecidableRel (fun a b : α => a < b)] :
    List α → List α → List α
  | [] => fun _ => []
  | a :: as => set_intersection_aux a (set_intersection as)

/-- A `std::map<K, V>`: the entries in key order. -/
abbrev Map (κ ν : Type) := List (κ × ν)

/-- The `map::find`: the value stored under `k`, if any. -/
def Map.find {κ ν : Type} [DecidableEq κ] (k : κ) : Map κ ν → Option ν
  | [] => none
  | (k', v) :: m => if k = k' then some v else Map.find k m

/-- The `m[k] = v` of a `std::map`: overwrite the entry of `k`, or add it at its place
in key order. -/
def Map.insert {κ ν : Type} [LT κ] [DecidableRel (fun a b : κ => a < b)]
    (k : κ) (v : ν) : Map κ ν → Map κ ν
  | [] => [(k, v)]
  | (k', v') :: m =>
    if k < k' then (k, v) :: (k', v') :: m
    else if k' < k then (k', v') :: Map.insert k v m
    else (k, v) :: m

/-- The keys of the map are strictly ascending, as the iteration of a `std::map` yields
them. -/
def Map.Ordered {κ ν : Type} [LT κ] (m : Map κ ν) : Prop := m.Pairwise (fun a b => a.1 < b.1)

/-- The duplicate-title resolver `seenServerTitleToArticleTokens`:
`map<string, map<string, pair<Article, vector<string>>>>`, server, then title. -/
abbrev Resolver := Map String (Map String (Article × List String))

instance instDecidableEqEntry : DecidableEq (Article × List String) := inferInstance

instance instDecidableEqTitleMap : DecidableEq (Map String (Article × List String)) :=
  inferInstance

instance instDecidableEqResolver : DecidableEq Resolver := inferInstance

/-- The lookup `seenServerTitleToArticleTokens.find(server)` followed by
`serverIt->second.find(title)`. -/
def Resolver.find (r : Resolver) (server title : String) : Option (Article × List String) :=
  match Map.find server r with
  | none => none
  | some m => Map.find title m

/-- The assignment `seenServerTitleToArticleTokens[server][title] = v`. -/
def Resolver.store (r : Resolver) (server title : String) (v : Article × List String) :
    Resolver :=
  Map.insert server (Map.insert title v ((Map.find server r).getD [])) r

/-- The entries of the resolver in the iteration order of the two nested loops of
`processFeeds` (lines 196-200). -/
def Resolver.entries (r : Resolver) : List (Article × List String) :=
  r.flatMap (fun e => e.2.map (fun f => f.2))

/-- Lines 234-253 of `processArticles`: sort the tokens, then, under `serverLock`, merge
with the entry already stored under (server, title) or create the entry. -/
def resolverUpdate (getURLServer : String → String) (r : Resolver)
    (article : Article) (docTokens : List String) : Resolver :=
  let server := getURLServer article.url
  let tokens := std_sort docTokens
  match r.find server article.title with
  | some (oldArticle, oldTokens) =>
    r.store server article.title (std_min oldArticle article, set_intersection oldTokens tokens)
  | none =>
    r.store server article.title (article, tokens)

/-- The index as occurrence counts: `index w a` is the count recorded for token `w` and
article `a` (rss-index.h is not among the sources). -/
abbrev RSSIndex := String → Article → Nat

/-- Modelled from the spec: `RSSIndex::add` (rss-index.cc is not among the sources):
"for every token in that TokenList, increment the occurrence count of (token, Article)". -/
def RSSIndex.add (index : RSSIndex) (article : Article) (tokens : List String) : RSSIndex :=
  tokens.foldl
    (fun idx w => fun w' a' => if w' = w ∧ a' = article then idx w' a' + 1 else idx w' a')
    index

/-- Lines 196-200 of `processFeeds`: one `index.add` per resolver entry. -/
def foldIndex (index : RSSIndex) (r : Resolver) : RSSIndex :=
  r.entries.foldl (fun idx e => idx.add e.1 e.2) index

/-! ## Part 2: threads

One transition per blocking operation or mutex-protected section. The four mutexes
(`feedUriLock`, `articleUriLock`, `serverSemLock`, `serverLock`) protect sections that
contain no blocking call and no call that throws, so each section is one transition.
A thread that is not yet launched is `idle`; `thread(...)` moves it to its first line.
The `signal(on_thread_exit)` of a worker is its `exit` transition. -/

/-- What a run records: the calls of `NewsAggregatorLog` and the calls of the two
parsers (`RSSFeed::parse`, `HTMLDocument::parse`). -/
inductive Event where
  | feedSkipped (feedUri : String)
  | feedBeginning (feedUri : String)
  | feedParse (feedUri : String)
  | feedEnd (feedUri : String)
  | feedFailure (feedUri : String)
  | articleSkipped (article : Article)
  | articleBeginning (article : Article)
  | articleParse (url : String)
  | articleFailure (article : Article)
deriving DecidableEq

/-- Modelled from the spec: the capacity of `feedSem`, set in news-aggregator.h which is
not among the sources: "FeedBudget | 6". -/
def kFeedCapacity : Nat := 6

/-- Modelled from the spec: the capacity of `articleSem`, set in news-aggregator.h which
is not among the sources: "ArticleBudget | 24". -/
def kArticleCapacity : Nat := 24

/-- The fields of the aggregator that the threads share. A semaphore is the number of
units available. -/
structure Shared where
  feedSem : Nat
  articleSem : Nat
  serverSem : Map String Nat
  seenFeedsUri : List String
  seenArticlesUri : List String
  seenServerTitleToArticleTokens : Resolver
  index : RSSIndex
  trace : List Event

/-- Program points of an article worker (the lambda of lines 208-260). -/
inductive APc where
  | idle | dedup | getSem | waitSem | parse | signal | update | exit | done
deriving DecidableEq

/-- An article worker: its argument `article`, what `htmlDoc.parse()` does when this
worker calls it (`none`: throws `HTMLDocumentException`), its tokens once parsed. -/
structure ArticleThread where
  article : Article
  doc : Option (List String)
  tokens : List String
  pc : APc
deriving DecidableEq

/-- One transition of an article worker; `none` when it cannot move (blocked on the
server semaphore, not launched, or finished). -/
def articleStep (getURLServer : String → String) (sh : Shared) (t : ArticleThread) :
    Option (Shared × ArticleThread) :=
  let server := getURLServer t.article.url
  match t.pc with
  | .idle => none
  | .dedup =>
    -- lines 211-218
    if t.article.url ∈ sh.seenArticlesUri then
      some ({ sh with trace := sh.trace ++ [Event.articleSkipped t.article] },
            { t with pc := .exit })
    else
      some ({ sh with seenArticlesUri := t.article.url :: sh.seenArticlesUri },
            { t with pc := .getSem })
  | .getSem =>
    -- lines 222-225
    match Map.find server sh.serverSem with
    | none => some ({ sh with serverSem := Map.insert server 8 sh.serverSem },
                    { t with pc := .waitSem })
    | some _ => some (sh, { t with pc := .waitSem })
  | .waitSem =>
    -- line 227
    match Map.find server sh.serverSem with
    | some (n + 1) => some ({ sh with serverSem := Map.insert server n sh.serverSem },
                            { t with pc := .parse })
    | _ => none
  | .parse =>
    -- lines 228-230, and 255-257 when the parse throws
    match t.doc with
    | some tokens =>
      some ({ sh with trace := sh.trace ++
                [Event.articleBeginning t.article, Event.articleParse t.article.url] },
            { t with tokens := tokens, pc := .signal })
    | none =>
      some ({ sh with trace := sh.trace ++
                [Event.articleBeginning t.article, Event.articleParse t.article.url,
                 Event.articleFailure t.article] },
            { t with pc := .exit })
  | .signal =>
    -- line 232
    some ({ sh with serverSem :=
              Map.insert server ((Map.find server sh.serverSem).getD 0 + 1) sh.serverSem },
          { t with pc := .update })
  | .update =>
    -- lines 234-254
    some ({ sh with seenServerTitleToArticleTokens :=
              resolverUpdate getURLServer sh.seenServerTitleToArticleTokens t.article t.tokens },
          { t with pc := .exit })
  | .exit =>
    -- the thread ends: `articleSem.signal(on_thread_exit)` of line 209
    some ({ sh with articleSem := sh.articleSem + 1 }, { t with pc := .done })
  | .done => none

/-- Program points of a feed worker (the lambda of lines 169-191); `spawn j` is the
loop of `processArticles` about to launch article `j`. -/
inductive FPc where
  | idle | dedup | parse | spawn (j : Nat) | join | exit | done
deriving DecidableEq

/-- A feed worker: its argument `feedPair`, what `feed.parse()` does when this worker
calls it (`parses = false`: throws `RSSFeedException`), the articles of the feed with
the worker of each. -/
structure FeedThread where
  feedUri : String
  feedTitle : String
  parses : Bool
  arts : List ArticleThread
  pc : FPc
deriving DecidableEq

/-- One transition of a feed worker that is its own (a transition of one of its article
workers is taken by that worker); `none` when it cannot move. -/
def feedStep (sh : Shared) (t : FeedThread) : Option (Shared × FeedThread) :=
  match t.pc with
  | .idle => none
  | .dedup =>
    -- lines 173-180
    if t.feedUri ∈ sh.seenFeedsUri then
      some ({ sh with trace := sh.trace ++ [Event.feedSkipped t.feedUri] },
            { t with pc := .exit })
    else
      some ({ sh with seenFeedsUri := t.feedUri :: sh.seenFeedsUri },
            { t with pc := .parse })
  | .parse =>
    -- lines 183-185, and 188-190 when the parse throws
    if t.parses then
      some ({ sh with trace := sh.trace ++
                [Event.feedBeginning t.feedUri, Event.feedParse t.feedUri] },
            { t with pc := .spawn 0 })
    else
      some ({ sh with trace := sh.trace ++
                [Event.feedBeginning t.feedUri, Event.feedParse t.feedUri,
                 Event.feedFailure t.feedUri] },
            { t with pc := .exit })
  | .spawn j =>
    -- lines 206-261: `articleSem.wait()` then launch the worker of article `j`
    match t.arts[j]? with
    | none => some (sh, { t with pc := .join })
    | some a =>
      match sh.articleSem with
      | 0 => none
      | n + 1 =>
        some ({ sh with articleSem := n },
              { t with arts := t.arts.set j { a with pc := .dedup }, pc := .spawn (j + 1) })
  | .join =>
    -- line 263 (every article has been launched by now), then line 187
    if t.arts.all (fun a => a.pc = .done) then
      some ({ sh with trace := sh.trace ++ [Event.feedEnd t.feedUri] }, { t with pc := .exit })
    else none
  | .exit =>
    -- the thread ends: `s.signal(on_thread_exit)` of line 170
    some ({ sh with feedSem := sh.feedSem + 1 }, { t with pc := .done })
  | .done => none

/-- Program points of `processFeeds` (lines 164-201); `spawn i` is the loop about to
launch the worker of feed `i`. -/
inductive MPc where
  | spawn (i : Nat) | join | fold | done
deriving DecidableEq

/-- The aggregator during `processFeeds`: the shared fields, the caller, the workers. -/
structure State where
  sh : Shared
  main : MPc
  feeds : List FeedThread

/-- One transition of `processFeeds` itself. -/
def mainStep (s : State) : Option State :=
  match s.main with
  | .spawn i =>
    -- lines 167-192: `feedSem.wait()` then launch the worker of feed `i`
    match s.feeds[i]? with
    | none => some { s with main := .join }
    | some f =>
      match s.sh.feedSem with
      | 0 => none
      | n + 1 =>
        some { sh := { s.sh with feedSem := n },
               main := .spawn (i + 1),
               feeds := s.feeds.set i { f with pc := .dedup } }
  | .join =>
    -- line 194
    if s.feeds.all (fun f => f.pc = .done) then some { s with main := .fold } else none
  | .fold =>
    -- lines 196-200
    some { s with
           sh := { s.sh with index := foldIndex s.sh.index s.sh.seenServerTitleToArticleTokens },
           main := .done }
  | .done => none

/-- Names of the threads: the caller of `processFeeds`, the worker of feed `i`, the
worker of article `j` of feed `i`. -/
inductive Tid where
  | main
  | feed (i : Nat)
  | article (i j : Nat)
deriving DecidableEq

/-- One transition of the whole program, taken by thread `tid`. -/
def step (getURLServer : String → String) (s : State) (tid : Tid) : Option State :=
  match tid with
  | .main => mainStep s
  | .feed i =>
    match s.feeds[i]? with
    | none => none
    | some f =>
      match feedStep s.sh f with
      | none => none
      | some (sh, f') => some { s with sh := sh, feeds := s.feeds.set i f' }
  | .article i j =>
    match s.feeds[i]? with
    | none => none
    | some f =>
      match f.arts[j]? with
      | none => none
      | some a =>
        match articleStep getURLServer s.sh a with
        | none => none
        | some (sh, a') =>
          some { s with sh := sh, feeds := s.feeds.set i { f with arts := f.arts.set j a' } }

/-- Run a schedule: the threads move in the order listed; `none` when a listed thread
cannot move. -/
def run (getURLServer : String → String) (s : State) : List Tid → Option State
  | [] => some s
  | tid :: rest =>
    match step getURLServer s tid with
    | none => none
    | some s' => run getURLServer s' rest

/-- A feed of the feed list: its URL and title, whether `RSSFeed::parse` succeeds on it,
its articles each with what `HTMLDocument::parse` yields for it. -/
structure Feed where
  feedUri : String
  feedTitle : String
  parses : Bool
  articles : List (Article × Option (List String))

/-- The worker of a feed before `processFeeds` starts. -/
def Feed.thread (f : Feed) : FeedThread :=
  { feedUri := f.feedUri, feedTitle := f.feedTitle, parses := f.parses,
    arts := f.articles.map (fun a => { article := a.1, doc := a.2, tokens := [], pc := .idle }),
    pc := .idle }

/-- The aggregator when `processFeeds(feeds)` is entered from `buildIndex`: nothing seen,
nothing stored, every semaphore full. -/
def init (feeds : List Feed) : State :=
  { sh := { feedSem := kFeedCapacity, articleSem := kArticleCapacity, serverSem := [],
            seenFeedsUri := [], seenArticlesUri := [],
            seenServerTitleToArticleTokens := [], index := fun _ _ => 0, trace := [] },
    main := .spawn 0,
    feeds := feeds.map Feed.thread }

/-- The aggregator object between calls of `buildIndex`: the `built` flag and the
fields shared by the threads of a crawl. -/
structure Aggregator where
  built : Bool
  sh : Shared

/-- The aggregator that `createNewsAggregator` returns (line 66, the constructor of
lines 137-138): `built(false)`, every container empty as default-constructed, every
semaphore at its capacity. -/
def createNewsAggregator : Aggregator :=
  { built := false,
    sh := { feedSem := kFeedCapacity, articleSem := kArticleCapacity, serverSem := [],
            seenFeedsUri := [], seenArticlesUri := [],
            seenServerTitleToArticleTokens := [], index := fun _ _ => 0, trace := [] } }

/-- `buildIndex` (lines 76-84) up to the call of `processFeeds` (line 157), for a feed
list that `RSSFeedList::parse` yields: nothing is entered when `built` is set
(line 77); else the flag is set (line 78) and `processFeeds(feeds)` is entered with the
fields as they are. -/
def buildIndex (a : Aggregator) (feeds : List Feed) : Aggregator × Option State :=
  if a.built then (a, none)
  else ({ a with built := true },
        some { sh := a.sh, main := .spawn 0, feeds := feeds.map Feed.thread })

/-- The states a crawl can be in. -/
inductive Reachable (getURLServer : String → String) (s0 : State) : State → Prop
  | start : Reachable getURLServer s0 s0
  | next {s s' : State} (tid : Tid) :
      Reachable getURLServer s0 s → step getURLServer s tid = some s' →
      Reachable getURLServer s0 s'

/-- The threads of a state. -/
def State.tids (s : State) : List Tid :=
  Tid.main :: (List.range s.feeds.length).flatMap (fun i =>
    Tid.feed i :: (List.range ((s.feeds[i]?.map (fun f => f.arts.length)).getD 0)).map
      (fun j => Tid.article i j))

/-- No thread of the state can move. -/
def State.stuck (getURLServer : String → String) (s : State) : Bool :=
  s.tids.all (fun tid => (step getURLServer s tid).isNone)

/-! ## Part 2b: definitions used to state the properties -/

/-- Well-formedness of the resolver: keys ascending at both levels, and every entry
stored under (server, title) holds an article of that title on that server with
ascending tokens. -/
def Resolver.WF (getURLServer : String → String) (r : Resolver) : Prop :=
  Map.Ordered r ∧
  ∀ server m, (server, m) ∈ r →
    Map.Ordered m ∧
    ∀ title a toks, (title, (a, toks)) ∈ m →
      a.title = title ∧ getURLServer a.url = server ∧ toks.Sorted (· ≤ ·)

/-- The resolver after the updates of `us`, applied in the order of the list to the
empty resolver. -/
def applyUpdates (getURLServer : String → String) (us : List (Article × List String)) :
    Resolver :=
  us.foldl (fun r u => resolverUpdate getURLServer r u.1 u.2) []

/-- The number of article workers, over all feeds, that satisfy `p`. -/
def artCount (p : ArticleThread → Bool) (s : State) : Nat :=
  ((s.feeds.map (fun f => f.arts)).map (fun l => l.countP p)).sum

/-- An article worker that has claimed `u` in `seenArticlesUri` and has not yet called
the tokenizer. -/
def pendingDoc (u : String) (a : ArticleThread) : Bool :=
  decide (a.article.url = u ∧ (a.pc = .getSem ∨ a.pc = .waitSem ∨ a.pc = .parse))

/-- A feed worker that has claimed `u` in `seenFeedsUri` and has not yet called the feed
parser. -/
def pendingFeed (u : String) (f : FeedThread) : Bool :=
  decide (f.feedUri = u ∧ f.pc = .parse)

/-- The server part of a URL, for the examples: the text before the first `/`. -/
def exampleServer (u : String) : String := String.mk (u.data.takeWhile (fun c => c ≠ '/'))

/-- Scenario S1 of the spec: two entries of the feed list point to the same feed, which
has one article with tokens `[apple, pear]`. -/
def feedsS1 : List Feed :=
  [ { feedUri := "F", feedTitle := "first", parses := true,
      articles := [(⟨"h/A", "A"⟩, some ["apple", "pear"])] },
    { feedUri := "F", feedTitle := "second", parses := true,
      articles := [(⟨"h/A", "A"⟩, some ["apple", "pear"])] } ]

/-- A schedule of S1 that runs the crawl to its end: both workers are launched, the
first one does all its work, then the second one. -/
def schedS1 : List Tid :=
  [.main, .main, .main, .feed 0, .feed 0, .feed 0, .article 0 0, .article 0 0, .article 0 0,
   .article 0 0, .article 0 0, .article 0 0, .article 0 0, .feed 0, .feed 0, .feed 0,
   .feed 1, .feed 1, .main, .main]

/-- An article worker of server `h` between `myServerSem->wait()` and
`myServerSem->signal()`: it is about to call the tokenizer, or has its tokens and is
about to signal. -/
def inFlight (g : String → String) (h : String) (a : ArticleThread) : Bool :=
  decide (g a.article.url = h ∧ (a.pc = .parse ∨ a.pc = .signal))

/-- The worker of article `j` of feed `i`. -/
def State.art (s : State) (i j : Nat) : Option ArticleThread :=
  match s.feeds[i]? with
  | none => none
  | some f => f.arts[j]?

/-- A crawl in which the first article fails and a second article of the same URL
follows it in the same feed. -/
def feedsRetry : List Feed :=
  [ { feedUri := "F", feedTitle := "feed", parses := true,
      articles := [(⟨"h/x", "T"⟩, none), (⟨"h/x", "T"⟩, some ["a", "b"])] } ]

/-- Scenario S2 of the spec: two feeds of host `h1` each hold an article titled `News`,
with URLs `h1/u1 < h1/u2` and tokens `[a,a,b,c]` and `[a,b,b,d]` (as the documents
list them, before the sort). -/
def feedsS2 : List Feed :=
  [ { feedUri := "f1", feedTitle := "F1", parses := true,
      articles := [(⟨"h1/u1", "News"⟩, some ["a", "b", "a", "c"])] },
    { feedUri := "f2", feedTitle := "F2", parses := true,
      articles := [(⟨"h1/u2", "News"⟩, some ["b", "a", "d", "b"])] } ]

/-- One feed with one article whose tokenizer call fails. -/
def feedsOneFailure : List Feed :=
  [ { feedUri := "F", feedTitle := "feed", parses := true,
      articles := [(⟨"h/1", "T"⟩, none)] } ]

/-- The same feed with an article whose tokenizer call succeeds. -/
def feedsOneSuccess : List Feed :=
  [ { feedUri := "F", feedTitle := "feed", parses := true,
      articles := [(⟨"h/1", "T"⟩, some ["a"])] } ]

/-- One feed with nine articles of the same host; every tokenizer call fails. -/
def feedsNineFailures : List Feed :=
  [ { feedUri := "F", feedTitle := "feed", parses := true,
      articles := ["h/1", "h/2", "h/3", "h/4", "h/5", "h/6", "h/7", "h/8", "h/9"].map
        (fun u => (⟨u, "T"⟩, none)) } ]

/-- A schedule for `feedsNineFailures`: the feed is launched and parsed; each of the
first eight articles is launched and runs to its end (check, semaphore lookup, wait,
failing parse, exit); the ninth is launched and runs up to its wait; the feed worker
reaches its join and `processFeeds` its own. -/
def schedNineFailures : List Tid :=
  [.main, .main, .feed 0, .feed 0] ++
  (List.range 8).flatMap (fun j =>
    [.feed 0, .article 0 j, .article 0 j, .article 0 j, .article 0 j, .article 0 j]) ++
  [.feed 0, .article 0 8, .article 0 8, .feed 0]

/-- The first feed of scenario S4. -/
def feedS4first : Feed :=
  { feedUri := "f1", feedTitle := "F1", parses := true,
    articles := [(⟨"h1/u1", "One"⟩, some ["a", "b"])] }

/-- The middle feed of scenario S4: its parse fails. -/
def feedS4middle : Feed :=
  { feedUri := "f2", feedTitle := "F2", parses := false,
    articles := [(⟨"h2/u2", "Two"⟩, some ["c"])] }

/-- The last feed of scenario S4. -/
def feedS4last : Feed :=
  { feedUri := "f3", feedTitle := "F3", parses := true,
    articles := [(⟨"h1/u3", "Three"⟩, some ["b", "b"])] }

/-- Scenario S4 of the spec: three feeds, the parse of the middle one fails. -/
def feedsS4 : List Feed := [feedS4first, feedS4middle, feedS4last]

/-- A schedule of S4 that runs the crawl to its end, one feed after the other. -/
def schedS4 : List Tid :=
  [.main, .main, .main, .main,
   .feed 0, .feed 0, .feed 0, .article 0 0, .article 0 0, .article 0 0, .article 0 0,
   .article 0 0, .article 0 0, .article 0 0, .feed 0, .feed 0, .feed 0,
   .feed 1, .feed 1, .feed 1,
   .feed 2, .feed 2, .feed 2, .article 2 0, .article 2 0, .article 2 0, .article 2 0,
   .article 2 0, .article 2 0, .article 2 0, .feed 2, .feed 2, .feed 2,
   .main, .main]

/-- The two updates of scenario S2, in the order `u2` first. -/
def updatesS2 : List (Article × List String) :=
  [(⟨"h1/u2", "News"⟩, ["a", "b", "b", "d"]), (⟨"h1/u1", "News"⟩, ["a", "a", "b", "c"])]

/-- The index that the worker of feed `i` has once feed `n` is removed. -/
def downIdx (n i : Nat) : Nat := if i < n then i else i - 1

/-- The index that the worker of feed `i` of the reduced list has in the full list. -/
def upIdx (n i : Nat) : Nat := if i < n then i else i + 1

/-- The events of the feed of URL `u`. -/
def isFeedEvent (u : String) (e : Event) : Bool :=
  decide (e = Event.feedSkipped u ∨ e = Event.feedBeginning u ∨ e = Event.feedParse u ∨
    e = Event.feedEnd u ∨ e = Event.feedFailure u)

/-- The shared fields as they are without the feed of URL `u`: `k` units of `feedSem` it
holds are given back, its URL and its events are removed. -/
def projShared (k : Nat) (u : String) (sh : Shared) : Shared :=
  { sh with
    feedSem := sh.feedSem + k,
    seenFeedsUri := sh.seenFeedsUri.filter (fun v => decide (v ≠ u)),
    trace := sh.trace.filter (fun e => !isFeedEvent u e) }

/-- The units of `feedSem` that the worker of feed `n` holds: one from its launch to its
end. -/
def heldUnit (n : Nat) (s : State) : Nat :=
  match s.feeds[n]? with
  | some f => if f.pc = .idle ∨ f.pc = .done then 0 else 1
  | none => 0

/-- The program point of `processFeeds` once feed `n` is removed from the list. -/
def projMain (n : Nat) : MPc → MPc
  | .spawn k => .spawn (if k ≤ n then k else k - 1)
  | m => m

/-- The state of the crawl without feed `n`, whose URL is `u`. -/
def proj (n : Nat) (u : String) (s : State) : State :=
  { sh := projShared (heldUnit n s) u s.sh,
    main := projMain n s.main,
    feeds := s.feeds.eraseIdx n }

/-- A feed worker that holds a unit of `feedSem`: launched and not ended. -/
def holdsFeedUnit (f : FeedThread) : Bool := decide (f.pc ≠ .idle ∧ f.pc ≠ .done)

/-- A schedule of S2 that runs the crawl to its end: the second feed does all its work
first, then the first one. -/
def schedS2 : List Tid :=
  [.main, .main, .main,
   .feed 1, .feed 1, .feed 1, .article 1 0, .article 1 0, .article 1 0, .article 1 0,
   .article 1 0, .article 1 0, .article 1 0, .feed 1, .feed 1, .feed 1,
   .feed 0, .feed 0, .feed 0, .article 0 0, .article 0 0, .article 0 0, .article 0 0,
   .article 0 0, .article 0 0, .article 0 0, .feed 0, .feed 0, .feed 0,
   .main, .main]

/-- A feed list with a feed whose parse fails, then a feed with nine articles of one
host whose tokenizer calls all fail. -/
def feedsFailureThenNine : List Feed :=
  [ { feedUri := "bad", feedTitle := "B", parses := false,
      articles := [(⟨"g/1", "X"⟩, some ["a"])] },
    { feedUri := "F", feedTitle := "feed", parses := true,
      articles := ["h/1", "h/2", "h/3", "h/4", "h/5", "h/6", "h/7", "h/8", "h/9"].map
        (fun u => (⟨u, "T"⟩, none)) } ]

/-- A schedule for `feedsFailureThenNine`: both feeds are launched; the first fails in
its parse and ends; the second is parsed, each of its first eight articles is launched
and runs to its end, the ninth is launched and runs up to its wait, and the feed worker
reaches its join. -/
def schedFailureThenNine : List Tid :=
  [.main, .main, .main, .feed 0, .feed 0, .feed 0, .feed 1, .feed 1] ++
  (List.range 8).flatMap (fun j =>
    [.feed 1, .article 1 j, .article 1 j, .article 1 j, .article 1 j, .article 1 j]) ++
  [.feed 1, .article 1 8, .article 1 8, .feed 1]

/-- Seven feeds with distinct URLs: the first has nine articles of host `h` whose
tokenizer calls all fail, the next five have one article of host `h` each, the last one
article of another host. -/
def feedsSeven : List Feed :=
  [ { feedUri := "f0", feedTitle := "F0", parses := true,
      articles := ["h/1", "h/2", "h/3", "h/4", "h/5", "h/6", "h/7", "h/8", "h/9"].map
        (fun u => (⟨u, "T"⟩, none)) },
    { feedUri := "f1", feedTitle := "F1", parses := true,
      articles := [(⟨"h/a1", "A1"⟩, some ["a"])] },
    { feedUri := "f2", feedTitle := "F2", parses := true,
      articles := [(⟨"h/a2", "A2"⟩, some ["a"])] },
    { feedUri := "f3", feedTitle := "F3", parses := true,
      articles := [(⟨"h/a3", "A3"⟩, some ["a"])] },
    { feedUri := "f4", feedTitle := "F4", parses := true,
      articles := [(⟨"h/a4", "A4"⟩, some ["a"])] },
    { feedUri := "f5", feedTitle := "F5", parses := true,
      articles := [(⟨"h/a5", "A5"⟩, some ["a"])] },
    { feedUri := "f6", feedTitle := "F6", parses := true,
      articles := [(⟨"k/1", "K"⟩, some ["a"])] } ]

/-- A schedule for `feedsSeven`: the first feed is launched and parsed, eight of its
articles run to their end, the ninth up to its wait, the feed worker reaches its join;
then each of the next five feeds is launched and parsed, its article is launched and
runs up to its wait, and the feed worker reaches its join. -/
def schedSeven : List Tid :=
  [.main, .feed 0, .feed 0] ++
  (List.range 8).flatMap (fun j =>
    [.feed 0, .article 0 j, .article 0 j, .article 0 j, .article 0 j, .article 0 j]) ++
  [.feed 0, .article 0 8, .article 0 8, .feed 0] ++
  [1, 2, 3, 4, 5].flatMap (fun i =>
    [.main, .feed i, .feed i, .feed i, .article i 0, .article i 0, .feed i])

/-- The event is the skip of a feed (`noteSingleFeedDownloadSkipped`, line 176). -/
def isFeedSkipped : Event → Bool
  | .feedSkipped _ => true
  | _ => false

/-! ## Part 3: properties

Sorting and intersection. -/

set_option linter.unusedSectionVars false

section ListLemmas

variable {α : Type} [LinearOrder α] [DecidableEq α] [DecidableRel (fun a b : α => a < b)]

theorem set_intersection_nil_left (l : List α) : set_intersection [] l = [] := rfl

theorem set_intersection_nil_right (l : List α) : set_intersection l [] = [] := by
  cases l <;> rfl

theorem set_intersection_cons_cons (a b : α) (as bs : List α) :
    set_intersection (a :: as) (b :: bs) =
      if a < b then set_intersection as (b :: bs)
      else if b < a then set_intersection (a :: as) bs
      else a :: set_intersection as bs := rfl

/-- The output of `set_intersection` is taken from the first range, in order. -/
theorem set_intersection_sublist (l₁ l₂ : List α) : (set_intersection l₁ l₂).Sublist l₁ := by
  induction l₁ generalizing l₂ with
  | nil => simp [set_intersection_nil_left]
  | cons a as ih =>
    induction l₂ with
    | nil => simp [set_intersection_nil_right]
    | cons b bs ih₂ =>
      rw [set_intersection_cons_cons]
      split_ifs
      · exact (ih _).trans (List.sublist_cons_self a as)
      · exact ih₂
      · exact (ih _).cons₂ a

theorem set_intersection_sorted {l₁ : List α} (l₂ : List α) (h : l₁.Sorted (· ≤ ·)) :
    (set_intersection l₁ l₂).Sorted (· ≤ ·) :=
  List.Pairwise.sublist (set_intersection_sublist l₁ l₂) h

theorem count_eq_zero_of_lt_head {w b : α} {bs : List α} (h : (b :: bs).Sorted (· ≤ ·))
    (hw : w < b) : (b :: bs).count w = 0 := by
  rw [List.count_eq_zero]
  intro hmem
  rcases List.mem_cons.1 hmem with rfl | hmem
  · exact lt_irrefl _ hw
  · exact absurd (List.rel_of_sorted_cons h w hmem) (not_le.2 hw)

/-- On ascending ranges `set_intersection` keeps each value with the smaller of its two
multiplicities. -/
theorem count_set_intersection {l₁ l₂ : List α} (h₁ : l₁.Sorted (· ≤ ·))
    (h₂ : l₂.Sorted (· ≤ ·)) (w : α) :
    (set_intersection l₁ l₂).count w = min (l₁.count w) (l₂.count w) := by
  induction l₁ generalizing l₂ with
  | nil => simp [set_intersection_nil_left]
  | cons a as ih =>
    induction l₂ with
    | nil => simp [set_intersection_nil_right]
    | cons b bs ih₂ =>
      rw [set_intersection_cons_cons]
      have has : as.Sorted (· ≤ ·) := h₁.of_cons
      have hbs : bs.Sorted (· ≤ ·) := h₂.of_cons
      split_ifs with hab hba
      · rw [ih has h₂]
        by_cases hw : w = a
        · subst hw
          rw [count_eq_zero_of_lt_head h₂ hab]; simp
        · rw [List.count_cons_of_ne hw]
      · rw [ih₂ hbs]
        by_cases hw : w = b
        · subst hw
          rw [count_eq_zero_of_lt_head h₁ hba]; simp
        · rw [List.count_cons_of_ne hw]
      · have hab' : a = b := le_antisymm (not_lt.1 hba) (not_lt.1 hab)
        subst hab'
        by_cases hw : w = a
        · subst hw
          rw [List.count_cons_self, List.count_cons_self, List.count_cons_self, ih has hbs]
          omega
        · rw [List.count_cons_of_ne hw, List.count_cons_of_ne hw, List.count_cons_of_ne hw,
            ih has hbs]

end ListLemmas

theorem std_sort_sorted (l : List String) : (std_sort l).Sorted (· ≤ ·) :=
  List.sorted_insertionSort _ l

theorem std_sort_count (l : List String) (w : String) : (std_sort l).count w = l.count w :=
  (List.perm_insertionSort _ l).count_eq w

/-! ### Maps -/

section MapLemmas

variable {κ ν : Type} [LinearOrder κ] [DecidableEq κ] [DecidableRel (fun a b : κ => a < b)]

theorem Map.find_insert_self (k : κ) (v : ν) (m : Map κ ν) :
    Map.find k (Map.insert k v m) = some v := by
  induction m with
  | nil => simp [Map.insert, Map.find]
  | cons e m ih =>
    obtain ⟨k', v'⟩ := e
    simp only [Map.insert]
    split_ifs with h1 h2
    · simp [Map.find]
    · have : k ≠ k' := fun h => by subst h; exact lt_irrefl _ h2
      simp [Map.find, this, ih]
    · simp [Map.find]

theorem Map.find_insert_ne {k k' : κ} (h : k' ≠ k) (v : ν) (m : Map κ ν) :
    Map.find k' (Map.insert k v m) = Map.find k' m := by
  induction m with
  | nil => simp [Map.insert, Map.find, h]
  | cons e m ih =>
    obtain ⟨k₀, v₀⟩ := e
    simp only [Map.insert]
    split_ifs with h1 h2
    · simp [Map.find, h]
    · simp [Map.find, ih]
    · have hk : k = k₀ := le_antisymm (not_lt.1 h2) (not_lt.1 h1)
      subst hk
      simp [Map.find, h]

theorem Map.mem_insert {k : κ} {v : ν} {m : Map κ ν} {e : κ × ν}
    (he : e ∈ Map.insert k v m) : e = (k, v) ∨ e ∈ m := by
  induction m with
  | nil => simp [Map.insert] at he; exact Or.inl he
  | cons e₀ m ih =>
    obtain ⟨k₀, v₀⟩ := e₀
    simp only [Map.insert] at he
    split_ifs at he with h1 h2
    · rcases List.mem_cons.1 he with h | h
      · exact Or.inl h
      · exact Or.inr h
    · rcases List.mem_cons.1 he with h | h
      · exact Or.inr (h ▸ List.mem_cons_self _ _)
      · rcases ih h with h' | h'
        · exact Or.inl h'
        · exact Or.inr (List.mem_cons_of_mem _ h')
    · rcases List.mem_cons.1 he with h | h
      · exact Or.inl h
      · exact Or.inr (List.mem_cons_of_mem _ h)

theorem Map.ordered_insert (k : κ) (v : ν) {m : Map κ ν} (hm : Map.Ordered m) :
    Map.Ordered (Map.insert k v m) := by
  induction m with
  | nil => simp [Map.insert, Map.Ordered]
  | cons e₀ m ih =>
    obtain ⟨k₀, v₀⟩ := e₀
    have hm' : ∀ e ∈ m, k₀ < e.1 := fun e he => List.rel_of_pairwise_cons hm he
    have hmt : Map.Ordered m := List.Pairwise.of_cons hm
    simp only [Map.insert]
    split_ifs with h1 h2
    · refine List.Pairwise.cons ?_ hm
      intro e he
      rcases List.mem_cons.1 he with h | h
      · rw [h]; exact h1
      · exact lt_trans h1 (hm' e h)
    · refine List.Pairwise.cons ?_ (ih hmt)
      intro e he
      rcases Map.mem_insert he with h | h
      · rw [h]; exact h2
      · exact hm' e h
    · have hk : k = k₀ := le_antisymm (not_lt.1 h2) (not_lt.1 h1)
      subst hk
      exact List.Pairwise.cons hm' hmt

theorem Map.mem_of_find {k : κ} {v : ν} {m : Map κ ν} (h : Map.find k m = some v) :
    (k, v) ∈ m := by
  induction m with
  | nil => simp [Map.find] at h
  | cons e₀ m ih =>
    obtain ⟨k₀, v₀⟩ := e₀
    simp only [Map.find] at h
    split_ifs at h with h1
    · simp only [Option.some.injEq] at h
      subst h1; subst h
      exact List.mem_cons_self _ _
    · exact List.mem_cons_of_mem _ (ih h)

theorem Map.find_of_mem {k : κ} {v : ν} {m : Map κ ν} (hm : Map.Ordered m)
    (h : (k, v) ∈ m) : Map.find k m = some v := by
  induction m with
  | nil => simp at h
  | cons e₀ m ih =>
    obtain ⟨k₀, v₀⟩ := e₀
    simp only [Map.find]
    rcases List.mem_cons.1 h with h' | h'
    · simp only [Prod.mk.injEq] at h'
      simp [h'.1, h'.2]
    · have hlt : k₀ < k := List.rel_of_pairwise_cons hm h'
      rw [if_neg (ne_of_gt hlt)]
      exact ih (List.Pairwise.of_cons hm) h'

end MapLemmas

/-! ### The resolver -/

theorem Resolver.find_store_self (r : Resolver) (server title : String)
    (v : Article × List String) : (r.store server title v).find server title = some v := by
  simp [Resolver.find, Resolver.store, Map.find_insert_self]

theorem Resolver.find_store_ne (r : Resolver) {server title server' title' : String}
    (h : ¬ (server' = server ∧ title' = title)) (v : Article × List String) :
    (r.store server title v).find server' title' = r.find server' title' := by
  unfold Resolver.find Resolver.store
  by_cases hs : server' = server
  · subst hs
    have ht : title' ≠ title := fun ht => h ⟨rfl, ht⟩
    rw [Map.find_insert_self]
    simp only
    rw [Map.find_insert_ne ht]
    cases Map.find server' r <;> simp [Map.find]
  · rw [Map.find_insert_ne hs]

theorem Resolver.entry_of_find {r : Resolver} {server title : String}
    {v : Article × List String} (h : r.find server title = some v) :
    ∃ m, (server, m) ∈ r ∧ (title, v) ∈ m := by
  unfold Resolver.find at h
  cases hm : Map.find server r with
  | none => simp [hm] at h
  | some m =>
    rw [hm] at h
    exact ⟨m, Map.mem_of_find hm, Map.mem_of_find h⟩

theorem Resolver.WF_nil (g : String → String) : Resolver.WF g [] := by
  refine ⟨List.Pairwise.nil, ?_⟩
  intro server m h
  simp at h

theorem Resolver.WF_store {g : String → String} {r : Resolver} (hr : Resolver.WF g r)
    (server title : String) (a : Article) (toks : List String)
    (ha : a.title = title) (hs : g a.url = server) (ht : toks.Sorted (· ≤ ·)) :
    Resolver.WF g (r.store server title (a, toks)) := by
  refine ⟨Map.ordered_insert _ _ hr.1, ?_⟩
  intro server' m' hmem
  rcases Map.mem_insert hmem with h | h
  · simp only [Prod.mk.injEq] at h
    obtain ⟨h1, h2⟩ := h
    subst h1; subst h2
    have hold : Map.Ordered ((Map.find server' r).getD []) ∧
        ∀ title a toks, (title, (a, toks)) ∈ (Map.find server' r).getD [] →
          a.title = title ∧ g a.url = server' ∧ toks.Sorted (· ≤ ·) := by
      cases hf : Map.find server' r with
      | none =>
        refine ⟨List.Pairwise.nil, ?_⟩
        intro t a' toks' h'
        simp at h'
      | some m => exact hr.2 server' m (Map.mem_of_find hf)
    refine ⟨Map.ordered_insert _ _ hold.1, ?_⟩
    intro t a' toks' h'
    rcases Map.mem_insert h' with h'' | h''
    · simp only [Prod.mk.injEq] at h''
      obtain ⟨h1, h2, h3⟩ := h''
      subst h1; subst h2; subst h3
      exact ⟨ha, hs, ht⟩
    · exact hold.2 t a' toks' h''
  · exact hr.2 server' m' h

theorem std_min_cases (a b : Article) : std_min a b = a ∨ std_min a b = b := by
  unfold std_min
  split_ifs
  · exact Or.inr rfl
  · exact Or.inl rfl

theorem Resolver.WF_update {g : String → String} {r : Resolver} (hr : Resolver.WF g r)
    (article : Article) (docTokens : List String) :
    Resolver.WF g (resolverUpdate g r article docTokens) := by
  unfold resolverUpdate
  simp only
  cases hf : r.find (g article.url) article.title with
  | none => exact Resolver.WF_store hr _ _ _ _ rfl rfl (std_sort_sorted _)
  | some old =>
    obtain ⟨oldArticle, oldTokens⟩ := old
    obtain ⟨m, hm, hmem⟩ := Resolver.entry_of_find hf
    obtain ⟨h1, h2, h3⟩ := (hr.2 _ m hm).2 _ _ _ hmem
    simp only
    refine Resolver.WF_store hr _ _ _ _ ?_ ?_ (set_intersection_sorted _ h3)
    · rcases std_min_cases oldArticle article with h | h <;> rw [h]
      exact h1
    · rcases std_min_cases oldArticle article with h | h <;> rw [h]
      exact h2

theorem Resolver.WF_applyUpdates (g : String → String) (us : List (Article × List String)) :
    Resolver.WF g (applyUpdates g us) := by
  unfold applyUpdates
  suffices h : ∀ r, Resolver.WF g r →
      Resolver.WF g (us.foldl (fun r u => resolverUpdate g r u.1 u.2) r) from
    h [] (Resolver.WF_nil g)
  induction us with
  | nil => intro r hr; exact hr
  | cons u us ih => intro r hr; exact ih _ (Resolver.WF_update hr u.1 u.2)

theorem applyUpdates_snoc (g : String → String) (us : List (Article × List String))
    (u : Article × List String) :
    applyUpdates g (us ++ [u]) = resolverUpdate g (applyUpdates g us) u.1 u.2 := by
  simp [applyUpdates, List.foldl_append]

/-! ### The order of articles -/

theorem Article.lt_def (a b : Article) :
    a < b ↔ a.title < b.title ∨ (a.title = b.title ∧ a.url < b.url) := Iff.rfl

theorem Article.lt_trans' {a b c : Article} (h₁ : a < b) (h₂ : b < c) : a < c := by
  rw [Article.lt_def] at *
  rcases h₁ with h₁ | ⟨e₁, h₁⟩ <;> rcases h₂ with h₂ | ⟨e₂, h₂⟩
  · exact Or.inl (lt_trans h₁ h₂)
  · exact Or.inl (e₂ ▸ h₁)
  · exact Or.inl (e₁ ▸ h₂)
  · exact Or.inr ⟨e₁.trans e₂, lt_trans h₁ h₂⟩

theorem Article.eq_or_lt_of_not_lt {a b : Article} (h : ¬ b < a) : a = b ∨ a < b := by
  rw [Article.lt_def] at h
  push_neg at h
  obtain ⟨h₁, h₂⟩ := h
  rcases lt_trichotomy a.title b.title with ht | ht | ht
  · exact Or.inr (Or.inl ht)
  · rcases lt_trichotomy a.url b.url with hu | hu | hu
    · exact Or.inr (Or.inr ⟨ht, hu⟩)
    · left
      cases a; cases b
      simp only [Article.mk.injEq]
      exact ⟨hu, ht⟩
    · exact absurd hu (not_lt.2 (h₂ ht.symm))
  · exact absurd ht h₁

/-- The `std_min` of two articles is one of them and is below both. -/
theorem std_min_spec (a b : Article) :
    (std_min a b = a ∨ std_min a b = b) ∧
    (std_min a b = a ∨ std_min a b < a) ∧ (std_min a b = b ∨ std_min a b < b) := by
  unfold std_min
  split_ifs with h
  · exact ⟨Or.inr rfl, Or.inr h, Or.inl rfl⟩
  · exact ⟨Or.inl rfl, Or.inl rfl, Article.eq_or_lt_of_not_lt h⟩

/-- What the resolver holds under (server, title) after a sequence of updates: nothing
when no update was for that pair, else the least of the articles of that pair and the
ascending list that holds each token with the least of its multiplicities. -/
theorem applyUpdates_entry (g : String → String) (all : List (Article × List String))
    (server title : String) :
    match (applyUpdates g all).find server title with
    | none => ∀ u ∈ all, ¬ (g u.1.url = server ∧ u.1.title = title)
    | some (a, L) =>
      (∃ u ∈ all, (g u.1.url = server ∧ u.1.title = title) ∧ u.1 = a) ∧
      (∀ u ∈ all, (g u.1.url = server ∧ u.1.title = title) → a = u.1 ∨ a < u.1) ∧
      L.Sorted (· ≤ ·) ∧
      ∀ w, (∀ u ∈ all, (g u.1.url = server ∧ u.1.title = title) → L.count w ≤ u.2.count w) ∧
           ∃ u ∈ all, (g u.1.url = server ∧ u.1.title = title) ∧ L.count w = u.2.count w := by
  induction all using List.reverseRecOn with
  | nil => simp [applyUpdates, Resolver.find, Map.find]
  | append_singleton all u ih =>
    rw [applyUpdates_snoc]
    by_cases hk : g u.1.url = server ∧ u.1.title = title
    · obtain ⟨hs, ht⟩ := hk
      subst hs; subst ht
      unfold resolverUpdate
      simp only
      cases hf : (applyUpdates g all).find (g u.1.url) u.1.title with
      | none =>
        rw [hf] at ih
        simp only at ih
        simp only [Resolver.find_store_self]
        refine ⟨⟨u, by simp, ⟨rfl, rfl⟩, rfl⟩, ?_, std_sort_sorted _, ?_⟩
        · intro v hv hkv
          rcases List.mem_append.1 hv with hv | hv
          · exact absurd hkv (ih v hv)
          · simp only [List.mem_singleton] at hv
            subst hv; exact Or.inl rfl
        · intro w
          refine ⟨?_, ⟨u, by simp, ⟨rfl, rfl⟩, std_sort_count _ _⟩⟩
          intro v hv hkv
          rcases List.mem_append.1 hv with hv | hv
          · exact absurd hkv (ih v hv)
          · simp only [List.mem_singleton] at hv
            subst hv; exact le_of_eq (std_sort_count _ _)
      | some old =>
        obtain ⟨a, L⟩ := old
        rw [hf] at ih
        simp only at ih
        obtain ⟨⟨u₀, hu₀, hk₀, ha₀⟩, hmin, hsorted, hcount⟩ := ih
        simp only [Resolver.find_store_self]
        obtain ⟨hm₁, hm₂, hm₃⟩ := std_min_spec a u.1
        refine ⟨?_, ?_, set_intersection_sorted _ hsorted, ?_⟩
        · rcases hm₁ with h | h
          · exact ⟨u₀, by simp [hu₀], hk₀, by rw [h, ha₀]⟩
          · exact ⟨u, by simp, ⟨rfl, rfl⟩, h.symm⟩
        · intro v hv hkv
          rcases List.mem_append.1 hv with hv | hv
          · rcases hmin v hv hkv with h | h
            · rcases hm₂ with h' | h'
              · exact Or.inl (by rw [h', h])
              · exact Or.inr (h ▸ h')
            · rcases hm₂ with h' | h'
              · exact Or.inr (by rw [h']; exact h)
              · exact Or.inr (Article.lt_trans' h' h)
          · simp only [List.mem_singleton] at hv
            subst hv
            rcases hm₃ with h | h
            · exact Or.inl h
            · exact Or.inr h
        · intro w
          have hc : (set_intersection L (std_sort u.2)).count w =
              min (L.count w) (u.2.count w) := by
            rw [count_set_intersection hsorted (std_sort_sorted _), std_sort_count]
          obtain ⟨hle, v₀, hv₀, hkv₀, heq⟩ := hcount w
          refine ⟨?_, ?_⟩
          · intro v hv hkv
            rw [hc]
            rcases List.mem_append.1 hv with hv | hv
            · exact le_trans (min_le_left _ _) (hle v hv hkv)
            · simp only [List.mem_singleton] at hv
              subst hv; exact min_le_right _ _
          · rcases le_total (L.count w) (u.2.count w) with h | h
            · exact ⟨v₀, by simp [hv₀], hkv₀, by rw [hc, min_eq_left h, heq]⟩
            · exact ⟨u, by simp, ⟨rfl, rfl⟩, by rw [hc, min_eq_right h]⟩
    · have hne : ¬ (server = g u.1.url ∧ title = u.1.title) := fun h => hk ⟨h.1.symm, h.2.symm⟩
      have hfind : (resolverUpdate g (applyUpdates g all) u.1 u.2).find server title =
          (applyUpdates g all).find server title := by
        unfold resolverUpdate
        simp only
        cases (applyUpdates g all).find (g u.1.url) u.1.title with
        | none => exact Resolver.find_store_ne _ hne _
        | some old => exact Resolver.find_store_ne _ hne _
      rw [hfind]
      cases hf : (applyUpdates g all).find server title with
      | none =>
        rw [hf] at ih
        simp only at ih ⊢
        intro v hv
        rcases List.mem_append.1 hv with hv | hv
        · exact ih v hv
        · simp only [List.mem_singleton] at hv
          subst hv; exact hk
      | some old =>
        obtain ⟨a, L⟩ := old
        rw [hf] at ih
        simp only at ih ⊢
        obtain ⟨⟨u₀, hu₀, hk₀, ha₀⟩, hmin, hsorted, hcount⟩ := ih
        refine ⟨⟨u₀, by simp [hu₀], hk₀, ha₀⟩, ?_, hsorted, ?_⟩
        · intro v hv hkv
          rcases List.mem_append.1 hv with hv | hv
          · exact hmin v hv hkv
          · simp only [List.mem_singleton] at hv
            subst hv; exact absurd hkv hk
        · intro w
          obtain ⟨hle, v₀, hv₀, hkv₀, heq⟩ := hcount w
          refine ⟨?_, ⟨v₀, by simp [hv₀], hkv₀, heq⟩⟩
          intro v hv hkv
          rcases List.mem_append.1 hv with hv | hv
          · exact hle v hv hkv
          · simp only [List.mem_singleton] at hv
            subst hv; exact absurd hkv hk

/-! ### The index -/

theorem RSSIndex.add_apply (index : RSSIndex) (article : Article) (tokens : List String)
    (w : String) (b : Article) :
    (index.add article tokens) w b = index w b + (if b = article then tokens.count w else 0) := by
  unfold RSSIndex.add
  induction tokens generalizing index with
  | nil => simp
  | cons t ts ih =>
    rw [List.foldl_cons, ih]
    by_cases hb : b = article
    · by_cases hw : w = t
      · subst hw
        simp [hb]; omega
      · simp [hb, hw, List.count_cons_of_ne hw]
    · simp [hb]

theorem foldl_add_apply (es : List (Article × List String)) (index : RSSIndex)
    (w : String) (b : Article) :
    (es.foldl (fun idx e => idx.add e.1 e.2) index) w b =
      index w b + (es.map (fun e => if b = e.1 then e.2.count w else 0)).sum := by
  induction es generalizing index with
  | nil => simp
  | cons e es ih =>
    rw [List.foldl_cons, ih, RSSIndex.add_apply]
    simp [Nat.add_assoc]

theorem sum_of_distinct {es : List (Article × List String)}
    (hd : es.Pairwise (fun e e' => e.1 ≠ e'.1)) {e : Article × List String} (he : e ∈ es)
    (w : String) :
    (es.map (fun e' => if e.1 = e'.1 then e'.2.count w else 0)).sum = e.2.count w := by
  induction es with
  | nil => simp at he
  | cons e₀ es ih =>
    have hrest : ∀ e' ∈ es, e₀.1 ≠ e'.1 := fun e' h => List.rel_of_pairwise_cons hd h
    rw [List.map_cons, List.sum_cons]
    rcases List.mem_cons.1 he with h | h
    · subst h
      have hz : (es.map (fun e' => if e.1 = e'.1 then e'.2.count w else 0)).sum = 0 := by
        apply List.sum_eq_zero
        intro x hx
        obtain ⟨e', he', rfl⟩ := List.mem_map.1 hx
        simp [hrest e' he']
      simp [hz]
    · have hne : e.1 ≠ e₀.1 := fun h' => hrest e h h'.symm
      rw [if_neg hne, ih (List.Pairwise.of_cons hd) h]
      simp

/-- In a well-formed resolver no two entries hold the same article. -/
theorem Resolver.WF.entries_distinct {g : String → String} {r : Resolver}
    (hr : Resolver.WF g r) : r.entries.Pairwise (fun e e' => e.1 ≠ e'.1) := by
  unfold Resolver.entries
  rw [List.pairwise_flatMap]
  constructor
  · intro sm hsm
    obtain ⟨server, m⟩ := sm
    obtain ⟨hord, hent⟩ := hr.2 server m hsm
    rw [List.pairwise_map]
    refine List.Pairwise.imp_of_mem ?_ hord
    intro x y hx hy hlt heq
    obtain ⟨tx, ax, Lx⟩ := x
    obtain ⟨ty, ay, Ly⟩ := y
    have h1 := (hent tx ax Lx hx).1
    have h2 := (hent ty ay Ly hy).1
    simp only at heq hlt
    rw [← h1, ← h2, heq] at hlt
    exact lt_irrefl _ hlt
  · refine List.Pairwise.imp_of_mem ?_ hr.1
    intro x y hx hy hlt e he e' he' heq
    obtain ⟨sx, mx⟩ := x
    obtain ⟨sy, my⟩ := y
    obtain ⟨f, hf, rfl⟩ := List.mem_map.1 he
    obtain ⟨f', hf', rfl⟩ := List.mem_map.1 he'
    obtain ⟨tf, af, Lf⟩ := f
    obtain ⟨tf', af', Lf'⟩ := f'
    have h1 := ((hr.2 sx mx hx).2 tf af Lf hf).2.1
    have h2 := ((hr.2 sy my hy).2 tf' af' Lf' hf').2.1
    simp only at heq hlt
    rw [← h1, ← h2, heq] at hlt
    exact lt_irrefl _ hlt

theorem foldIndex_entry {g : String → String} {r : Resolver} (hr : Resolver.WF g r)
    {e : Article × List String} (he : e ∈ r.entries) (w : String) :
    foldIndex (fun _ _ => 0) r w e.1 = e.2.count w := by
  unfold foldIndex
  rw [foldl_add_apply, sum_of_distinct hr.entries_distinct he]
  simp

theorem Resolver.mem_entries_of_find {r : Resolver} {server title : String}
    {v : Article × List String} (h : r.find server title = some v) : v ∈ r.entries := by
  obtain ⟨m, hm, hv⟩ := Resolver.entry_of_find h
  unfold Resolver.entries
  rw [List.mem_flatMap]
  exact ⟨(server, m), hm, List.mem_map.2 ⟨(title, v), hv, rfl⟩⟩

/-! ### Counting threads -/

theorem countP_set {α : Type} (p : α → Bool) {l : List α} {j : Nat} {a : α} (a' : α)
    (h : l[j]? = some a) :
    (l.set j a').countP p + (if p a then 1 else 0) = l.countP p + (if p a' then 1 else 0) := by
  induction l generalizing j with
  | nil => simp at h
  | cons x l ih =>
    cases j with
    | zero =>
      simp only [List.getElem?_cons_zero, Option.some.injEq] at h
      subst h
      simp only [List.set_cons_zero, List.countP_cons]
      omega
    | succ j =>
      simp only [List.getElem?_cons_succ] at h
      simp only [List.set_cons_succ, List.countP_cons]
      have := ih h
      omega

theorem sum_map_set {α : Type} (f : α → Nat) {l : List α} {i : Nat} {x : α} (x' : α)
    (h : l[i]? = some x) :
    ((l.set i x').map f).sum + f x = (l.map f).sum + f x' := by
  induction l generalizing i with
  | nil => simp at h
  | cons y l ih =>
    cases i with
    | zero =>
      simp only [List.getElem?_cons_zero, Option.some.injEq] at h
      subst h
      simp only [List.set_cons_zero, List.map_cons, List.sum_cons]
      omega
    | succ i =>
      simp only [List.getElem?_cons_succ] at h
      simp only [List.set_cons_succ, List.map_cons, List.sum_cons]
      have := ih h
      omega

theorem map_set_of_eq {α β : Type} (f : α → β) {l : List α} {i : Nat} {x x' : α}
    (h : l[i]? = some x) (hx : f x' = f x) : (l.set i x').map f = l.map f := by
  induction l generalizing i with
  | nil => simp
  | cons y l ih =>
    cases i with
    | zero =>
      simp only [List.getElem?_cons_zero, Option.some.injEq] at h
      subst h
      simp [hx]
    | succ i =>
      simp only [List.getElem?_cons_succ] at h
      simp [ih h]

theorem artCount_of_arts_eq (p : ArticleThread → Bool) {s s' : State}
    (h : s'.feeds.map (fun f => f.arts) = s.feeds.map (fun f => f.arts)) :
    artCount p s' = artCount p s := by
  unfold artCount; rw [h]

theorem artCount_set (p : ArticleThread → Bool) {s : State} {i j : Nat} {f : FeedThread}
    {a : ArticleThread} (sh : Shared) (m : MPc) (pc : FPc) (a' : ArticleThread)
    (hf : s.feeds[i]? = some f) (ha : f.arts[j]? = some a) :
    artCount p { sh := sh, main := m,
                 feeds := s.feeds.set i { f with arts := f.arts.set j a', pc := pc } } +
        (if p a then 1 else 0) =
      artCount p s + (if p a' then 1 else 0) := by
  unfold artCount
  simp only [List.map_map, List.map_set]
  have h1 := sum_map_set (fun f => (f.arts.countP p)) { f with arts := f.arts.set j a', pc := pc } hf
  have h2 := countP_set p a' ha
  simp only [Function.comp_def] at *
  simp only [List.map_set] at h1
  omega

/-! ### Inversion of the transitions -/

theorem step_main_inv {g : String → String} {s s' : State}
    (h : step g s Tid.main = some s') : mainStep s = some s' := h

theorem step_feed_inv {g : String → String} {s s' : State} {i : Nat}
    (h : step g s (Tid.feed i) = some s') :
    ∃ f sh f', s.feeds[i]? = some f ∧ feedStep s.sh f = some (sh, f') ∧
      s' = { sh := sh, main := s.main, feeds := s.feeds.set i f' } := by
  simp only [step] at h
  cases hf : s.feeds[i]? with
  | none => simp [hf] at h
  | some f =>
    simp only [hf] at h
    cases hs : feedStep s.sh f with
    | none => simp [hs] at h
    | some r =>
      obtain ⟨sh, f'⟩ := r
      simp only [hs, Option.some.injEq] at h
      exact ⟨f, sh, f', rfl, hs, h.symm⟩

theorem step_article_inv {g : String → String} {s s' : State} {i j : Nat}
    (h : step g s (Tid.article i j) = some s') :
    ∃ f a sh a', s.feeds[i]? = some f ∧ f.arts[j]? = some a ∧
      articleStep g s.sh a = some (sh, a') ∧
      s' = { sh := sh, main := s.main,
             feeds := s.feeds.set i { f with arts := f.arts.set j a', pc := f.pc } } := by
  simp only [step] at h
  cases hf : s.feeds[i]? with
  | none => simp [hf] at h
  | some f =>
    simp only [hf] at h
    cases ha : f.arts[j]? with
    | none => simp [ha] at h
    | some a =>
      simp only [ha] at h
      cases hs : articleStep g s.sh a with
      | none => simp [hs] at h
      | some r =>
        obtain ⟨sh, a'⟩ := r
        simp only [hs, Option.some.injEq] at h
        exact ⟨f, a, sh, a', rfl, ha, hs, h.symm⟩

/-- The transitions of an article worker, one disjunct per branch of the code. -/
theorem articleStep_cases {g : String → String} {sh sh' : Shared} {a a' : ArticleThread}
    (h : articleStep g sh a = some (sh', a')) :
    (a.pc = .dedup ∧ a.article.url ∈ sh.seenArticlesUri ∧
      sh' = { sh with trace := sh.trace ++ [Event.articleSkipped a.article] } ∧
      a' = { a with pc := .exit }) ∨
    (a.pc = .dedup ∧ a.article.url ∉ sh.seenArticlesUri ∧
      sh' = { sh with seenArticlesUri := a.article.url :: sh.seenArticlesUri } ∧
      a' = { a with pc := .getSem }) ∨
    (a.pc = .getSem ∧ Map.find (g a.article.url) sh.serverSem = none ∧
      sh' = { sh with serverSem := Map.insert (g a.article.url) 8 sh.serverSem } ∧
      a' = { a with pc := .waitSem }) ∨
    (a.pc = .getSem ∧ (∃ n, Map.find (g a.article.url) sh.serverSem = some n) ∧
      sh' = sh ∧ a' = { a with pc := .waitSem }) ∨
    (a.pc = .waitSem ∧
      (∃ n, Map.find (g a.article.url) sh.serverSem = some (n + 1) ∧
        sh' = { sh with serverSem := Map.insert (g a.article.url) n sh.serverSem }) ∧
      a' = { a with pc := .parse }) ∨
    (a.pc = .parse ∧
      (∃ tokens, a.doc = some tokens ∧ a' = { a with tokens := tokens, pc := .signal }) ∧
      sh' = { sh with trace := sh.trace ++
                [Event.articleBeginning a.article, Event.articleParse a.article.url] }) ∨
    (a.pc = .parse ∧ a.doc = none ∧
      sh' = { sh with trace := sh.trace ++
                [Event.articleBeginning a.article, Event.articleParse a.article.url,
                 Event.articleFailure a.article] } ∧
      a' = { a with pc := .exit }) ∨
    (a.pc = .signal ∧
      sh' = { sh with
              serverSem := Map.insert (g a.article.url)
                ((Map.find (g a.article.url) sh.serverSem).getD 0 + 1) sh.serverSem } ∧
      a' = { a with pc := .update }) ∨
    (a.pc = .update ∧
      sh' = { sh with seenServerTitleToArticleTokens :=
                resolverUpdate g sh.seenServerTitleToArticleTokens a.article a.tokens } ∧
      a' = { a with pc := .exit }) ∨
    (a.pc = .exit ∧ sh' = { sh with articleSem := sh.articleSem + 1 } ∧
      a' = { a with pc := .done }) := by
  unfold articleStep at h
  cases hpc : a.pc <;> simp only [hpc] at h
  · simp at h
  · split_ifs at h with hmem
    · simp only [Option.some.injEq, Prod.mk.injEq] at h
      exact Or.inl ⟨rfl, hmem, h.1.symm, h.2.symm⟩
    · simp only [Option.some.injEq, Prod.mk.injEq] at h
      exact Or.inr (Or.inl ⟨rfl, hmem, h.1.symm, h.2.symm⟩)
  · cases hf : Map.find (g a.article.url) sh.serverSem with
    | none =>
      simp only [hf, Option.some.injEq, Prod.mk.injEq] at h
      exact Or.inr (Or.inr (Or.inl ⟨rfl, rfl, h.1.symm, h.2.symm⟩))
    | some n =>
      simp only [hf, Option.some.injEq, Prod.mk.injEq] at h
      exact Or.inr (Or.inr (Or.inr (Or.inl ⟨rfl, ⟨n, rfl⟩, h.1.symm, h.2.symm⟩)))
  · cases hf : Map.find (g a.article.url) sh.serverSem with
    | none => simp [hf] at h
    | some n =>
      cases n with
      | zero => simp [hf] at h
      | succ n =>
        simp only [hf, Option.some.injEq, Prod.mk.injEq] at h
        exact Or.inr (Or.inr (Or.inr (Or.inr (Or.inl ⟨rfl, ⟨n, rfl, h.1.symm⟩, h.2.symm⟩))))
  · cases hd : a.doc with
    | some tokens =>
      simp only [hd, Option.some.injEq, Prod.mk.injEq] at h
      exact Or.inr (Or.inr (Or.inr (Or.inr (Or.inr (Or.inl
        ⟨rfl, ⟨tokens, rfl, h.2.symm⟩, h.1.symm⟩)))))
    | none =>
      simp only [hd, Option.some.injEq, Prod.mk.injEq] at h
      exact Or.inr (Or.inr (Or.inr (Or.inr (Or.inr (Or.inr (Or.inl
        ⟨rfl, rfl, h.1.symm, h.2.symm⟩))))))
  · simp only [Option.some.injEq, Prod.mk.injEq] at h
    exact Or.inr (Or.inr (Or.inr (Or.inr (Or.inr (Or.inr (Or.inr (Or.inl
      ⟨rfl, h.1.symm, h.2.symm⟩)))))))
  · simp only [Option.some.injEq, Prod.mk.injEq] at h
    exact Or.inr (Or.inr (Or.inr (Or.inr (Or.inr (Or.inr (Or.inr (Or.inr (Or.inl
      ⟨rfl, h.1.symm, h.2.symm⟩))))))))
  · simp only [Option.some.injEq, Prod.mk.injEq] at h
    exact Or.inr (Or.inr (Or.inr (Or.inr (Or.inr (Or.inr (Or.inr (Or.inr (Or.inr
      ⟨rfl, h.1.symm, h.2.symm⟩))))))))
  · simp at h

/-- The transitions of a feed worker, one disjunct per branch of the code. -/
theorem feedStep_cases {sh sh' : Shared} {f f' : FeedThread}
    (h : feedStep sh f = some (sh', f')) :
    (f.pc = .dedup ∧ f.feedUri ∈ sh.seenFeedsUri ∧
      sh' = { sh with trace := sh.trace ++ [Event.feedSkipped f.feedUri] } ∧
      f' = { f with pc := .exit }) ∨
    (f.pc = .dedup ∧ f.feedUri ∉ sh.seenFeedsUri ∧
      sh' = { sh with seenFeedsUri := f.feedUri :: sh.seenFeedsUri } ∧
      f' = { f with pc := .parse }) ∨
    (f.pc = .parse ∧ f.parses = true ∧
      sh' = { sh with trace := sh.trace ++
                [Event.feedBeginning f.feedUri, Event.feedParse f.feedUri] } ∧
      f' = { f with pc := .spawn 0 }) ∨
    (f.pc = .parse ∧ f.parses = false ∧
      sh' = { sh with trace := sh.trace ++
                [Event.feedBeginning f.feedUri, Event.feedParse f.feedUri,
                 Event.feedFailure f.feedUri] } ∧
      f' = { f with pc := .exit }) ∨
    (∃ j, f.pc = .spawn j ∧ f.arts[j]? = none ∧ sh' = sh ∧ f' = { f with pc := .join }) ∨
    (∃ j a n, f.pc = .spawn j ∧ f.arts[j]? = some a ∧ sh.articleSem = n + 1 ∧
      sh' = { sh with articleSem := n } ∧
      f' = { f with arts := f.arts.set j { a with pc := .dedup }, pc := .spawn (j + 1) }) ∨
    (f.pc = .join ∧ (∀ a ∈ f.arts, a.pc = .done) ∧
      sh' = { sh with trace := sh.trace ++ [Event.feedEnd f.feedUri] } ∧
      f' = { f with pc := .exit }) ∨
    (f.pc = .exit ∧ sh' = { sh with feedSem := sh.feedSem + 1 } ∧
      f' = { f with pc := .done }) := by
  unfold feedStep at h
  cases hpc : f.pc <;> simp only [hpc] at h
  · simp at h
  · split_ifs at h with hmem
    · simp only [Option.some.injEq, Prod.mk.injEq] at h
      exact Or.inl ⟨rfl, hmem, h.1.symm, h.2.symm⟩
    · simp only [Option.some.injEq, Prod.mk.injEq] at h
      exact Or.inr (Or.inl ⟨rfl, hmem, h.1.symm, h.2.symm⟩)
  · split_ifs at h with hp
    · simp only [Option.some.injEq, Prod.mk.injEq] at h
      exact Or.inr (Or.inr (Or.inl ⟨rfl, hp, h.1.symm, h.2.symm⟩))
    · simp only [Option.some.injEq, Prod.mk.injEq] at h
      exact Or.inr (Or.inr (Or.inr (Or.inl ⟨rfl, by simpa using hp, h.1.symm, h.2.symm⟩)))
  · rename_i j
    cases ha : f.arts[j]? with
    | none =>
      simp only [ha, Option.some.injEq, Prod.mk.injEq] at h
      exact Or.inr (Or.inr (Or.inr (Or.inr (Or.inl ⟨j, rfl, ha, h.1.symm, h.2.symm⟩))))
    | some a =>
      simp only [ha] at h
      cases hn : sh.articleSem with
      | zero => simp [hn] at h
      | succ n =>
        simp only [hn, Option.some.injEq, Prod.mk.injEq] at h
        exact Or.inr (Or.inr (Or.inr (Or.inr (Or.inr (Or.inl
          ⟨j, a, n, rfl, ha, rfl, h.1.symm, h.2.symm⟩)))))
  · split_ifs at h with hall
    simp only [Option.some.injEq, Prod.mk.injEq] at h
    refine Or.inr (Or.inr (Or.inr (Or.inr (Or.inr (Or.inr (Or.inl
      ⟨rfl, ?_, h.1.symm, h.2.symm⟩))))))
    simpa using hall
  · simp only [Option.some.injEq, Prod.mk.injEq] at h
    exact Or.inr (Or.inr (Or.inr (Or.inr (Or.inr (Or.inr (Or.inr
      ⟨rfl, h.1.symm, h.2.symm⟩))))))
  · simp at h

/-- The transitions of `processFeeds`, one disjunct per branch of the code. -/
theorem mainStep_cases {s s' : State} (h : mainStep s = some s') :
    (∃ i, s.main = .spawn i ∧ s.feeds[i]? = none ∧
      s' = { sh := s.sh, main := .join, feeds := s.feeds }) ∨
    (∃ i f n, s.main = .spawn i ∧ s.feeds[i]? = some f ∧ s.sh.feedSem = n + 1 ∧
      s' = { sh := { s.sh with feedSem := n }, main := .spawn (i + 1),
             feeds := s.feeds.set i { f with pc := .dedup } }) ∨
    (s.main = .join ∧ (∀ f ∈ s.feeds, f.pc = .done) ∧
      s' = { sh := s.sh, main := .fold, feeds := s.feeds }) ∨
    (s.main = .fold ∧
      s' = { sh := { s.sh with
                     index := foldIndex s.sh.index s.sh.seenServerTitleToArticleTokens },
             main := .done, feeds := s.feeds }) := by
  unfold mainStep at h
  cases hpc : s.main <;> simp only [hpc] at h
  · rename_i i
    cases hf : s.feeds[i]? with
    | none =>
      simp only [hf, Option.some.injEq] at h
      exact Or.inl ⟨i, rfl, hf, h.symm⟩
    | some f =>
      simp only [hf] at h
      cases hn : s.sh.feedSem with
      | zero => simp [hn] at h
      | succ n =>
        simp only [hn, Option.some.injEq] at h
        exact Or.inr (Or.inl ⟨i, f, n, rfl, hf, rfl, h.symm⟩)
  · split_ifs at h with hall
    simp only [Option.some.injEq] at h
    refine Or.inr (Or.inr (Or.inl ⟨rfl, ?_, h.symm⟩))
    simpa using hall
  · simp only [Option.some.injEq] at h
    exact Or.inr (Or.inr (Or.inr ⟨rfl, h.symm⟩))
  · simp at h

/-! ### Dedup by URL -/

theorem artCount_eq_zero (p : ArticleThread → Bool) {s : State}
    (h : ∀ f ∈ s.feeds, ∀ a ∈ f.arts, p a = false) : artCount p s = 0 := by
  unfold artCount
  apply List.sum_eq_zero
  intro x hx
  simp only [List.map_map, List.mem_map, Function.comp_def] at hx
  obtain ⟨f, hf, rfl⟩ := hx
  rw [List.countP_eq_zero]
  intro a ha
  simp [h f hf a ha]

theorem init_arts_idle {feeds : List Feed} :
    ∀ f ∈ (init feeds).feeds, f.pc = .idle ∧ ∀ a ∈ f.arts, a.pc = .idle := by
  intro f hf
  simp only [init, List.mem_map] at hf
  obtain ⟨fd, _, rfl⟩ := hf
  refine ⟨rfl, ?_⟩
  intro a ha
  simp only [Feed.thread, List.mem_map] at ha
  obtain ⟨x, _, rfl⟩ := ha
  rfl

/-- The calls of the tokenizer for `u` made so far plus the workers that hold the claim
on `u` and have not called yet: none while `u` is not in `seenArticlesUri`, at most one
afterwards. -/
theorem doc_parse_invariant (g : String → String) (feeds : List Feed) (u : String)
    {s : State} (hs : Reachable g (init feeds) s) :
    s.sh.trace.count (Event.articleParse u) + artCount (pendingDoc u) s ≤
      (if u ∈ s.sh.seenArticlesUri then 1 else 0) := by
  induction hs with
  | start =>
    have h0 : artCount (pendingDoc u) (init feeds) = 0 := by
      apply artCount_eq_zero
      intro f hf a ha
      simp [pendingDoc, (init_arts_idle f hf).2 a ha]
    have h1 : (init feeds).sh.trace = [] := rfl
    simp [h0, h1]
  | @next s s' tid _ hstep ih =>
    cases tid with
    | main =>
      have hm := mainStep_cases (step_main_inv hstep)
      have harts : artCount (pendingDoc u) s' = artCount (pendingDoc u) s := by
        apply artCount_of_arts_eq
        rcases hm with ⟨i, _, _, rfl⟩ | ⟨i, f, n, _, hf, _, rfl⟩ | ⟨_, _, rfl⟩ | ⟨_, rfl⟩
        · rfl
        · exact map_set_of_eq _ hf rfl
        · rfl
        · rfl
      have hsh : s'.sh.trace = s.sh.trace ∧ s'.sh.seenArticlesUri = s.sh.seenArticlesUri := by
        rcases hm with ⟨i, _, _, rfl⟩ | ⟨i, f, n, _, hf, _, rfl⟩ | ⟨_, _, rfl⟩ | ⟨_, rfl⟩ <;>
          exact ⟨rfl, rfl⟩
      rw [harts, hsh.1, hsh.2]
      exact ih
    | feed i =>
      obtain ⟨f, sh, f', hf, hfs, rfl⟩ := step_feed_inv hstep
      have hseen : sh.seenArticlesUri = s.sh.seenArticlesUri ∧
          sh.trace.count (Event.articleParse u) = s.sh.trace.count (Event.articleParse u) ∧
          artCount (pendingDoc u) { sh := sh, main := s.main, feeds := s.feeds.set i f' } ≤
            artCount (pendingDoc u) s := by
        rcases feedStep_cases hfs with ⟨_, _, rfl, rfl⟩ | ⟨_, _, rfl, rfl⟩ | ⟨_, _, rfl, rfl⟩ |
          ⟨_, _, rfl, rfl⟩ | ⟨j, _, _, rfl, rfl⟩ | ⟨j, a, n, _, ha, _, rfl, rfl⟩ |
          ⟨_, _, rfl, rfl⟩ | ⟨_, rfl, rfl⟩
        case inr.inr.inr.inr.inr.inl =>
          refine ⟨rfl, rfl, ?_⟩
          have := artCount_set (pendingDoc u) { s.sh with articleSem := n } s.main
            (.spawn (j + 1)) { a with pc := .dedup } hf ha
          simp only [pendingDoc] at this ⊢
          simp at this
          omega
        all_goals
          refine ⟨rfl, by simp [List.count_append], le_of_eq (artCount_of_arts_eq _ ?_)⟩
          exact map_set_of_eq _ hf rfl
      obtain ⟨h1, h2, h3⟩ := hseen
      simp only [h1, h2]
      omega
    | article i j =>
      obtain ⟨f, a, sh, a', hf, ha, has, hs'⟩ := step_article_inv hstep
      have hset := artCount_set (pendingDoc u) sh s.main f.pc a' hf ha
      rw [← hs'] at hset
      have hsh : s'.sh = sh := by rw [hs']
      rw [hsh]
      generalize artCount (pendingDoc u) s' = N' at hset ⊢
      generalize artCount (pendingDoc u) s = N at hset ih
      rcases articleStep_cases has with ⟨hpc, hmem, rfl, rfl⟩ | ⟨hpc, hmem, rfl, rfl⟩ |
        ⟨hpc, _, rfl, rfl⟩ | ⟨hpc, _, rfl, rfl⟩ | ⟨hpc, ⟨n, _, rfl⟩, rfl⟩ |
        ⟨hpc, ⟨tokens, _, rfl⟩, rfl⟩ | ⟨hpc, _, rfl, rfl⟩ | ⟨hpc, rfl, rfl⟩ |
        ⟨hpc, rfl, rfl⟩ | ⟨hpc, rfl, rfl⟩ <;>
        simp only [pendingDoc, hpc] at hset <;>
        by_cases hu : a.article.url = u <;>
        (try subst hu) <;>
        (try have hu' : ¬ u = a.article.url := fun h => hu h.symm) <;>
        simp [*, List.count_append, List.count_cons] at hset ih ⊢ <;>
        (try split_ifs at *) <;> omega

/-- The same for the feed parser and `seenFeedsUri`. -/
theorem feed_parse_invariant (g : String → String) (feeds : List Feed) (u : String)
    {s : State} (hs : Reachable g (init feeds) s) :
    s.sh.trace.count (Event.feedParse u) + s.feeds.countP (pendingFeed u) ≤
      (if u ∈ s.sh.seenFeedsUri then 1 else 0) := by
  induction hs with
  | start =>
    have h0 : (init feeds).feeds.countP (pendingFeed u) = 0 := by
      rw [List.countP_eq_zero]
      intro f hf
      simp [pendingFeed, (init_arts_idle f hf).1]
    have h1 : (init feeds).sh.trace = [] := rfl
    simp [h0, h1]
  | @next s s' tid _ hstep ih =>
    cases tid with
    | main =>
      rcases mainStep_cases (step_main_inv hstep) with
        ⟨i, _, _, rfl⟩ | ⟨i, f, n, _, hf, _, rfl⟩ | ⟨_, _, rfl⟩ | ⟨_, rfl⟩
      · exact ih
      · have := countP_set (pendingFeed u) { f with pc := .dedup } hf
        have h1 : pendingFeed u { f with pc := .dedup } = false := by simp [pendingFeed]
        rw [h1] at this
        show s.sh.trace.count (Event.feedParse u) +
            (s.feeds.set i { f with pc := .dedup }).countP (pendingFeed u) ≤
          (if u ∈ s.sh.seenFeedsUri then 1 else 0)
        generalize (s.feeds.set i { f with pc := .dedup }).countP (pendingFeed u) = N' at this ⊢
        simp only [Bool.false_eq_true, if_false] at this
        split_ifs at this ih ⊢ <;> omega
      · exact ih
      · exact ih
    | feed i =>
      obtain ⟨f, sh, f', hf, hfs, rfl⟩ := step_feed_inv hstep
      have hset := countP_set (pendingFeed u) f' hf
      simp only
      generalize (s.feeds.set i f').countP (pendingFeed u) = N' at hset ⊢
      generalize s.feeds.countP (pendingFeed u) = N at hset ih
      rcases feedStep_cases hfs with ⟨hpc, hmem, rfl, rfl⟩ | ⟨hpc, hmem, rfl, rfl⟩ |
        ⟨hpc, _, rfl, rfl⟩ | ⟨hpc, _, rfl, rfl⟩ | ⟨j, hpc, _, rfl, rfl⟩ |
        ⟨j, a, n, hpc, ha, _, rfl, rfl⟩ | ⟨hpc, _, rfl, rfl⟩ | ⟨hpc, rfl, rfl⟩ <;>
        simp only [pendingFeed, hpc] at hset <;>
        by_cases hu : f.feedUri = u <;>
        (try subst hu) <;>
        (try have hu' : ¬ u = f.feedUri := fun h => hu h.symm) <;>
        simp [*, List.count_append, List.count_cons] at hset ih ⊢ <;>
        (try split_ifs at *) <;> omega
    | article i j =>
      obtain ⟨f, a, sh, a', hf, ha, has, rfl⟩ := step_article_inv hstep
      have hset := countP_set (pendingFeed u)
        { f with arts := f.arts.set j a', pc := f.pc } hf
      simp only [pendingFeed] at hset ih ⊢
      simp only [add_left_inj] at hset
      rw [hset]
      rcases articleStep_cases has with ⟨hpc, hmem, rfl, rfl⟩ | ⟨hpc, hmem, rfl, rfl⟩ |
        ⟨hpc, _, rfl, rfl⟩ | ⟨hpc, _, rfl, rfl⟩ | ⟨hpc, ⟨n, _, rfl⟩, rfl⟩ |
        ⟨hpc, ⟨tokens, _, rfl⟩, rfl⟩ | ⟨hpc, _, rfl, rfl⟩ | ⟨hpc, rfl, rfl⟩ |
        ⟨hpc, rfl, rfl⟩ | ⟨hpc, rfl, rfl⟩ <;>
        simp [List.count_append] <;> exact ih

theorem reachable_of_run {g : String → String} {s0 s : State} {sched : List Tid}
    (h : run g s0 sched = some s) : Reachable g s0 s := by
  suffices H : ∀ (sched : List Tid) (s1 : State), Reachable g s0 s1 →
      run g s1 sched = some s → Reachable g s0 s from H sched s0 Reachable.start h
  intro sched
  induction sched with
  | nil =>
    intro s1 h1 hr
    simp only [run, Option.some.injEq] at hr
    exact hr ▸ h1
  | cons tid rest ih =>
    intro s1 h1 hr
    simp only [run] at hr
    cases hstep : step g s1 tid with
    | none => simp [hstep] at hr
    | some s2 =>
      simp only [hstep] at hr
      exact ih s2 (Reachable.next tid h1 hstep) hr

/-- C4. Dedup by URL: in every state of a crawl the feed parser has been called at most
once for each feed URL and the tokenizer at most once for each article URL, whatever
the feed list and the article lists repeat; a worker that finds its URL already in the
seen set takes the skip branch: it logs the skip, leaves the resolver alone, goes to
its exit, and from its exit it only ends, without any call or update. -/
theorem dedup_by_url (g : String → String) (feeds : List Feed) {s : State}
    (hs : Reachable g (init feeds) s) :
    (∀ u, s.sh.trace.count (Event.feedParse u) ≤ 1) ∧
    (∀ u, s.sh.trace.count (Event.articleParse u) ≤ 1) ∧
    (∀ i f, s.feeds[i]? = some f → f.pc = .dedup → f.feedUri ∈ s.sh.seenFeedsUri →
      step g s (.feed i) = some
        { sh := { s.sh with trace := s.sh.trace ++ [Event.feedSkipped f.feedUri] },
          main := s.main, feeds := s.feeds.set i { f with pc := .exit } }) ∧
    (∀ i f, s.feeds[i]? = some f → f.pc = .exit →
      step g s (.feed i) = some
        { sh := { s.sh with feedSem := s.sh.feedSem + 1 },
          main := s.main, feeds := s.feeds.set i { f with pc := .done } }) ∧
    (∀ i j f a, s.feeds[i]? = some f → f.arts[j]? = some a → a.pc = .dedup →
      a.article.url ∈ s.sh.seenArticlesUri →
      step g s (.article i j) = some
        { sh := { s.sh with trace := s.sh.trace ++ [Event.articleSkipped a.article] },
          main := s.main,
          feeds := s.feeds.set i { f with arts := f.arts.set j { a with pc := .exit } } }) ∧
    (∀ i j f a, s.feeds[i]? = some f → f.arts[j]? = some a → a.pc = .exit →
      step g s (.article i j) = some
        { sh := { s.sh with articleSem := s.sh.articleSem + 1 },
          main := s.main,
          feeds := s.feeds.set i { f with arts := f.arts.set j { a with pc := .done } } }) := by
  refine ⟨?_, ?_, ?_, ?_, ?_, ?_⟩
  · intro u
    have h := feed_parse_invariant g feeds u hs
    split_ifs at h <;> omega
  · intro u
    have h := doc_parse_invariant g feeds u hs
    split_ifs at h <;> omega
  · intro i f hf hpc hmem
    simp [step, hf, feedStep, hpc, hmem]
  · intro i f hf hpc
    simp [step, hf, feedStep, hpc]
  · intro i j f a hf ha hpc hmem
    simp [step, hf, ha, articleStep, hpc, hmem]
  · intro i j f a hf ha hpc
    simp [step, hf, ha, articleStep, hpc]

theorem dedup_by_url_witness :
    ∃ s, run exampleServer (init feedsS1) schedS1 = some s ∧ s.main = .done ∧
      s.sh.trace.count (Event.feedSkipped "F") = 1 ∧
      (∀ u, s.sh.trace.count (Event.feedParse u) ≤ 1) ∧
      (∀ u, s.sh.trace.count (Event.articleParse u) ≤ 1) := by
  have h : ((run exampleServer (init feedsS1) schedS1).map
      (fun s => (s.main, s.sh.trace.count (Event.feedSkipped "F")))) = some (.done, 1) := by
    decide!
  cases hr : run exampleServer (init feedsS1) schedS1 with
  | none => rw [hr] at h; simp at h
  | some s =>
    rw [hr] at h
    simp only [Option.map_some', Option.some.injEq, Prod.mk.injEq] at h
    have hd := dedup_by_url exampleServer feedsS1 (reachable_of_run hr)
    exact ⟨s, rfl, h.1, h.2, hd.1, hd.2.1⟩

/-! ### Per-host cap -/

theorem artCount_pos (p : ArticleThread → Bool) {s : State} {i j : Nat} {f : FeedThread}
    {a : ArticleThread} (hf : s.feeds[i]? = some f) (ha : f.arts[j]? = some a)
    (hp : p a = true) : 1 ≤ artCount p s := by
  unfold artCount
  have h4 : (f.arts.countP p) ≥ 1 := by
    rw [ge_iff_le, Nat.succ_le, List.countP_pos_iff]
    exact ⟨a, List.getElem?_mem ha, hp⟩
  have h5 : ((s.feeds.map (fun f => f.arts)).map (fun l => l.countP p)).sum =
      (s.feeds.map (fun f => f.arts.countP p)).sum := by
    simp [List.map_map, Function.comp_def]
  have h6 : (fun f : FeedThread => f.arts.countP p) f ≤
      (s.feeds.map (fun f => f.arts.countP p)).sum :=
    List.single_le_sum (by simp) _ (List.mem_map.2 ⟨f, List.getElem?_mem hf, rfl⟩)
  simp only at h6
  omega

/-- The units of the semaphore of `h` that are available plus the workers of `h` in
flight never exceed 8; an absent semaphore counts as full. -/
theorem server_cap_invariant (g : String → String) (feeds : List Feed) (h : String)
    {s : State} (hs : Reachable g (init feeds) s) :
    artCount (inFlight g h) s + (Map.find h s.sh.serverSem).getD 8 ≤ 8 := by
  induction hs with
  | start =>
    have h0 : artCount (inFlight g h) (init feeds) = 0 := by
      apply artCount_eq_zero
      intro f hf a ha
      simp [inFlight, (init_arts_idle f hf).2 a ha]
    have h1 : (init feeds).sh.serverSem = [] := rfl
    simp [h0, h1, Map.find]
  | @next s s' tid _ hstep ih =>
    cases tid with
    | main =>
      have hm := mainStep_cases (step_main_inv hstep)
      have harts : artCount (inFlight g h) s' = artCount (inFlight g h) s := by
        apply artCount_of_arts_eq
        rcases hm with ⟨i, _, _, rfl⟩ | ⟨i, f, n, _, hf, _, rfl⟩ | ⟨_, _, rfl⟩ | ⟨_, rfl⟩
        · rfl
        · exact map_set_of_eq _ hf rfl
        · rfl
        · rfl
      have hsh : s'.sh.serverSem = s.sh.serverSem := by
        rcases hm with ⟨i, _, _, rfl⟩ | ⟨i, f, n, _, hf, _, rfl⟩ | ⟨_, _, rfl⟩ | ⟨_, rfl⟩ <;> rfl
      rw [harts, hsh]
      exact ih
    | feed i =>
      obtain ⟨f, sh, f', hf, hfs, rfl⟩ := step_feed_inv hstep
      have hseen : sh.serverSem = s.sh.serverSem ∧
          artCount (inFlight g h) { sh := sh, main := s.main, feeds := s.feeds.set i f' } ≤
            artCount (inFlight g h) s := by
        rcases feedStep_cases hfs with ⟨_, _, rfl, rfl⟩ | ⟨_, _, rfl, rfl⟩ | ⟨_, _, rfl, rfl⟩ |
          ⟨_, _, rfl, rfl⟩ | ⟨j, _, _, rfl, rfl⟩ | ⟨j, a, n, _, ha, _, rfl, rfl⟩ |
          ⟨_, _, rfl, rfl⟩ | ⟨_, rfl, rfl⟩
        case inr.inr.inr.inr.inr.inl =>
          refine ⟨rfl, ?_⟩
          have := artCount_set (inFlight g h) { s.sh with articleSem := n } s.main
            (.spawn (j + 1)) { a with pc := .dedup } hf ha
          simp only [inFlight] at this ⊢
          simp at this
          omega
        all_goals
          refine ⟨rfl, le_of_eq (artCount_of_arts_eq _ ?_)⟩
          exact map_set_of_eq _ hf rfl
      obtain ⟨h1, h3⟩ := hseen
      simp only [h1]
      omega
    | article i j =>
      obtain ⟨f, a, sh, a', hf, ha, has, hs'⟩ := step_article_inv hstep
      have hset := artCount_set (inFlight g h) sh s.main f.pc a' hf ha
      rw [← hs'] at hset
      have hsh : s'.sh = sh := by rw [hs']
      have hpos := fun hp => artCount_pos (inFlight g h) hf ha hp
      rw [hsh]
      generalize artCount (inFlight g h) s' = N' at hset ⊢
      generalize artCount (inFlight g h) s = N at hset ih hpos
      rcases articleStep_cases has with ⟨hpc, hmem, rfl, rfl⟩ | ⟨hpc, hmem, rfl, rfl⟩ |
        ⟨hpc, hnone, rfl, rfl⟩ | ⟨hpc, _, rfl, rfl⟩ | ⟨hpc, ⟨n, hsome, rfl⟩, rfl⟩ |
        ⟨hpc, ⟨tokens, _, rfl⟩, rfl⟩ | ⟨hpc, _, rfl, rfl⟩ | ⟨hpc, rfl, rfl⟩ |
        ⟨hpc, rfl, rfl⟩ | ⟨hpc, rfl, rfl⟩ <;>
        simp only [inFlight, hpc] at hset hpos <;>
        by_cases hu : g a.article.url = h <;>
        (try subst hu) <;>
        (try have hu' : ¬ h = g a.article.url := fun h => hu h.symm) <;>
        (try simp only [Map.find_insert_self]) <;>
        (try simp only [Map.find_insert_ne hu']) <;>
        simp [*] at hset ih hpos ⊢ <;>
        (try (cases hfind : Map.find (g a.article.url) s.sh.serverSem <;>
              simp [hfind] at ih ⊢)) <;>
        omega

/-! ### Looking up a worker -/

theorem State.art_eq {s : State} {i j : Nat} {f : FeedThread} (hf : s.feeds[i]? = some f) :
    s.art i j = f.arts[j]? := by
  simp [State.art, hf]

theorem State.art_some {s : State} {i j : Nat} {a : ArticleThread} (h : s.art i j = some a) :
    ∃ f, s.feeds[i]? = some f ∧ f.arts[j]? = some a := by
  unfold State.art at h
  cases hf : s.feeds[i]? with
  | none => simp [hf] at h
  | some f => exact ⟨f, rfl, by simpa [hf] using h⟩

theorem feeds_set_get {l : List FeedThread} {i : Nat} {f : FeedThread} (f' : FeedThread)
    (hf : l[i]? = some f) (i' : Nat) :
    (l.set i f')[i']? = if i' = i then some f' else l[i']? := by
  have hlt : i < l.length := by
    rcases Nat.lt_or_ge i l.length with h | h
    · exact h
    · rw [List.getElem?_eq_none h] at hf; simp at hf
  rw [List.getElem?_set]
  by_cases h : i = i'
  · subst h; simp [hlt]
  · have h' : ¬ i' = i := fun e => h e.symm
    simp [h, h']

theorem arts_set_get {l : List ArticleThread} {j : Nat} {a : ArticleThread}
    (a' : ArticleThread) (ha : l[j]? = some a) (j' : Nat) :
    (l.set j a')[j']? = if j' = j then some a' else l[j']? := by
  have hlt : j < l.length := by
    rcases Nat.lt_or_ge j l.length with h | h
    · exact h
    · rw [List.getElem?_eq_none h] at ha; simp at ha
  rw [List.getElem?_set]
  by_cases h : j = j'
  · subst h; simp [hlt]
  · have h' : ¬ j' = j := fun e => h e.symm
    simp [h, h']

/-- After one worker of one feed has been replaced, every other worker is as before. -/
theorem art_after_set {s : State} {i j : Nat} {f : FeedThread} {a : ArticleThread}
    (sh : Shared) (m : MPc) (pc : FPc) (a' : ArticleThread)
    (hf : s.feeds[i]? = some f) (ha : f.arts[j]? = some a) (i' j' : Nat) :
    State.art { sh := sh, main := m,
                feeds := s.feeds.set i { f with arts := f.arts.set j a', pc := pc } } i' j' =
      if i' = i ∧ j' = j then some a' else s.art i' j' := by
  unfold State.art
  simp only [feeds_set_get _ hf]
  by_cases hi : i' = i
  · subst hi
    simp only [if_true, true_and, hf, arts_set_get _ ha]
  · simp [hi]

/-- After a feed worker has moved without touching its article workers, every article
worker is as before. -/
theorem art_after_feed_set {s : State} {i : Nat} {f : FeedThread}
    (sh : Shared) (m : MPc) (f' : FeedThread) (hf : s.feeds[i]? = some f)
    (harts : f'.arts = f.arts)
    (i' j' : Nat) :
    State.art { sh := sh, main := m, feeds := s.feeds.set i f' } i' j' = s.art i' j' := by
  unfold State.art
  simp only [feeds_set_get _ hf]
  by_cases hi : i' = i
  · subst hi
    simp [hf, harts]
  · simp [hi]

/-- How to prove that every article worker of every state of a crawl satisfies `P`. -/
theorem art_invariant (g : String → String) (feeds : List Feed)
    (P : Shared → ArticleThread → Prop)
    (hinit : ∀ a, a.pc = .idle → P (init feeds).sh a)
    (hown : ∀ sh a sh' a', P sh a → articleStep g sh a = some (sh', a') → P sh' a')
    (hspawn : ∀ sh a n, P sh a → P { sh with articleSem := n } { a with pc := .dedup })
    (hart : ∀ sh a b sh' b', P sh a → articleStep g sh b = some (sh', b') → P sh' a)
    (hfeed : ∀ sh a f sh' f', P sh a → feedStep sh f = some (sh', f') → P sh' a)
    (hmain : ∀ s s' a, P s.sh a → mainStep s = some s' → P s'.sh a)
    {s : State} (hs : Reachable g (init feeds) s) :
    ∀ i j a, s.art i j = some a → P s.sh a := by
  induction hs with
  | start =>
    intro i j a ha
    obtain ⟨f, hf, ha⟩ := State.art_some ha
    exact hinit a ((init_arts_idle f (List.getElem?_mem hf)).2 a (List.getElem?_mem ha))
  | @next s s' tid _ hstep ih =>
    intro i' j' b hb
    cases tid with
    | main =>
      have hm := step_main_inv hstep
      have hart' : s'.art i' j' = s.art i' j' := by
        rcases mainStep_cases hm with
          ⟨i, _, _, rfl⟩ | ⟨i, f, n, _, hf, _, rfl⟩ | ⟨_, _, rfl⟩ | ⟨_, rfl⟩
        · rfl
        · exact art_after_feed_set _ _ { f with pc := .dedup } hf rfl i' j'
        · rfl
        · rfl
      rw [hart'] at hb
      exact hmain s s' b (ih i' j' b hb) hm
    | feed i =>
      obtain ⟨f, sh, f', hf, hfs, rfl⟩ := step_feed_inv hstep
      have hsame : f'.arts = f.arts → P sh b := by
        intro harts
        rw [art_after_feed_set _ _ f' hf harts] at hb
        exact hfeed s.sh b f sh f' (ih i' j' b hb) hfs
      rcases feedStep_cases hfs with ⟨_, _, h1, h2⟩ | ⟨_, _, h1, h2⟩ | ⟨_, _, h1, h2⟩ |
        ⟨_, _, h1, h2⟩ | ⟨j, _, _, h1, h2⟩ | ⟨j, a, n, _, ha, _, h1, h2⟩ |
        ⟨_, _, h1, h2⟩ | ⟨_, h1, h2⟩
      · exact hsame (by rw [h2])
      · exact hsame (by rw [h2])
      · exact hsame (by rw [h2])
      · exact hsame (by rw [h2])
      · exact hsame (by rw [h2])
      · subst h2
        rw [art_after_set _ _ _ _ hf ha] at hb
        split_ifs at hb with hij
        · simp only [Option.some.injEq] at hb
          subst hb
          obtain ⟨rfl, rfl⟩ := hij
          have hPa := ih i' j' a (by rw [State.art_eq hf]; exact ha)
          have := hspawn s.sh a n hPa
          rw [h1]
          exact this
        · exact hfeed s.sh b f sh _ (ih i' j' b hb) hfs
      · exact hsame (by rw [h2])
      · exact hsame (by rw [h2])
    | article i j =>
      obtain ⟨f, a, sh, a', hf, ha, has, rfl⟩ := step_article_inv hstep
      rw [art_after_set _ _ _ _ hf ha] at hb
      split_ifs at hb with hij
      · simp only [Option.some.injEq] at hb
        subst hb
        obtain ⟨rfl, rfl⟩ := hij
        exact hown s.sh a sh a' (ih i' j' a (by rw [State.art_eq hf]; exact ha)) has
      · exact hart s.sh b a sh a' (ih i' j' b hb) has

/-! ### Failure of an article -/

theorem articleStep_static {g : String → String} {sh sh' : Shared} {a a' : ArticleThread}
    (h : articleStep g sh a = some (sh', a')) : a'.article = a.article ∧ a'.doc = a.doc := by
  rcases articleStep_cases h with ⟨_, _, rfl, rfl⟩ | ⟨_, _, rfl, rfl⟩ |
    ⟨_, _, rfl, rfl⟩ | ⟨_, _, rfl, rfl⟩ | ⟨_, ⟨n, _, rfl⟩, rfl⟩ |
    ⟨_, ⟨tokens, _, rfl⟩, rfl⟩ | ⟨_, _, rfl, rfl⟩ | ⟨_, rfl, rfl⟩ |
    ⟨_, rfl, rfl⟩ | ⟨_, rfl, rfl⟩ <;> exact ⟨rfl, rfl⟩

theorem articleStep_seen {g : String → String} {sh sh' : Shared} {a a' : ArticleThread}
    (h : articleStep g sh a = some (sh', a')) :
    ∀ u ∈ sh.seenArticlesUri, u ∈ sh'.seenArticlesUri := by
  intro u hu
  rcases articleStep_cases h with ⟨_, _, rfl, rfl⟩ | ⟨_, _, rfl, rfl⟩ |
    ⟨_, _, rfl, rfl⟩ | ⟨_, _, rfl, rfl⟩ | ⟨_, ⟨n, _, rfl⟩, rfl⟩ |
    ⟨_, ⟨tokens, _, rfl⟩, rfl⟩ | ⟨_, _, rfl, rfl⟩ | ⟨_, rfl, rfl⟩ |
    ⟨_, rfl, rfl⟩ | ⟨_, rfl, rfl⟩ <;> simp [hu]

theorem feedStep_seen {sh sh' : Shared} {f f' : FeedThread}
    (h : feedStep sh f = some (sh', f')) :
    sh'.seenArticlesUri = sh.seenArticlesUri ∧
    sh'.seenServerTitleToArticleTokens = sh.seenServerTitleToArticleTokens ∧
    sh'.index = sh.index ∧ sh'.serverSem = sh.serverSem := by
  rcases feedStep_cases h with ⟨_, _, rfl, rfl⟩ | ⟨_, _, rfl, rfl⟩ | ⟨_, _, rfl, rfl⟩ |
    ⟨_, _, rfl, rfl⟩ | ⟨j, _, _, rfl, rfl⟩ | ⟨j, a, n, _, ha, _, rfl, rfl⟩ |
    ⟨_, _, rfl, rfl⟩ | ⟨_, rfl, rfl⟩ <;> exact ⟨rfl, rfl, rfl, rfl⟩

theorem mainStep_seen {s s' : State} (h : mainStep s = some s') :
    s'.sh.seenArticlesUri = s.sh.seenArticlesUri ∧
    s'.sh.seenServerTitleToArticleTokens = s.sh.seenServerTitleToArticleTokens ∧
    s'.sh.serverSem = s.sh.serverSem ∧ s'.sh.seenFeedsUri = s.sh.seenFeedsUri ∧
    s'.sh.trace = s.sh.trace := by
  rcases mainStep_cases h with
    ⟨i, _, _, rfl⟩ | ⟨i, f, n, _, hf, _, rfl⟩ | ⟨_, _, rfl⟩ | ⟨_, rfl⟩ <;>
    exact ⟨rfl, rfl, rfl, rfl, rfl⟩

/-- Every transition keeps what `seenArticlesUri` holds. -/
theorem step_seen {g : String → String} {s s' : State} {tid : Tid}
    (h : step g s tid = some s') :
    ∀ u ∈ s.sh.seenArticlesUri, u ∈ s'.sh.seenArticlesUri := by
  intro u hu
  cases tid with
  | main => rw [(mainStep_seen (step_main_inv h)).1]; exact hu
  | feed i =>
    obtain ⟨f, sh, f', _, hfs, rfl⟩ := step_feed_inv h
    show u ∈ sh.seenArticlesUri
    rw [(feedStep_seen hfs).1]; exact hu
  | article i j =>
    obtain ⟨f, a, sh, a', _, _, has, rfl⟩ := step_article_inv h
    exact articleStep_seen has u hu

/-- A worker whose tokenizer call fails is never at the signal or at the resolver
update. -/
theorem failed_not_updating (g : String → String) (feeds : List Feed) {s : State}
    (hs : Reachable g (init feeds) s) :
    ∀ i j a, s.art i j = some a → a.doc = none → a.pc ≠ .signal ∧ a.pc ≠ .update := by
  refine art_invariant g feeds (fun _ a => a.doc = none → a.pc ≠ .signal ∧ a.pc ≠ .update)
    ?_ ?_ ?_ ?_ ?_ ?_ hs
  · intro a hpc _
    simp [hpc]
  · intro sh a sh' a' hP has
    rcases articleStep_cases has with ⟨_, _, rfl, rfl⟩ | ⟨_, _, rfl, rfl⟩ |
      ⟨_, _, rfl, rfl⟩ | ⟨_, _, rfl, rfl⟩ | ⟨_, ⟨n, _, rfl⟩, rfl⟩ |
      ⟨_, ⟨tokens, hd, rfl⟩, rfl⟩ | ⟨_, _, rfl, rfl⟩ | ⟨hpc, rfl, rfl⟩ |
      ⟨_, rfl, rfl⟩ | ⟨_, rfl, rfl⟩ <;> intro hdoc <;> simp at hdoc ⊢
    · simp [hd] at hdoc
    · exact absurd hpc (hP hdoc).1
  · intro sh a n _ _
    simp
  · intro sh a b sh' b' hP _; exact hP
  · intro sh a f sh' f' hP _; exact hP
  · intro s s' a hP _; exact hP

/-- A worker that is past the dedup check has its URL in `seenArticlesUri`. -/
theorem claimed_url_seen (g : String → String) (feeds : List Feed) {s : State}
    (hs : Reachable g (init feeds) s) :
    ∀ i j a, s.art i j = some a → a.pc ≠ .idle → a.pc ≠ .dedup →
      a.article.url ∈ s.sh.seenArticlesUri := by
  refine art_invariant g feeds
    (fun sh a => a.pc ≠ .idle → a.pc ≠ .dedup → a.article.url ∈ sh.seenArticlesUri)
    ?_ ?_ ?_ ?_ ?_ ?_ hs
  · intro a hpc h
    exact absurd hpc h
  · intro sh a sh' a' hP has
    have hmono := articleStep_seen has
    rcases articleStep_cases has with ⟨hpc, hmem, rfl, rfl⟩ | ⟨hpc, _, rfl, rfl⟩ |
      ⟨hpc, _, rfl, rfl⟩ | ⟨hpc, _, rfl, rfl⟩ | ⟨hpc, ⟨n, _, rfl⟩, rfl⟩ |
      ⟨hpc, ⟨tokens, hd, rfl⟩, rfl⟩ | ⟨hpc, _, rfl, rfl⟩ | ⟨hpc, rfl, rfl⟩ |
      ⟨hpc, rfl, rfl⟩ | ⟨hpc, rfl, rfl⟩ <;> intro _ _ <;>
      first
        | exact hmem
        | exact List.mem_cons_self _ _
        | exact hmono _ (hP (by simp [hpc]) (by simp [hpc]))
  · intro sh a n _ _ h
    simp at h
  · intro sh a b sh' b' hP has h1 h2
    exact articleStep_seen has _ (hP h1 h2)
  · intro sh a f sh' f' hP hfs h1 h2
    rw [(feedStep_seen hfs).1]; exact hP h1 h2
  · intro s s' a hP hm h1 h2
    rw [(mainStep_seen hm).1]; exact hP h1 h2

theorem run_seen {g : String → String} {sched : List Tid} {s s' : State}
    (h : run g s sched = some s') :
    ∀ u ∈ s.sh.seenArticlesUri, u ∈ s'.sh.seenArticlesUri := by
  induction sched generalizing s with
  | nil =>
    simp only [run, Option.some.injEq] at h
    subst h; exact fun u hu => hu
  | cons tid rest ih =>
    simp only [run] at h
    cases hstep : step g s tid with
    | none => simp [hstep] at h
    | some s1 =>
      simp only [hstep] at h
      exact fun u hu => ih h u (step_seen hstep u hu)

/-- The transitions of a worker whose tokenizer call fails leave the resolver as it is. -/
theorem failed_steps_keep_resolver (g : String → String) (feeds : List Feed) (i j : Nat) :
    ∀ (k : Nat) (s : State) (a : ArticleThread), Reachable g (init feeds) s →
      s.art i j = some a → a.doc = none →
      ∀ s', run g s (List.replicate k (Tid.article i j)) = some s' →
        s'.sh.seenServerTitleToArticleTokens = s.sh.seenServerTitleToArticleTokens := by
  intro k
  induction k with
  | zero =>
    intro s a _ _ _ s' h
    simp only [List.replicate, run, Option.some.injEq] at h
    rw [h]
  | succ k ih =>
    intro s a hs ha hdoc s' h
    simp only [List.replicate, run] at h
    cases hstep : step g s (Tid.article i j) with
    | none => simp [hstep] at h
    | some s1 =>
      simp only [hstep] at h
      obtain ⟨f, a0, sh, a', hf, ha0, has, hs1⟩ := step_article_inv hstep
      have hEq : a0 = a := by
        rw [State.art_eq hf, ha0] at ha
        exact Option.some.inj ha
      subst hEq
      have hnot := failed_not_updating g feeds hs i j a0 ha hdoc
      have hres : s1.sh.seenServerTitleToArticleTokens =
          s.sh.seenServerTitleToArticleTokens := by
        rw [hs1]
        rcases articleStep_cases has with ⟨_, _, rfl, rfl⟩ | ⟨_, _, rfl, rfl⟩ |
          ⟨_, _, rfl, rfl⟩ | ⟨_, _, rfl, rfl⟩ | ⟨_, ⟨n, _, rfl⟩, rfl⟩ |
          ⟨_, ⟨tokens, _, rfl⟩, rfl⟩ | ⟨_, _, rfl, rfl⟩ | ⟨_, rfl, rfl⟩ |
          ⟨hpc, rfl, rfl⟩ | ⟨_, rfl, rfl⟩ <;> first | rfl | exact absurd hpc hnot.2
      have ha1 : s1.art i j = some a' := by
        rw [hs1, art_after_set _ _ _ _ hf ha0]
        simp
      have hdoc1 : a'.doc = none := by rw [(articleStep_static has).2]; exact hdoc
      rw [ih s1 a' (Reachable.next _ hs hstep) ha1 hdoc1 s' h, hres]

/-- C6. Article failure is atomic on the resolver and still consumes the dedup slot:
for a worker whose tokenizer call fails, however many of its transitions are taken
(up to its end), the resolver is what it was; when it finds its URL unseen it puts it
in `seenArticlesUri`, the URL is there as soon as the worker is past the check and
stays there along every continuation of the crawl; and a worker that finds its URL
there is skipped: it logs the skip and goes to its exit without a call of the
tokenizer and without a change of the resolver. -/
theorem failed_article_atomic (g : String → String) (feeds : List Feed) {s : State}
    (hs : Reachable g (init feeds) s) (i j : Nat) (a : ArticleThread)
    (ha : s.art i j = some a) (hdoc : a.doc = none) :
    (∀ k s', run g s (List.replicate k (Tid.article i j)) = some s' →
      s'.sh.seenServerTitleToArticleTokens = s.sh.seenServerTitleToArticleTokens) ∧
    (a.pc = .dedup → a.article.url ∉ s.sh.seenArticlesUri →
      ∃ s', step g s (.article i j) = some s' ∧ a.article.url ∈ s'.sh.seenArticlesUri ∧
        s'.art i j = some { a with pc := .getSem }) ∧
    (a.pc ≠ .idle → a.pc ≠ .dedup → a.article.url ∈ s.sh.seenArticlesUri) ∧
    (∀ sched s', run g s sched = some s' →
      ∀ u ∈ s.sh.seenArticlesUri, u ∈ s'.sh.seenArticlesUri) ∧
    (∀ i' j' b, s.art i' j' = some b → b.pc = .dedup →
      b.article.url ∈ s.sh.seenArticlesUri →
      ∃ s', step g s (.article i' j') = some s' ∧
        s'.sh.seenServerTitleToArticleTokens = s.sh.seenServerTitleToArticleTokens ∧
        s'.sh.trace = s.sh.trace ++ [Event.articleSkipped b.article] ∧
        s'.art i' j' = some { b with pc := .exit }) := by
  refine ⟨fun k s' h => failed_steps_keep_resolver g feeds i j k s a hs ha hdoc s' h,
    ?_, claimed_url_seen g feeds hs i j a ha, fun sched s' h => run_seen h, ?_⟩
  · intro hpc hmem
    obtain ⟨f, hf, haf⟩ := State.art_some ha
    refine ⟨{ sh := { s.sh with seenArticlesUri := a.article.url :: s.sh.seenArticlesUri },
              main := s.main,
              feeds := s.feeds.set i
                { f with arts := f.arts.set j { a with pc := .getSem }, pc := f.pc } },
      by simp [step, hf, haf, articleStep, hpc, hmem], ?_, ?_⟩
    · simp
    · rw [art_after_set _ _ _ _ hf haf]; simp
  · intro i' j' b hb hpc hmem
    obtain ⟨f, hf, hbf⟩ := State.art_some hb
    refine ⟨{ sh := { s.sh with trace := s.sh.trace ++ [Event.articleSkipped b.article] },
              main := s.main,
              feeds := s.feeds.set i'
                { f with arts := f.arts.set j' { b with pc := .exit }, pc := f.pc } },
      by simp [step, hf, hbf, articleStep, hpc, hmem], rfl, rfl, ?_⟩
    rw [art_after_set _ _ _ _ hf hbf]; simp

theorem failed_article_atomic_witness :
    ∃ s, run exampleServer (init feedsRetry)
        [.main, .feed 0, .feed 0, .feed 0, .feed 0, .article 0 0] = some s ∧
      s.art 0 0 = some { article := ⟨"h/x", "T"⟩, doc := none, tokens := [], pc := .getSem } ∧
      (∀ k s', run exampleServer s (List.replicate k (Tid.article 0 0)) = some s' →
        s'.sh.seenServerTitleToArticleTokens = s.sh.seenServerTitleToArticleTokens) ∧
      (∃ s', step exampleServer s (.article 0 1) = some s' ∧
        s'.sh.seenServerTitleToArticleTokens = s.sh.seenServerTitleToArticleTokens ∧
        s'.sh.trace = s.sh.trace ++ [Event.articleSkipped ⟨"h/x", "T"⟩] ∧
        s'.art 0 1 =
          some { article := ⟨"h/x", "T"⟩, doc := some ["a", "b"], tokens := [], pc := .exit }) := by
  have h : ((run exampleServer (init feedsRetry)
        [.main, .feed 0, .feed 0, .feed 0, .feed 0, .article 0 0]).map
      (fun s => (s.art 0 0, s.art 0 1, s.sh.seenArticlesUri))) =
      some (some { article := ⟨"h/x", "T"⟩, doc := none, tokens := [], pc := .getSem },
            some { article := ⟨"h/x", "T"⟩, doc := some ["a", "b"], tokens := [], pc := .dedup },
            ["h/x"]) := by
    decide!
  cases hr : run exampleServer (init feedsRetry)
      [.main, .feed 0, .feed 0, .feed 0, .feed 0, .article 0 0] with
  | none => rw [hr] at h; simp at h
  | some s =>
    rw [hr] at h
    simp only [Option.map_some', Option.some.injEq, Prod.mk.injEq] at h
    obtain ⟨h0, h1, h2⟩ := h
    have hd := failed_article_atomic exampleServer feedsRetry (reachable_of_run hr) 0 0 _ h0 rfl
    refine ⟨s, rfl, h0, hd.1, ?_⟩
    exact hd.2.2.2.2 0 1 _ h1 rfl (by rw [h2]; simp)

/-- How one transition changes the semaphore of a server: an absent semaphore stays
absent or is created with 8 units; a present one stays, with the same units, one more
or one less. -/
theorem serverSem_step (g : String → String) (feeds : List Feed) {s s' : State}
    (hs : Reachable g (init feeds) s) {tid : Tid} (hstep : step g s tid = some s')
    (h : String) :
    (Map.find h s.sh.serverSem = none →
      Map.find h s'.sh.serverSem = none ∨ Map.find h s'.sh.serverSem = some 8) ∧
    (∀ n, Map.find h s.sh.serverSem = some n →
      Map.find h s'.sh.serverSem = some n ∨ Map.find h s'.sh.serverSem = some (n + 1) ∨
      (0 < n ∧ Map.find h s'.sh.serverSem = some (n - 1))) := by
  have hsame : s'.sh.serverSem = s.sh.serverSem →
      (Map.find h s.sh.serverSem = none →
        Map.find h s'.sh.serverSem = none ∨ Map.find h s'.sh.serverSem = some 8) ∧
      (∀ n, Map.find h s.sh.serverSem = some n →
        Map.find h s'.sh.serverSem = some n ∨ Map.find h s'.sh.serverSem = some (n + 1) ∨
        (0 < n ∧ Map.find h s'.sh.serverSem = some (n - 1))) := by
    intro e
    rw [e]
    exact ⟨fun h0 => Or.inl h0, fun n hn => Or.inl hn⟩
  cases tid with
  | main => exact hsame (mainStep_seen (step_main_inv hstep)).2.2.1
  | feed i =>
    obtain ⟨f, sh, f', _, hfs, rfl⟩ := step_feed_inv hstep
    exact hsame (feedStep_seen hfs).2.2.2
  | article i j =>
    obtain ⟨f, a, sh, a', hf, ha, has, rfl⟩ := step_article_inv hstep
    have hcap := server_cap_invariant g feeds (g a.article.url) hs
    have hpos := fun hp => artCount_pos (inFlight g (g a.article.url)) hf ha hp
    by_cases hu : h = g a.article.url
    · subst hu
      rcases articleStep_cases has with ⟨hpc, hmem, rfl, rfl⟩ | ⟨hpc, hmem, rfl, rfl⟩ |
        ⟨hpc, hnone, rfl, rfl⟩ | ⟨hpc, _, rfl, rfl⟩ | ⟨hpc, ⟨n, hsome, rfl⟩, rfl⟩ |
        ⟨hpc, ⟨tokens, _, rfl⟩, rfl⟩ | ⟨hpc, _, rfl, rfl⟩ | ⟨hpc, rfl, rfl⟩ |
        ⟨hpc, rfl, rfl⟩ | ⟨hpc, rfl, rfl⟩
      · exact hsame rfl
      · exact hsame rfl
      · simp [Map.find_insert_self, hnone]
      · exact hsame rfl
      · simp [Map.find_insert_self, hsome]
      · exact hsame rfl
      · exact hsame rfl
      · have h1 := hpos (by simp [inFlight, hpc])
        cases hfind : Map.find (g a.article.url) s.sh.serverSem with
        | none => rw [hfind] at hcap; simp at hcap; omega
        | some n => simp [Map.find_insert_self, hfind]
      · exact hsame rfl
      · exact hsame rfl
    · rcases articleStep_cases has with ⟨hpc, hmem, rfl, rfl⟩ | ⟨hpc, hmem, rfl, rfl⟩ |
        ⟨hpc, hnone, rfl, rfl⟩ | ⟨hpc, _, rfl, rfl⟩ | ⟨hpc, ⟨n, hsome, rfl⟩, rfl⟩ |
        ⟨hpc, ⟨tokens, _, rfl⟩, rfl⟩ | ⟨hpc, _, rfl, rfl⟩ | ⟨hpc, rfl, rfl⟩ |
        ⟨hpc, rfl, rfl⟩ | ⟨hpc, rfl, rfl⟩ <;>
        first
          | exact hsame rfl
          | (simp only [Map.find_insert_ne hu]
             exact ⟨fun h0 => Or.inl h0, fun n hn => Or.inl hn⟩)

/-- C8. Per-host cap: in every state of a crawl at most 8 article workers of one host
are between the wait and the signal on the semaphore of the host; the semaphore never
holds more than 8 units; a transition leaves an absent semaphore absent or creates it
with 8 units, and leaves a present one in place, with the same units, one more or one
less: it is never created anew. -/
theorem per_host_cap (g : String → String) (feeds : List Feed) {s : State}
    (hs : Reachable g (init feeds) s) (h : String) :
    artCount (inFlight g h) s ≤ 8 ∧
    (∀ n, Map.find h s.sh.serverSem = some n → artCount (inFlight g h) s + n ≤ 8) ∧
    ∀ tid s', step g s tid = some s' →
      (Map.find h s.sh.serverSem = none →
        Map.find h s'.sh.serverSem = none ∨ Map.find h s'.sh.serverSem = some 8) ∧
      (∀ n, Map.find h s.sh.serverSem = some n →
        Map.find h s'.sh.serverSem = some n ∨ Map.find h s'.sh.serverSem = some (n + 1) ∨
        (0 < n ∧ Map.find h s'.sh.serverSem = some (n - 1))) := by
  have hcap := server_cap_invariant g feeds h hs
  refine ⟨by omega, ?_, fun tid s' hstep => serverSem_step g feeds hs hstep h⟩
  intro n hn
  rw [hn] at hcap
  simpa using hcap

theorem per_host_cap_witness :
    ∃ s, run exampleServer (init feedsS2)
        [.main, .main, .feed 0, .feed 0, .feed 0, .feed 1, .feed 1, .feed 1,
         .article 0 0, .article 0 0, .article 0 0, .article 1 0, .article 1 0,
         .article 1 0] = some s ∧
      artCount (inFlight exampleServer "h1") s = 2 ∧
      Map.find "h1" s.sh.serverSem = some 6 ∧
      artCount (inFlight exampleServer "h1") s ≤ 8 := by
  have h : ((run exampleServer (init feedsS2)
        [.main, .main, .feed 0, .feed 0, .feed 0, .feed 1, .feed 1, .feed 1,
         .article 0 0, .article 0 0, .article 0 0, .article 1 0, .article 1 0,
         .article 1 0]).map
      (fun s => (artCount (inFlight exampleServer "h1") s, Map.find "h1" s.sh.serverSem))) =
      some (2, some 6) := by
    decide!
  cases hr : run exampleServer (init feedsS2)
      [.main, .main, .feed 0, .feed 0, .feed 0, .feed 1, .feed 1, .feed 1,
       .article 0 0, .article 0 0, .article 0 0, .article 1 0, .article 1 0,
       .article 1 0] with
  | none => rw [hr] at h; simp at h
  | some s =>
    rw [hr] at h
    simp only [Option.map_some', Option.some.injEq, Prod.mk.injEq] at h
    exact ⟨s, rfl, h.1, h.2, (per_host_cap exampleServer feedsS2 (reachable_of_run hr) "h1").1⟩

/-! ### Deadlock -/

theorem step_mem_tids {g : String → String} {s s' : State} {tid : Tid}
    (h : step g s tid = some s') : tid ∈ s.tids := by
  unfold State.tids
  cases tid with
  | main => exact List.mem_cons_self _ _
  | feed i =>
    obtain ⟨f, sh, f', hf, _, _⟩ := step_feed_inv h
    have hlt : i < s.feeds.length := by
      rcases Nat.lt_or_ge i s.feeds.length with h | h
      · exact h
      · rw [List.getElem?_eq_none h] at hf; simp at hf
    refine List.mem_cons_of_mem _ (List.mem_flatMap.2 ⟨i, List.mem_range.2 hlt, ?_⟩)
    exact List.mem_cons_self _ _
  | article i j =>
    obtain ⟨f, a, sh, a', hf, ha, _, _⟩ := step_article_inv h
    have hlt : i < s.feeds.length := by
      rcases Nat.lt_or_ge i s.feeds.length with h | h
      · exact h
      · rw [List.getElem?_eq_none h] at hf; simp at hf
    have hlt' : j < f.arts.length := by
      rcases Nat.lt_or_ge j f.arts.length with h | h
      · exact h
      · rw [List.getElem?_eq_none h] at ha; simp at ha
    refine List.mem_cons_of_mem _ (List.mem_flatMap.2 ⟨i, List.mem_range.2 hlt, ?_⟩)
    refine List.mem_cons_of_mem _ (List.mem_map.2 ⟨j, List.mem_range.2 ?_, rfl⟩)
    simp [hf, hlt']

/-- In a stuck state no thread at all can move. -/
theorem stuck_no_step {g : String → String} {s : State} (h : s.stuck g = true) :
    ∀ tid, step g s tid = none := by
  intro tid
  cases hstep : step g s tid with
  | none => rfl
  | some s' =>
    have hmem := step_mem_tids hstep
    unfold State.stuck at h
    rw [List.all_eq_true] at h
    have := h tid hmem
    simp [hstep] at this

/-- C2, at the failing input. A worker whose tokenizer call fails ends without giving
back the unit it took from the semaphore of its host: after the whole crawl of one
feed with one failing article the semaphore of `h` holds 7 units, where the crawl of
the same feed with a successful article leaves 8. -/
theorem failed_article_keeps_server_unit :
    (run exampleServer (init feedsOneFailure)
        [.main, .main, .feed 0, .feed 0, .feed 0, .article 0 0, .article 0 0, .article 0 0,
         .article 0 0, .article 0 0, .feed 0, .feed 0, .feed 0, .main, .main]).map
      (fun s => (s.main, s.art 0 0 |>.map (fun a => a.pc), Map.find "h" s.sh.serverSem,
                 s.sh.articleSem, s.sh.feedSem)) =
      some (.done, some .done, some 7, 24, 6) ∧
    (run exampleServer (init feedsOneSuccess)
        [.main, .main, .feed 0, .feed 0, .feed 0, .article 0 0, .article 0 0, .article 0 0,
         .article 0 0, .article 0 0, .article 0 0, .article 0 0, .feed 0, .feed 0, .feed 0,
         .main, .main]).map
      (fun s => (s.main, s.art 0 0 |>.map (fun a => a.pc), Map.find "h" s.sh.serverSem,
                 s.sh.articleSem, s.sh.feedSem)) =
      some (.done, some .done, some 8, 24, 6) := by
  constructor <;> decide!

/-- C3, at the failing input. The crawl of one feed with nine articles of one host
whose tokenizer calls all fail reaches a state where the ninth worker waits on the
semaphore of the host, which holds no unit, the feed worker and `processFeeds` wait
in their joins, and no thread can move: the crawl never reaches its end. -/
theorem crawl_deadlocks :
    ∃ s, run exampleServer (init feedsNineFailures) schedNineFailures = some s ∧
      s.main = .join ∧
      (s.feeds[0]?.map (fun f => f.pc)) = some .join ∧
      (s.art 0 8 |>.map (fun a => a.pc)) = some .waitSem ∧
      Map.find "h" s.sh.serverSem = some 0 ∧
      ∀ tid, step exampleServer s tid = none := by
  have h : ((run exampleServer (init feedsNineFailures) schedNineFailures).map
      (fun s => (s.main, s.feeds[0]?.map (fun f => f.pc), s.art 0 8 |>.map (fun a => a.pc),
                 Map.find "h" s.sh.serverSem, s.stuck exampleServer))) =
      some (.join, some .join, some .waitSem, some 0, true) := by
    decide!
  cases hr : run exampleServer (init feedsNineFailures) schedNineFailures with
  | none => rw [hr] at h; simp at h
  | some s =>
    rw [hr] at h
    simp only [Option.map_some', Option.some.injEq, Prod.mk.injEq] at h
    exact ⟨s, rfl, h.1, h.2.1, h.2.2.1, h.2.2.2.1, stuck_no_step h.2.2.2.2⟩

/-! ### The feed-level skip branch -/

theorem feedStep_uri {sh sh' : Shared} {f f' : FeedThread}
    (h : feedStep sh f = some (sh', f')) :
    f'.feedUri = f.feedUri ∧ f'.parses = f.parses := by
  rcases feedStep_cases h with ⟨_, _, rfl, rfl⟩ | ⟨_, _, rfl, rfl⟩ | ⟨_, _, rfl, rfl⟩ |
    ⟨_, _, rfl, rfl⟩ | ⟨j, _, _, rfl, rfl⟩ | ⟨j, a, n, _, ha, _, rfl, rfl⟩ |
    ⟨_, _, rfl, rfl⟩ | ⟨_, rfl, rfl⟩ <;> exact ⟨rfl, rfl⟩

/-- The URLs of the feed workers are those of the feed list, in its order. -/
theorem feeds_uri_static (g : String → String) (feeds : List Feed) {s : State}
    (hs : Reachable g (init feeds) s) :
    s.feeds.map (fun f => f.feedUri) = feeds.map (fun f => f.feedUri) := by
  induction hs with
  | start => simp [init, Feed.thread, Function.comp_def]
  | @next s s' tid _ hstep ih =>
    rw [← ih]
    cases tid with
    | main =>
      rcases mainStep_cases (step_main_inv hstep) with
        ⟨i, _, _, rfl⟩ | ⟨i, f, n, _, hf, _, rfl⟩ | ⟨_, _, rfl⟩ | ⟨_, rfl⟩
      · rfl
      · exact map_set_of_eq _ hf rfl
      · rfl
      · rfl
    | feed i =>
      obtain ⟨f, sh, f', hf, hfs, rfl⟩ := step_feed_inv hstep
      exact map_set_of_eq _ hf (feedStep_uri hfs).1
    | article i j =>
      obtain ⟨f, a, sh, a', hf, ha, has, rfl⟩ := step_article_inv hstep
      exact map_set_of_eq _ hf rfl

/-- With pairwise distinct feed URLs, two workers with the same URL are the same. -/
theorem feed_index_unique (g : String → String) (feeds : List Feed)
    (hnodup : (feeds.map (fun f => f.feedUri)).Nodup) {s : State}
    (hs : Reachable g (init feeds) s) {i i' : Nat} {f f' : FeedThread}
    (hf : s.feeds[i]? = some f) (hf' : s.feeds[i']? = some f')
    (hu : f.feedUri = f'.feedUri) : i = i' := by
  have hstat := feeds_uri_static g feeds hs
  rw [← hstat] at hnodup
  have h1 : (s.feeds.map (fun f => f.feedUri))[i]? = some f.feedUri := by
    rw [List.getElem?_map, hf]; rfl
  have h2 : (s.feeds.map (fun f => f.feedUri))[i']? = some f.feedUri := by
    rw [List.getElem?_map, hf', hu]; rfl
  have hlt : i < (s.feeds.map (fun f => f.feedUri)).length := by
    rcases Nat.lt_or_ge i (s.feeds.map (fun f => f.feedUri)).length with h | h
    · exact h
    · rw [List.getElem?_eq_none h] at h1; simp at h1
  exact List.getElem?_inj hlt hnodup (h1.trans h2.symm)

theorem feedStep_pc {sh sh' : Shared} {f f' : FeedThread}
    (h : feedStep sh f = some (sh', f')) :
    f.pc ≠ .idle ∧ f'.pc ≠ .idle ∧ f'.pc ≠ .dedup := by
  rcases feedStep_cases h with ⟨hpc, _, rfl, rfl⟩ | ⟨hpc, _, rfl, rfl⟩ | ⟨hpc, _, rfl, rfl⟩ |
    ⟨hpc, _, rfl, rfl⟩ | ⟨j, hpc, _, rfl, rfl⟩ | ⟨j, a, n, hpc, ha, _, rfl, rfl⟩ |
    ⟨hpc, _, rfl, rfl⟩ | ⟨hpc, rfl, rfl⟩ <;> simp [hpc]

/-- While `processFeeds` is about to launch feed `k`, the workers of feed `k` and of the
later feeds are not launched. -/
theorem unlaunched_idle (g : String → String) (feeds : List Feed) {s : State}
    (hs : Reachable g (init feeds) s) :
    ∀ k, s.main = .spawn k → ∀ i f, s.feeds[i]? = some f → k ≤ i → f.pc = .idle := by
  induction hs with
  | start =>
    intro k _ i f hf _
    exact (init_arts_idle f (List.getElem?_mem hf)).1
  | @next s s' tid _ hstep ih =>
    intro k hk i' f' hf' hle
    cases tid with
    | main =>
      rcases mainStep_cases (step_main_inv hstep) with
        ⟨i, _, _, rfl⟩ | ⟨i, f, n, hm, hf, _, rfl⟩ | ⟨_, _, rfl⟩ | ⟨_, rfl⟩
      · simp at hk
      · simp only [MPc.spawn.injEq] at hk
        subst hk
        simp only [feeds_set_get _ hf] at hf'
        have hne : ¬ i' = i := by omega
        rw [if_neg hne] at hf'
        exact ih i hm i' f' hf' (by omega)
      · simp at hk
      · simp at hk
    | feed i =>
      obtain ⟨f, sh, f1, hf, hfs, rfl⟩ := step_feed_inv hstep
      simp only [feeds_set_get _ hf] at hf'
      by_cases hi : i' = i
      · subst hi
        exact absurd (ih k hk i' f hf hle) (feedStep_pc hfs).1
      · rw [if_neg hi] at hf'
        exact ih k hk i' f' hf' hle
    | article i j =>
      obtain ⟨f, a, sh, a', hf, ha, has, rfl⟩ := step_article_inv hstep
      simp only [feeds_set_get _ hf] at hf'
      by_cases hi : i' = i
      · subst hi
        simp only [if_true, Option.some.injEq] at hf'
        subst hf'
        exact ih k hk i' f hf hle
      · rw [if_neg hi] at hf'
        exact ih k hk i' f' hf' hle

/-- Every URL of `seenFeedsUri` is the URL of a feed worker that is past its check. -/
theorem seen_feed_claimed (g : String → String) (feeds : List Feed) {s : State}
    (hs : Reachable g (init feeds) s) :
    ∀ u ∈ s.sh.seenFeedsUri, ∃ (i : Nat) (f : FeedThread), s.feeds[i]? = some f ∧ f.feedUri = u ∧
      f.pc ≠ .idle ∧ f.pc ≠ .dedup := by
  induction hs with
  | start =>
    intro u hu
    simp [init] at hu
  | @next s s' tid hreach hstep ih =>
    intro u hu
    cases tid with
    | main =>
      have hseen := (mainStep_seen (step_main_inv hstep)).2.2.2.1
      rw [hseen] at hu
      obtain ⟨i0, f0, hf0, hu0, h1, h2⟩ := ih u hu
      rcases mainStep_cases (step_main_inv hstep) with
        ⟨i, _, _, rfl⟩ | ⟨i, f, n, hm, hf, _, rfl⟩ | ⟨_, _, rfl⟩ | ⟨_, rfl⟩
      · exact ⟨i0, f0, hf0, hu0, h1, h2⟩
      · refine ⟨i0, f0, ?_, hu0, h1, h2⟩
        simp only [feeds_set_get _ hf]
        have hne : ¬ i0 = i := by
          intro e
          subst e
          rw [hf] at hf0
          simp only [Option.some.injEq] at hf0
          subst hf0
          exact h1 (unlaunched_idle g feeds hreach i0 hm i0 f hf (le_refl _))
        rw [if_neg hne]
        exact hf0
      · exact ⟨i0, f0, hf0, hu0, h1, h2⟩
      · exact ⟨i0, f0, hf0, hu0, h1, h2⟩
    | feed i =>
      obtain ⟨f, sh, f1, hf, hfs, rfl⟩ := step_feed_inv hstep
      have hpc := feedStep_pc hfs
      have huri := (feedStep_uri hfs).1
      have hold : u ∈ s.sh.seenFeedsUri →
          ∃ (i' : Nat) (f' : FeedThread), (s.feeds.set i f1)[i']? = some f' ∧ f'.feedUri = u ∧
            f'.pc ≠ .idle ∧ f'.pc ≠ .dedup := by
        intro hu
        obtain ⟨i0, f0, hf0, hu0, h1, h2⟩ := ih u hu
        by_cases hi : i0 = i
        · subst hi
          rw [hf] at hf0
          simp only [Option.some.injEq] at hf0
          subst hf0
          exact ⟨i0, f1, by simp [feeds_set_get _ hf], huri.trans hu0, hpc.2.1, hpc.2.2⟩
        · exact ⟨i0, f0, by simp [feeds_set_get _ hf, hi, hf0], hu0, h1, h2⟩
      rcases feedStep_cases hfs with ⟨_, _, rfl, rfl⟩ | ⟨_, _, rfl, rfl⟩ | ⟨_, _, rfl, rfl⟩ |
        ⟨_, _, rfl, rfl⟩ | ⟨j, _, _, rfl, rfl⟩ | ⟨j, a, n, _, ha, _, rfl, rfl⟩ |
        ⟨_, _, rfl, rfl⟩ | ⟨_, rfl, rfl⟩
      · exact hold hu
      · simp only [List.mem_cons] at hu
        rcases hu with rfl | hu
        · exact ⟨i, { f with pc := .parse }, by simp [feeds_set_get _ hf], rfl, by simp,
            by simp⟩
        · exact hold hu
      · exact hold hu
      · exact hold hu
      · exact hold hu
      · exact hold hu
      · exact hold hu
      · exact hold hu
    | article i j =>
      obtain ⟨f, a, sh, a', hf, ha, has, rfl⟩ := step_article_inv hstep
      have hseen : sh.seenFeedsUri = s.sh.seenFeedsUri := by
        rcases articleStep_cases has with ⟨_, _, rfl, rfl⟩ | ⟨_, _, rfl, rfl⟩ |
          ⟨_, _, rfl, rfl⟩ | ⟨_, _, rfl, rfl⟩ | ⟨_, ⟨n, _, rfl⟩, rfl⟩ |
          ⟨_, ⟨tokens, _, rfl⟩, rfl⟩ | ⟨_, _, rfl, rfl⟩ | ⟨_, rfl, rfl⟩ |
          ⟨_, rfl, rfl⟩ | ⟨_, rfl, rfl⟩ <;> rfl
      simp only [hseen] at hu
      obtain ⟨i0, f0, hf0, hu0, h1, h2⟩ := ih u hu
      by_cases hi : i0 = i
      · subst hi
        rw [hf] at hf0
        simp only [Option.some.injEq] at hf0
        subst hf0
        exact ⟨i0, { f with arts := f.arts.set j a', pc := f.pc },
          by simp [feeds_set_get _ hf], hu0, h1, h2⟩
      · exact ⟨i0, f0, by simp [feeds_set_get _ hf, hi, hf0], hu0, h1, h2⟩

/-- With pairwise distinct feed URLs a feed worker at its check does not find its URL
in `seenFeedsUri`. -/
theorem feed_check_unseen (g : String → String) (feeds : List Feed)
    (hnodup : (feeds.map (fun f => f.feedUri)).Nodup) {s : State}
    (hs : Reachable g (init feeds) s) {i : Nat} {f : FeedThread}
    (hf : s.feeds[i]? = some f) (hpc : f.pc = .dedup) : f.feedUri ∉ s.sh.seenFeedsUri := by
  intro hmem
  obtain ⟨i0, f0, hf0, hu0, _, h2⟩ := seen_feed_claimed g feeds hs _ hmem
  have := feed_index_unique g feeds hnodup hs hf0 hf hu0
  subst this
  rw [hf] at hf0
  simp only [Option.some.injEq] at hf0
  subst hf0
  exact h2 hpc

theorem articleStep_feed_events {g : String → String} {sh sh' : Shared}
    {a a' : ArticleThread} (h : articleStep g sh a = some (sh', a')) (u : String) :
    sh'.trace.count (Event.feedParse u) = sh.trace.count (Event.feedParse u) ∧
    (Event.feedSkipped u ∈ sh'.trace → Event.feedSkipped u ∈ sh.trace) := by
  rcases articleStep_cases h with ⟨_, _, rfl, rfl⟩ | ⟨_, _, rfl, rfl⟩ |
    ⟨_, _, rfl, rfl⟩ | ⟨_, _, rfl, rfl⟩ | ⟨_, ⟨n, _, rfl⟩, rfl⟩ |
    ⟨_, ⟨tokens, _, rfl⟩, rfl⟩ | ⟨_, _, rfl, rfl⟩ | ⟨_, rfl, rfl⟩ |
    ⟨_, rfl, rfl⟩ | ⟨_, rfl, rfl⟩ <;> simp [List.count_append]

/-- With pairwise distinct feed URLs: no skip of a feed is ever logged, and the feed
parser has been called for the feed of a worker once if the worker is past the call,
never if it is not. -/
theorem feed_parsed_invariant (g : String → String) (feeds : List Feed)
    (hnodup : (feeds.map (fun f => f.feedUri)).Nodup) {s : State}
    (hs : Reachable g (init feeds) s) :
    (∀ u, Event.feedSkipped u ∉ s.sh.trace) ∧
    ∀ (i : Nat) (f : FeedThread), s.feeds[i]? = some f →
      s.sh.trace.count (Event.feedParse f.feedUri) =
        if f.pc = .idle ∨ f.pc = .dedup ∨ f.pc = .parse then 0 else 1 := by
  induction hs with
  | start =>
    refine ⟨fun u => by simp [init], ?_⟩
    intro i f hf
    simp [init, (init_arts_idle f (List.getElem?_mem hf)).1]
  | @next s s' tid hreach hstep ih =>
    obtain ⟨ih3, ih4⟩ := ih
    cases tid with
    | main =>
      have htr := (mainStep_seen (step_main_inv hstep)).2.2.2.2
      rw [htr]
      refine ⟨ih3, ?_⟩
      intro i' f' hf'
      rcases mainStep_cases (step_main_inv hstep) with
        ⟨i, _, _, rfl⟩ | ⟨i, f, n, hm, hf, _, rfl⟩ | ⟨_, _, rfl⟩ | ⟨_, rfl⟩
      · exact ih4 i' f' hf'
      · simp only [feeds_set_get _ hf] at hf'
        by_cases hi : i' = i
        · subst hi
          simp only [if_true, Option.some.injEq] at hf'
          subst hf'
          have hidle := unlaunched_idle g feeds hreach i' hm i' f hf (le_refl _)
          have := ih4 i' f hf
          simp [hidle] at this
          simp [this]
        · rw [if_neg hi] at hf'
          exact ih4 i' f' hf'
      · exact ih4 i' f' hf'
      · exact ih4 i' f' hf'
    | feed i =>
      obtain ⟨f, sh, f1, hf, hfs, rfl⟩ := step_feed_inv hstep
      have hunseen := fun hpc => feed_check_unseen g feeds hnodup hreach hf hpc
      have hother : ∀ (i' : Nat) (f' : FeedThread), i' ≠ i → s.feeds[i']? = some f' →
          f'.feedUri ≠ f.feedUri := by
        intro i' f' hi hf' hu
        exact hi (feed_index_unique g feeds hnodup hreach hf' hf hu)
      have ih4f := ih4 i f hf
      rcases feedStep_cases hfs with ⟨hpc, hmem, rfl, rfl⟩ | ⟨hpc, _, rfl, rfl⟩ |
        ⟨hpc, _, rfl, rfl⟩ | ⟨hpc, _, rfl, rfl⟩ | ⟨j, hpc, _, rfl, rfl⟩ |
        ⟨j, a, n, hpc, ha, _, rfl, rfl⟩ | ⟨hpc, _, rfl, rfl⟩ | ⟨hpc, rfl, rfl⟩
      · exact absurd hmem (hunseen hpc)
      all_goals
        refine ⟨fun u => by simpa using ih3 u, ?_⟩
        intro i' f' hf'
        simp only [feeds_set_get _ hf] at hf'
        by_cases hi : i' = i
        · subst hi
          simp only [if_true, Option.some.injEq] at hf'
          subst hf'
          simp [hpc] at ih4f
          simp [List.count_append, ih4f]
        · rw [if_neg hi] at hf'
          have hne := hother i' f' hi hf'
          have hne' : ¬ f.feedUri = f'.feedUri := fun e => hne e.symm
          have := ih4 i' f' hf'
          simp [List.count_append, hne, hne', this]
    | article i j =>
      obtain ⟨f, a, sh, a', hf, ha, has, rfl⟩ := step_article_inv hstep
      refine ⟨fun u hu => ih3 u ((articleStep_feed_events has u).2 hu), ?_⟩
      intro i' f' hf'
      simp only [feeds_set_get _ hf] at hf'
      by_cases hi : i' = i
      · subst hi
        simp only [if_true, Option.some.injEq] at hf'
        subst hf'
        simp only [(articleStep_feed_events has _).1]
        exact ih4 i' f hf
      · rw [if_neg hi] at hf'
        simp only [(articleStep_feed_events has _).1]
        exact ih4 i' f' hf'

theorem feedStep_not_done {sh sh' : Shared} {f f' : FeedThread}
    (h : feedStep sh f = some (sh', f')) : f.pc ≠ .done := by
  intro hpc
  simp [feedStep, hpc] at h

/-- Once `processFeeds` is past its join every feed worker has ended. -/
theorem joined_feeds_done (g : String → String) (feeds : List Feed) {s : State}
    (hs : Reachable g (init feeds) s) :
    (s.main = .fold ∨ s.main = .done) → ∀ (i : Nat) (f : FeedThread),
      s.feeds[i]? = some f → f.pc = .done := by
  induction hs with
  | start =>
    intro h
    simp [init] at h
  | @next s s' tid hreach hstep ih =>
    intro hm i' f' hf'
    cases tid with
    | main =>
      rcases mainStep_cases (step_main_inv hstep) with
        ⟨i, _, _, rfl⟩ | ⟨i, f, n, _, hf, _, rfl⟩ | ⟨_, hall, rfl⟩ | ⟨hfold, rfl⟩
      · simp at hm
      · simp at hm
      · exact hall f' (List.getElem?_mem hf')
      · exact ih (Or.inl hfold) i' f' hf'
    | feed i =>
      obtain ⟨f, sh, f1, hf, hfs, rfl⟩ := step_feed_inv hstep
      exact absurd (ih hm i f hf) (feedStep_not_done hfs)
    | article i j =>
      obtain ⟨f, a, sh, a', hf, ha, has, rfl⟩ := step_article_inv hstep
      simp only [feeds_set_get _ hf] at hf'
      by_cases hi : i' = i
      · subst hi
        simp only [if_true, Option.some.injEq] at hf'
        subst hf'
        exact ih hm i' f hf
      · rw [if_neg hi] at hf'
        exact ih hm i' f' hf'

/-- The feed-level check in the states of a crawl: for a feed list with pairwise distinct
feed URLs (the keys of the `map` that `processFeeds` receives), entered with an empty
`seenFeedsUri`, in every state of the crawl no skip of a feed has been logged, no feed
worker at its check finds its URL in `seenFeedsUri`, the feed parser has been called
exactly once for the feed of every worker that is past the call and never for the
others, a launched worker is never blocked before its call, and in a state where
`processFeeds` has ended the parser has been called exactly once for every entry of the
feed list. Whether every worker gets launched is not part of the statement. -/
theorem feed_skip_unreachable (g : String → String) (feeds : List Feed)
    (hnodup : (feeds.map (fun f => f.feedUri)).Nodup) {s : State}
    (hs : Reachable g (init feeds) s) :
    (∀ u, Event.feedSkipped u ∉ s.sh.trace) ∧
    (∀ (i : Nat) (f : FeedThread), s.feeds[i]? = some f → f.pc = .dedup →
      f.feedUri ∉ s.sh.seenFeedsUri) ∧
    (∀ (i : Nat) (f : FeedThread), s.feeds[i]? = some f →
      s.sh.trace.count (Event.feedParse f.feedUri) =
        if f.pc = .idle ∨ f.pc = .dedup ∨ f.pc = .parse then 0 else 1) ∧
    (∀ (i : Nat) (f : FeedThread), s.feeds[i]? = some f → f.pc = .dedup ∨ f.pc = .parse →
      ∃ s', step g s (.feed i) = some s') ∧
    (s.main = .done → ∀ fd ∈ feeds, s.sh.trace.count (Event.feedParse fd.feedUri) = 1) := by
  obtain ⟨h3, h4⟩ := feed_parsed_invariant g feeds hnodup hs
  refine ⟨h3, fun i f hf hpc => feed_check_unseen g feeds hnodup hs hf hpc, h4, ?_, ?_⟩
  · intro i f hf hpc
    rcases hpc with hpc | hpc
    · by_cases hmem : f.feedUri ∈ s.sh.seenFeedsUri
      · exact ⟨_, by simp [step, hf, feedStep, hpc, hmem]; rfl⟩
      · exact ⟨_, by simp [step, hf, feedStep, hpc, hmem]; rfl⟩
    · by_cases hp : f.parses = true
      · exact ⟨_, by simp [step, hf, feedStep, hpc, hp]; rfl⟩
      · exact ⟨_, by simp [step, hf, feedStep, hpc, hp]; rfl⟩
  · intro hdone fd hfd
    have hstat := feeds_uri_static g feeds hs
    have hmem : fd.feedUri ∈ s.feeds.map (fun f => f.feedUri) := by
      rw [hstat]; exact List.mem_map.2 ⟨fd, hfd, rfl⟩
    obtain ⟨f, hf, hu⟩ := List.mem_map.1 hmem
    obtain ⟨i, hi⟩ := List.getElem?_of_mem hf
    have hpc := joined_feeds_done g feeds hs (Or.inr hdone) i f hi
    have := h4 i f hi
    rw [hu] at this
    simp [hpc] at this
    exact this

theorem feed_skip_unreachable_witness :
    ∃ s, run exampleServer (init feedsS4) schedS4 = some s ∧ s.main = .done ∧
      (∀ u, Event.feedSkipped u ∉ s.sh.trace) ∧
      (∀ fd ∈ feedsS4, s.sh.trace.count (Event.feedParse fd.feedUri) = 1) := by
  have h : ((run exampleServer (init feedsS4) schedS4).map (fun s => s.main)) =
      some .done := by
    decide!
  cases hr : run exampleServer (init feedsS4) schedS4 with
  | none => rw [hr] at h; simp at h
  | some s =>
    rw [hr] at h
    simp only [Option.map_some', Option.some.injEq] at h
    have hd := feed_skip_unreachable exampleServer feedsS4 (by decide)
      (reachable_of_run hr)
    exact ⟨s, rfl, h, hd.1, hd.2.2.2.2 h⟩

/-! ### The claims on the resolver and the index -/

/-- C1. Mirror intersection law: let `us` be a non-empty list of articles with their
token lists, and let `all` be the updates that the article workers apply to the empty
resolver, in the order they apply them, those of server `server` and title `title`
being the members of `us` in any order (updates for other pairs may come in between). Then the entry stored under (server, title) is the least
article of `us` in the order of articles, with an ascending token list that holds each
token with the least of its multiplicities in the token lists of `us`. -/
theorem mirror_intersection (g : String → String) (us all : List (Article × List String))
    (server title : String) (hne : us ≠ [])
    (hall : (all.filter (fun u => decide (g u.1.url = server ∧ u.1.title = title))).Perm us) :
    ∃ a L, (applyUpdates g all).find server title = some (a, L) ∧
      a ∈ us.map (fun u => u.1) ∧
      (∀ b ∈ us.map (fun u => u.1), a = b ∨ a < b) ∧
      L.Sorted (· ≤ ·) ∧
      ∀ w, (∀ u ∈ us, L.count w ≤ u.2.count w) ∧ ∃ u ∈ us, L.count w = u.2.count w := by
  have hmem : ∀ u, u ∈ us ↔ (u ∈ all ∧ (g u.1.url = server ∧ u.1.title = title)) := by
    intro u
    rw [← hall.mem_iff, List.mem_filter]
    simp
  have hspec := applyUpdates_entry g all server title
  cases hf : (applyUpdates g all).find server title with
  | none =>
    rw [hf] at hspec
    simp only at hspec
    obtain ⟨u, hu⟩ := List.exists_mem_of_ne_nil us hne
    exact absurd ((hmem u).1 hu).2 (hspec u ((hmem u).1 hu).1)
  | some e =>
    obtain ⟨a, L⟩ := e
    rw [hf] at hspec
    simp only at hspec
    obtain ⟨⟨u₀, hu₀, hk₀, ha₀⟩, hmin, hsorted, hcount⟩ := hspec
    refine ⟨a, L, rfl, ?_, ?_, hsorted, ?_⟩
    · exact List.mem_map.2 ⟨u₀, (hmem u₀).2 ⟨hu₀, hk₀⟩, ha₀⟩
    · intro b hb
      obtain ⟨u, hu, rfl⟩ := List.mem_map.1 hb
      exact hmin u ((hmem u).1 hu).1 ((hmem u).1 hu).2
    · intro w
      obtain ⟨hle, v, hv, hkv, heq⟩ := hcount w
      exact ⟨fun u hu => hle u ((hmem u).1 hu).1 ((hmem u).1 hu).2,
        v, (hmem v).2 ⟨hv, hkv⟩, heq⟩

theorem mirror_intersection_witness :
    (applyUpdates exampleServer updatesS2).find "h1" "News" =
      some (⟨"h1/u1", "News"⟩, ["a", "b"]) ∧
    (applyUpdates exampleServer updatesS2.reverse).find "h1" "News" =
      some (⟨"h1/u1", "News"⟩, ["a", "b"]) ∧
    ∃ a L, (applyUpdates exampleServer updatesS2).find "h1" "News" = some (a, L) ∧
      a ∈ updatesS2.reverse.map (fun u => u.1) ∧
      (∀ b ∈ updatesS2.reverse.map (fun u => u.1), a = b ∨ a < b) ∧
      L.Sorted (· ≤ ·) ∧
      ∀ w, (∀ u ∈ updatesS2.reverse, L.count w ≤ u.2.count w) ∧
        ∃ u ∈ updatesS2.reverse, L.count w = u.2.count w :=
  ⟨by decide!, by decide!,
   mirror_intersection exampleServer updatesS2.reverse updatesS2 "h1" "News" (by decide)
     (by decide!)⟩

/-! ### Removing a feed from the feed list -/

theorem eraseIdx_set_self {α : Type} (l : List α) (n : Nat) (x : α) :
    (l.set n x).eraseIdx n = l.eraseIdx n := by
  induction l generalizing n with
  | nil => simp
  | cons y l ih =>
    cases n with
    | zero => simp
    | succ n => simp [ih]

theorem eraseIdx_set_ne {α : Type} (l : List α) {n i : Nat} (x : α) (h : i ≠ n) :
    (l.set i x).eraseIdx n = (l.eraseIdx n).set (downIdx n i) x := by
  induction l generalizing n i with
  | nil => simp
  | cons y l ih =>
    cases n with
    | zero =>
      cases i with
      | zero => exact absurd rfl h
      | succ i => simp [downIdx]
    | succ n =>
      cases i with
      | zero => simp [downIdx]
      | succ i =>
        have hne : i ≠ n := fun e => h (by rw [e])
        have hd : downIdx (n + 1) (i + 1) = downIdx n i + 1 := by
          unfold downIdx
          split_ifs <;> omega
        simp only [List.set_cons_succ, List.eraseIdx_cons_succ, hd]
        rw [ih hne]

theorem getElem?_eraseIdx_down {α : Type} (l : List α) {n i : Nat} (h : i ≠ n) :
    (l.eraseIdx n)[downIdx n i]? = l[i]? := by
  rw [List.getElem?_eraseIdx]
  unfold downIdx
  by_cases hlt : i < n
  · simp [hlt]
  · have : n < i := by omega
    have h1 : ¬ (i - 1 < n) := by omega
    have h2 : i - 1 + 1 = i := by omega
    simp [hlt, h1, h2]

theorem getElem?_eraseIdx_up {α : Type} (l : List α) (n i : Nat) :
    (l.eraseIdx n)[i]? = l[upIdx n i]? := by
  rw [List.getElem?_eraseIdx]
  unfold upIdx
  split_ifs <;> rfl

theorem upIdx_ne (n i : Nat) : upIdx n i ≠ n := by
  unfold upIdx; split_ifs <;> omega

theorem downIdx_upIdx (n i : Nat) : downIdx n (upIdx n i) = i := by
  unfold upIdx downIdx; split_ifs <;> omega

theorem heldUnit_set_ne {s : State} {n i : Nat} {f : FeedThread} (sh : Shared) (m : MPc)
    (f' : FeedThread) (hf : s.feeds[i]? = some f) (h : i ≠ n) :
    heldUnit n { sh := sh, main := m, feeds := s.feeds.set i f' } = heldUnit n s := by
  unfold heldUnit
  simp only [feeds_set_get _ hf]
  rw [if_neg (fun e => h e.symm)]

theorem heldUnit_set_self {s : State} {n : Nat} {f : FeedThread} (sh : Shared) (m : MPc)
    (f' : FeedThread) (hf : s.feeds[n]? = some f) :
    heldUnit n { sh := sh, main := m, feeds := s.feeds.set n f' } =
      if f'.pc = .idle ∨ f'.pc = .done then 0 else 1 := by
  simp [heldUnit, feeds_set_get _ hf]

theorem mem_filter_ne {u v : String} {l : List String} (h : v ≠ u) :
    v ∈ l.filter (fun w => decide (w ≠ u)) ↔ v ∈ l := by
  simp [List.mem_filter, h]

/-- A transition of a feed worker of another URL is a transition without the feed of
URL `u`. -/
theorem feedStep_proj {sh sh' : Shared} {f f' : FeedThread} (k : Nat) {u : String}
    (h : feedStep sh f = some (sh', f')) (hu : f.feedUri ≠ u) :
    feedStep (projShared k u sh) f = some (projShared k u sh', f') := by
  rcases feedStep_cases h with ⟨hpc, hmem, rfl, rfl⟩ | ⟨hpc, hmem, rfl, rfl⟩ |
    ⟨hpc, hp, rfl, rfl⟩ | ⟨hpc, hp, rfl, rfl⟩ | ⟨j, hpc, ha, rfl, rfl⟩ |
    ⟨j, a, n, hpc, ha, hn, rfl, rfl⟩ | ⟨hpc, hall, rfl, rfl⟩ | ⟨hpc, rfl, rfl⟩
  · have hm : f.feedUri ∈ (projShared k u sh).seenFeedsUri := (mem_filter_ne hu).2 hmem
    simp [feedStep, hpc, hm]
    simp [projShared, isFeedEvent, hu]
  · have hm : f.feedUri ∉ (projShared k u sh).seenFeedsUri := fun h => hmem ((mem_filter_ne hu).1 h)
    simp [feedStep, hpc, hm]
    simp [projShared, List.filter_cons, hu]
  · simp [feedStep, hpc, hp]
    simp [projShared, isFeedEvent, hu]
  · simp [feedStep, hpc, hp]
    simp [projShared, isFeedEvent, hu]
  · simp [feedStep, hpc, ha]
  · have hn' : (projShared k u sh).articleSem = n + 1 := hn
    simp [feedStep, hpc, ha, hn']
    simp [projShared]
  · have hall' : (f.arts.all fun a => decide (a.pc = APc.done)) = true := by
      simpa using hall
    simp [feedStep, hpc, hall']
    simp [projShared, isFeedEvent, hu]
  · simp [feedStep, hpc]
    simp [projShared]
    omega

/-- A transition of an article worker is a transition without the feed of URL `u`. -/
theorem articleStep_proj {g : String → String} {sh sh' : Shared} {a a' : ArticleThread}
    (k : Nat) (u : String) (h : articleStep g sh a = some (sh', a')) :
    articleStep g (projShared k u sh) a = some (projShared k u sh', a') := by
  rcases articleStep_cases h with ⟨hpc, hmem, rfl, rfl⟩ | ⟨hpc, hmem, rfl, rfl⟩ |
    ⟨hpc, hnone, rfl, rfl⟩ | ⟨hpc, ⟨n, hsome⟩, rfl, rfl⟩ | ⟨hpc, ⟨n, hsome, rfl⟩, rfl⟩ |
    ⟨hpc, ⟨tokens, hd, rfl⟩, rfl⟩ | ⟨hpc, hd, rfl, rfl⟩ | ⟨hpc, rfl, rfl⟩ |
    ⟨hpc, rfl, rfl⟩ | ⟨hpc, rfl, rfl⟩
  · have hm : a.article.url ∈ (projShared k u sh).seenArticlesUri := hmem
    simp [articleStep, hpc, hm]
    simp [projShared, isFeedEvent]
  · have hm : a.article.url ∉ (projShared k u sh).seenArticlesUri := hmem
    simp [articleStep, hpc, hm]
    simp [projShared]
  · have hm : Map.find (g a.article.url) (projShared k u sh).serverSem = none := hnone
    simp [articleStep, hpc, hm]
    simp [projShared]
  · have hm : Map.find (g a.article.url) (projShared k u sh').serverSem = some n := hsome
    simp [articleStep, hpc, hm]
  · have hm : Map.find (g a.article.url) (projShared k u sh).serverSem = some (n + 1) := hsome
    simp [articleStep, hpc, hm]
    simp [projShared]
  · simp [articleStep, hpc, hd]
    simp [projShared, isFeedEvent]
  · simp [articleStep, hpc, hd]
    simp [projShared, isFeedEvent]
  · simp [articleStep, hpc]
    simp [projShared]
  · simp [articleStep, hpc]
    simp [projShared]
  · simp [articleStep, hpc]
    simp [projShared]

theorem State.eq_of {s t : State} (h1 : s.sh = t.sh) (h2 : s.main = t.main)
    (h3 : s.feeds = t.feeds) : s = t := by
  cases s; cases t
  simp only at h1 h2 h3
  subst h1; subst h2; subst h3
  rfl

/-- A transition of the worker of another feed is a transition of the crawl without
feed `n`. -/
theorem step_feed_proj {g : String → String} {s t : State} {n i : Nat} (u : String)
    (hstep : step g s (.feed i) = some t) (hne : i ≠ n)
    (huri : ∀ f, s.feeds[i]? = some f → f.feedUri ≠ u) :
    step g (proj n u s) (.feed (downIdx n i)) = some (proj n u t) := by
  obtain ⟨f, sh', f', hf, hfs, rfl⟩ := step_feed_inv hstep
  have hget : (proj n u s).feeds[downIdx n i]? = some f := by
    show (s.feeds.eraseIdx n)[downIdx n i]? = some f
    rw [getElem?_eraseIdx_down _ hne, hf]
  have hfs' := feedStep_proj (heldUnit n s) hfs (huri f hf)
  have hsh : (proj n u s).sh = projShared (heldUnit n s) u s.sh := rfl
  simp only [step, hget, hsh, hfs', Option.some.injEq]
  apply State.eq_of
  · show _ = projShared (heldUnit n _) u sh'
    rw [heldUnit_set_ne _ _ _ hf hne]
  · rfl
  · show (s.feeds.eraseIdx n).set (downIdx n i) f' = (s.feeds.set i f').eraseIdx n
    rw [eraseIdx_set_ne _ _ hne]

/-- A transition of an article worker of another feed is a transition of the crawl
without feed `n`. -/
theorem step_article_proj {g : String → String} {s t : State} {n i j : Nat} (u : String)
    (hstep : step g s (.article i j) = some t) (hne : i ≠ n) :
    step g (proj n u s) (.article (downIdx n i) j) = some (proj n u t) := by
  obtain ⟨f, a, sh', a', hf, ha, has, rfl⟩ := step_article_inv hstep
  have hget : (proj n u s).feeds[downIdx n i]? = some f := by
    show (s.feeds.eraseIdx n)[downIdx n i]? = some f
    rw [getElem?_eraseIdx_down _ hne, hf]
  have has' := articleStep_proj (heldUnit n s) u has
  have hsh : (proj n u s).sh = projShared (heldUnit n s) u s.sh := rfl
  simp only [step, hget, ha, hsh, has', Option.some.injEq]
  apply State.eq_of
  · show _ = projShared (heldUnit n _) u sh'
    rw [heldUnit_set_ne _ _ _ hf hne]
  · rfl
  · show (s.feeds.eraseIdx n).set (downIdx n i) _ = (s.feeds.set i _).eraseIdx n
    rw [eraseIdx_set_ne _ _ hne]

/-- A transition of the worker of a feed whose parse fails changes nothing of the crawl
without that feed. -/
theorem step_bad_proj {g : String → String} {s t : State} {n : Nat} (u : String)
    (hstep : step g s (.feed n) = some t)
    (hbad : ∀ f, s.feeds[n]? = some f → f.feedUri = u ∧ f.parses = false ∧
      (f.pc = .idle ∨ f.pc = .dedup ∨ f.pc = .parse ∨ f.pc = .exit ∨ f.pc = .done)) :
    proj n u t = proj n u s := by
  obtain ⟨f, sh', f', hf, hfs, rfl⟩ := step_feed_inv hstep
  obtain ⟨hu, hp, hpcs⟩ := hbad f hf
  have hheld : ∀ f'' : FeedThread,
      heldUnit n { sh := sh', main := s.main, feeds := s.feeds.set n f'' } =
        if f''.pc = .idle ∨ f''.pc = .done then 0 else 1 := by
    intro f''
    simp [heldUnit, feeds_set_get _ hf]
  have hheld0 : heldUnit n s = if f.pc = .idle ∨ f.pc = .done then 0 else 1 := by
    simp [heldUnit, hf]
  apply State.eq_of
  · show projShared (heldUnit n _) u sh' = projShared (heldUnit n s) u s.sh
    rw [hheld, hheld0]
    rcases feedStep_cases hfs with ⟨hpc, hmem, rfl, rfl⟩ | ⟨hpc, hmem, rfl, rfl⟩ |
      ⟨hpc, hp', rfl, rfl⟩ | ⟨hpc, hp', rfl, rfl⟩ | ⟨j, hpc, ha, rfl, rfl⟩ |
      ⟨j, a, m, hpc, ha, hn, rfl, rfl⟩ | ⟨hpc, hall, rfl, rfl⟩ | ⟨hpc, rfl, rfl⟩
    · simp [projShared, hpc, isFeedEvent, hu]
    · simp [projShared, hpc, hu]
    · rw [hp] at hp'; simp at hp'
    · simp [projShared, hpc, isFeedEvent, hu]
    · simp [hpc] at hpcs
    · simp [hpc] at hpcs
    · simp [hpc] at hpcs
    · simp [projShared, hpc]
  · rfl
  · show (s.feeds.set n f').eraseIdx n = s.feeds.eraseIdx n
    rw [eraseIdx_set_self]

/-- A transition of `processFeeds` is one of the crawl without feed `n`, except the
launch of the worker of feed `n`, which changes nothing of that crawl. -/
theorem step_main_proj {g : String → String} {s t : State} {n : Nat} (u : String)
    (hstep : step g s .main = some t) {fb : FeedThread} (hfb : s.feeds[n]? = some fb)
    (hidle : s.main = .spawn n → fb.pc = .idle) :
    (s.main = .spawn n ∧ proj n u t = proj n u s) ∨
    (s.main ≠ .spawn n ∧ step g (proj n u s) .main = some (proj n u t)) := by
  have hlen : n < s.feeds.length := by
    rcases Nat.lt_or_ge n s.feeds.length with h | h
    · exact h
    · rw [List.getElem?_eq_none h] at hfb; simp at hfb
  rcases mainStep_cases (step_main_inv hstep) with
    ⟨k, hm, hnone, rfl⟩ | ⟨k, f, m, hm, hf, hsem, rfl⟩ | ⟨hm, hall, rfl⟩ | ⟨hm, rfl⟩
  · right
    have hk : s.feeds.length ≤ k := by
      rcases Nat.lt_or_ge k s.feeds.length with h | h
      · rw [List.getElem?_eq_getElem h] at hnone; simp at hnone
      · exact h
    refine ⟨by rw [hm]; intro e; simp only [MPc.spawn.injEq] at e; omega, ?_⟩
    have hmain : (proj n u s).main = .spawn (k - 1) := by
      show projMain n s.main = _
      rw [hm]
      simp only [projMain, MPc.spawn.injEq]
      rw [if_neg (by omega)]
    have hget : (proj n u s).feeds[k - 1]? = none := by
      show (s.feeds.eraseIdx n)[k - 1]? = none
      rw [List.getElem?_eq_none]
      rw [List.length_eraseIdx_of_lt hlen]
      omega
    simp only [step, mainStep, hmain, hget, Option.some.injEq]
    apply State.eq_of <;> rfl
  · by_cases hkn : k = n
    · left
      subst hkn
      rw [hf] at hfb
      simp only [Option.some.injEq] at hfb
      subst hfb
      refine ⟨hm, ?_⟩
      have hpc := hidle hm
      apply State.eq_of
      · show projShared (heldUnit k _) u _ = projShared (heldUnit k s) u s.sh
        have h1 : heldUnit k s = 0 := by simp [heldUnit, hf, hpc]
        rw [h1, heldUnit_set_self _ _ _ hf]
        simp [projShared, hsem]
      · show projMain k (.spawn (k + 1)) = projMain k s.main
        rw [hm]
        simp [projMain]
      · show (s.feeds.set k _).eraseIdx k = s.feeds.eraseIdx k
        rw [eraseIdx_set_self]
    · right
      refine ⟨by rw [hm]; intro e; simp only [MPc.spawn.injEq] at e; exact hkn e, ?_⟩
      have hmain : (proj n u s).main = .spawn (downIdx n k) := by
        show projMain n s.main = _
        rw [hm]
        simp only [projMain, downIdx, MPc.spawn.injEq]
        split_ifs <;> omega
      have hget : (proj n u s).feeds[downIdx n k]? = some f := by
        show (s.feeds.eraseIdx n)[downIdx n k]? = some f
        rw [getElem?_eraseIdx_down _ hkn, hf]
      have hsem' : (proj n u s).sh.feedSem = (m + heldUnit n s) + 1 := by
        show s.sh.feedSem + heldUnit n s = _
        omega
      simp only [step, mainStep, hmain, hget, hsem', Option.some.injEq]
      apply State.eq_of
      · show _ = projShared (heldUnit n _) u _
        rw [heldUnit_set_ne _ _ _ hf hkn]
        simp [projShared, proj]
      · show MPc.spawn (downIdx n k + 1) = projMain n (.spawn (k + 1))
        simp only [projMain, downIdx, MPc.spawn.injEq]
        split_ifs <;> omega
      · show (s.feeds.eraseIdx n).set (downIdx n k) _ = (s.feeds.set k _).eraseIdx n
        rw [eraseIdx_set_ne _ _ hkn]
  · right
    refine ⟨by rw [hm]; simp, ?_⟩
    have hmain : (proj n u s).main = .join := by
      show projMain n s.main = _
      rw [hm]; rfl
    have hall' : ((proj n u s).feeds.all fun f => decide (f.pc = FPc.done)) = true := by
      rw [List.all_eq_true]
      intro f hf
      have : f ∈ s.feeds := List.mem_of_mem_eraseIdx hf
      simp [hall f this]
    simp only [step, mainStep, hmain, hall', if_true, Option.some.injEq]
    apply State.eq_of <;> rfl
  · right
    refine ⟨by rw [hm]; simp, ?_⟩
    have hmain : (proj n u s).main = .fold := by
      show projMain n s.main = _
      rw [hm]; rfl
    simp only [step, mainStep, hmain, Option.some.injEq]
    apply State.eq_of <;> rfl

/-- The URL and the parse outcome of the feed workers are those of the feed list, in
its order. -/
theorem feeds_static (g : String → String) (feeds : List Feed) {s : State}
    (hs : Reachable g (init feeds) s) :
    s.feeds.map (fun f => (f.feedUri, f.parses)) =
      feeds.map (fun f => (f.feedUri, f.parses)) := by
  induction hs with
  | start => simp [init, Feed.thread, Function.comp_def]
  | @next s s' tid _ hstep ih =>
    rw [← ih]
    cases tid with
    | main =>
      rcases mainStep_cases (step_main_inv hstep) with
        ⟨i, _, _, rfl⟩ | ⟨i, f, n, _, hf, _, rfl⟩ | ⟨_, _, rfl⟩ | ⟨_, rfl⟩
      · rfl
      · exact map_set_of_eq _ hf rfl
      · rfl
      · rfl
    | feed i =>
      obtain ⟨f, sh, f', hf, hfs, rfl⟩ := step_feed_inv hstep
      exact map_set_of_eq _ hf (by rw [(feedStep_uri hfs).1, (feedStep_uri hfs).2])
    | article i j =>
      obtain ⟨f, a, sh, a', hf, ha, has, rfl⟩ := step_article_inv hstep
      exact map_set_of_eq _ hf rfl

theorem getElem?_mid {α : Type} (A B : List α) (x : α) : (A ++ x :: B)[A.length]? = some x := by
  rw [List.getElem?_append_right (le_refl _)]
  simp

/-- The worker at the place of a feed of the list has its URL and its parse outcome. -/
theorem feed_at (g : String → String) (pre post : List Feed) (bad : Feed) {s : State}
    (hs : Reachable g (init (pre ++ bad :: post)) s) :
    ∃ fb, s.feeds[pre.length]? = some fb ∧ fb.feedUri = bad.feedUri ∧
      fb.parses = bad.parses := by
  have hstat := feeds_static g (pre ++ bad :: post) hs
  have h1 : (s.feeds.map (fun f => (f.feedUri, f.parses)))[pre.length]? =
      some (bad.feedUri, bad.parses) := by
    rw [hstat, List.map_append, List.map_cons]
    have := getElem?_mid (pre.map (fun f => (f.feedUri, f.parses)))
      (post.map (fun f => (f.feedUri, f.parses))) (bad.feedUri, bad.parses)
    rw [List.length_map] at this
    exact this
  rw [List.getElem?_map] at h1
  cases hf : s.feeds[pre.length]? with
  | none => simp [hf] at h1
  | some fb =>
    simp only [hf, Option.map_some', Option.some.injEq, Prod.mk.injEq] at h1
    exact ⟨fb, rfl, h1.1, h1.2⟩

/-- The worker of a feed whose parse fails never reaches the launch loop, and none of
the article workers of the feed is ever launched. -/
theorem failed_feed_invariant (g : String → String) (feeds : List Feed) {s : State}
    (hs : Reachable g (init feeds) s) :
    ∀ (i : Nat) (f : FeedThread), s.feeds[i]? = some f → f.parses = false →
      (f.pc = .idle ∨ f.pc = .dedup ∨ f.pc = .parse ∨ f.pc = .exit ∨ f.pc = .done) ∧
      ∀ a ∈ f.arts, a.pc = .idle := by
  induction hs with
  | start =>
    intro i f hf _
    have := init_arts_idle f (List.getElem?_mem hf)
    exact ⟨Or.inl this.1, this.2⟩
  | @next s s' tid _ hstep ih =>
    intro i' f' hf' hp
    cases tid with
    | main =>
      rcases mainStep_cases (step_main_inv hstep) with
        ⟨i, _, _, rfl⟩ | ⟨i, f, n, _, hf, _, rfl⟩ | ⟨_, _, rfl⟩ | ⟨_, rfl⟩
      · exact ih i' f' hf' hp
      · simp only [feeds_set_get _ hf] at hf'
        by_cases hi : i' = i
        · subst hi
          simp only [if_true, Option.some.injEq] at hf'
          subst hf'
          exact ⟨Or.inr (Or.inl rfl), (ih i' f hf hp).2⟩
        · rw [if_neg hi] at hf'
          exact ih i' f' hf' hp
      · exact ih i' f' hf' hp
      · exact ih i' f' hf' hp
    | feed i =>
      obtain ⟨f, sh, f1, hf, hfs, rfl⟩ := step_feed_inv hstep
      simp only [feeds_set_get _ hf] at hf'
      by_cases hi : i' = i
      · subst hi
        simp only [if_true, Option.some.injEq] at hf'
        subst hf'
        have hpf : f.parses = false := by rw [← (feedStep_uri hfs).2]; exact hp
        obtain ⟨hpcs, harts⟩ := ih i' f hf hpf
        rcases feedStep_cases hfs with ⟨hpc, _, rfl, rfl⟩ | ⟨hpc, _, rfl, rfl⟩ |
          ⟨hpc, hp', rfl, rfl⟩ | ⟨hpc, _, rfl, rfl⟩ | ⟨j, hpc, _, rfl, rfl⟩ |
          ⟨j, a, n, hpc, ha, _, rfl, rfl⟩ | ⟨hpc, _, rfl, rfl⟩ | ⟨hpc, rfl, rfl⟩
        · exact ⟨by simp, harts⟩
        · exact ⟨by simp, harts⟩
        · rw [hpf] at hp'; simp at hp'
        · exact ⟨by simp, harts⟩
        · simp [hpc] at hpcs
        · simp [hpc] at hpcs
        · simp [hpc] at hpcs
        · exact ⟨by simp, harts⟩
      · rw [if_neg hi] at hf'
        exact ih i' f' hf' hp
    | article i j =>
      obtain ⟨f, a, sh, a', hf, ha, has, rfl⟩ := step_article_inv hstep
      simp only [feeds_set_get _ hf] at hf'
      by_cases hi : i' = i
      · subst hi
        simp only [if_true, Option.some.injEq] at hf'
        subst hf'
        have hidle := (ih i' f hf hp).2 a (List.getElem?_mem ha)
        simp [articleStep, hidle] at has
      · rw [if_neg hi] at hf'
        exact ih i' f' hf' hp

theorem proj_init (pre post : List Feed) (bad : Feed) :
    proj pre.length bad.feedUri (init (pre ++ bad :: post)) = init (pre ++ post) := by
  apply State.eq_of
  · show projShared (heldUnit pre.length (init (pre ++ bad :: post))) bad.feedUri
      (init (pre ++ bad :: post)).sh = (init (pre ++ post)).sh
    have h : heldUnit pre.length (init (pre ++ bad :: post)) = 0 := by
      have := getElem?_mid (pre.map Feed.thread) (post.map Feed.thread) bad.thread
      rw [List.length_map] at this
      have h2 : (init (pre ++ bad :: post)).feeds[pre.length]? = some bad.thread := by
        show ((pre ++ bad :: post).map Feed.thread)[pre.length]? = _
        rw [List.map_append, List.map_cons]
        exact this
      unfold heldUnit
      rw [h2]
      simp [Feed.thread]
    rw [h]
    simp [projShared, init]
  · simp [proj, projMain, init]
  · show ((pre ++ bad :: post).map Feed.thread).eraseIdx pre.length =
      (pre ++ post).map Feed.thread
    rw [List.map_append, List.map_append, List.map_cons]
    rw [List.eraseIdx_append_of_length_le (by simp)]
    simp

/-- Every state of the crawl of a feed list with a feed whose parse fails is, once that
feed is taken out, a state of the crawl of the list without the feed. -/
theorem reachable_proj (g : String → String) (pre post : List Feed) (bad : Feed)
    (hbad : bad.parses = false)
    (hnodup : ((pre ++ bad :: post).map (fun f => f.feedUri)).Nodup) {s : State}
    (hs : Reachable g (init (pre ++ bad :: post)) s) :
    Reachable g (init (pre ++ post)) (proj pre.length bad.feedUri s) := by
  induction hs with
  | start => rw [proj_init]; exact Reachable.start
  | @next s t tid hreach hstep ih =>
    obtain ⟨fb, hfb, hu, hp⟩ := feed_at g pre post bad hreach
    rw [hbad] at hp
    have hinv := failed_feed_invariant g _ hreach pre.length fb hfb hp
    cases tid with
    | main =>
      rcases step_main_proj bad.feedUri hstep hfb
        (fun hm => unlaunched_idle g _ hreach _ hm _ fb hfb (le_refl _)) with
        ⟨_, h⟩ | ⟨_, h⟩
      · rw [h]; exact ih
      · exact Reachable.next _ ih h
    | feed i =>
      by_cases hi : i = pre.length
      · subst hi
        have := step_bad_proj bad.feedUri hstep (fun f hf => by
          rw [hfb] at hf
          simp only [Option.some.injEq] at hf
          subst hf
          exact ⟨hu, hp, hinv.1⟩)
        rw [this]; exact ih
      · refine Reachable.next _ ih (step_feed_proj _ hstep hi ?_)
        intro f hf hfu
        exact hi (feed_index_unique g _ hnodup hreach hf hfb (hfu.trans hu.symm))
    | article i j =>
      by_cases hi : i = pre.length
      · subst hi
        obtain ⟨f, a, sh, a', hf, ha, has, _⟩ := step_article_inv hstep
        rw [hfb] at hf
        simp only [Option.some.injEq] at hf
        subst hf
        have hidle := hinv.2 a (List.getElem?_mem ha)
        simp [articleStep, hidle] at has
      · exact Reachable.next _ ih (step_article_proj _ hstep hi)

/-- Whether a feed worker can move does not depend on what the removed feed changes. -/
theorem feedStep_unproj {k : Nat} {u : String} {sh : Shared} {f : FeedThread}
    {r : Shared × FeedThread} (h : feedStep (projShared k u sh) f = some r) :
    ∃ r', feedStep sh f = some r' := by
  unfold feedStep at h ⊢
  cases hpc : f.pc <;> simp only [hpc] at h ⊢
  · simp at h
  · split_ifs <;> exact ⟨_, rfl⟩
  · split_ifs <;> exact ⟨_, rfl⟩
  · rename_i j
    cases ha : f.arts[j]? with
    | none => exact ⟨_, rfl⟩
    | some a =>
      simp only [ha] at h ⊢
      have hsem : (projShared k u sh).articleSem = sh.articleSem := rfl
      rw [hsem] at h
      cases hn : sh.articleSem with
      | zero => simp [hn] at h
      | succ n => exact ⟨_, rfl⟩
  · split_ifs at h ⊢
    exact ⟨_, rfl⟩
  · exact ⟨_, rfl⟩
  · simp at h

/-- Whether an article worker can move does not depend on what the removed feed
changes. -/
theorem articleStep_unproj {g : String → String} {k : Nat} {u : String} {sh : Shared}
    {a : ArticleThread} {r : Shared × ArticleThread}
    (h : articleStep g (projShared k u sh) a = some r) :
    ∃ r', articleStep g sh a = some r' := by
  unfold articleStep at h ⊢
  have hsem : (projShared k u sh).serverSem = sh.serverSem := rfl
  have hseen : (projShared k u sh).seenArticlesUri = sh.seenArticlesUri := rfl
  cases hpc : a.pc <;> simp only [hpc, hsem, hseen] at h ⊢
  · simp at h
  · split_ifs <;> exact ⟨_, rfl⟩
  · cases Map.find (g a.article.url) sh.serverSem <;> exact ⟨_, rfl⟩
  · cases hf : Map.find (g a.article.url) sh.serverSem with
    | none => simp [hf] at h
    | some n =>
      cases n with
      | zero => simp [hf] at h
      | succ n => exact ⟨_, rfl⟩
  · cases a.doc <;> exact ⟨_, rfl⟩
  · exact ⟨_, rfl⟩
  · exact ⟨_, rfl⟩
  · exact ⟨_, rfl⟩
  · simp at h

/-- A transition of a feed worker of the crawl without feed `n` is one of the crawl
with it. -/
theorem lift_feed {g : String → String} {s t' : State} {n i' : Nat} {u : String}
    (hstep : step g (proj n u s) (.feed i') = some t')
    (huri : ∀ f, s.feeds[upIdx n i']? = some f → f.feedUri ≠ u) :
    ∃ t, step g s (.feed (upIdx n i')) = some t ∧ proj n u t = t' := by
  obtain ⟨f, sh1, f1, hf, hfs, _⟩ := step_feed_inv hstep
  have hf0 : s.feeds[upIdx n i']? = some f := by
    rw [← getElem?_eraseIdx_up]; exact hf
  obtain ⟨⟨sh0, f0⟩, h0⟩ := feedStep_unproj (show feedStep
    (projShared (heldUnit n s) u s.sh) f = some (sh1, f1) from hfs)
  have hst : step g s (.feed (upIdx n i')) =
      some { sh := sh0, main := s.main, feeds := s.feeds.set (upIdx n i') f0 } := by
    simp [step, hf0, h0]
  refine ⟨_, hst, ?_⟩
  have := step_feed_proj u hst (upIdx_ne n i') huri
  rw [downIdx_upIdx, hstep] at this
  exact (Option.some.inj this).symm

/-- A transition of an article worker of the crawl without feed `n` is one of the crawl
with it. -/
theorem lift_article {g : String → String} {s t' : State} {n i' j : Nat} {u : String}
    (hstep : step g (proj n u s) (.article i' j) = some t') :
    ∃ t, step g s (.article (upIdx n i') j) = some t ∧ proj n u t = t' := by
  obtain ⟨f, a, sh1, a1, hf, ha, has, _⟩ := step_article_inv hstep
  have hf0 : s.feeds[upIdx n i']? = some f := by
    rw [← getElem?_eraseIdx_up]; exact hf
  obtain ⟨⟨sh0, a0⟩, h0⟩ := articleStep_unproj (show articleStep g
    (projShared (heldUnit n s) u s.sh) a = some (sh1, a1) from has)
  have hst : step g s (.article (upIdx n i') j) =
      some { sh := sh0, main := s.main,
             feeds := s.feeds.set (upIdx n i') { f with arts := f.arts.set j a0 } } := by
    simp [step, hf0, ha, h0]
  refine ⟨_, hst, ?_⟩
  have := step_article_proj u hst (upIdx_ne n i')
  rw [downIdx_upIdx, hstep] at this
  exact (Option.some.inj this).symm

/-- A feed worker that `processFeeds` is past has been launched. -/
theorem launched_not_idle (g : String → String) (feeds : List Feed) {s : State}
    (hs : Reachable g (init feeds) s) :
    ∀ (i : Nat) (f : FeedThread), s.feeds[i]? = some f →
      (∀ k, s.main = .spawn k → i < k) → f.pc ≠ .idle := by
  induction hs with
  | start =>
    intro i f _ h
    have := h 0 rfl
    omega
  | @next s s' tid _ hstep ih =>
    intro i' f' hf' hk
    cases tid with
    | main =>
      rcases mainStep_cases (step_main_inv hstep) with
        ⟨k, hm, hnone, rfl⟩ | ⟨k, f, n, hm, hf, _, rfl⟩ | ⟨hm, _, rfl⟩ | ⟨hm, rfl⟩
      · refine ih i' f' hf' ?_
        intro k' hk'
        rw [hm] at hk'
        simp only [MPc.spawn.injEq] at hk'
        subst hk'
        rcases Nat.lt_or_ge i' k with h | h
        · exact h
        · have hlen : s.feeds.length ≤ k := by
            rcases Nat.lt_or_ge k s.feeds.length with h' | h'
            · rw [List.getElem?_eq_getElem h'] at hnone; simp at hnone
            · exact h'
          have : s.feeds[i']? = none := List.getElem?_eq_none (by omega)
          rw [this] at hf'; simp at hf'
      · have hlt := hk (k + 1) rfl
        simp only [feeds_set_get _ hf] at hf'
        by_cases hi : i' = k
        · subst hi
          simp only [if_true, Option.some.injEq] at hf'
          subst hf'
          simp
        · rw [if_neg hi] at hf'
          refine ih i' f' hf' ?_
          intro k' hk'
          rw [hm] at hk'
          simp only [MPc.spawn.injEq] at hk'
          omega
      · exact ih i' f' hf' (by intro k hk'; rw [hm] at hk'; simp at hk')
      · exact ih i' f' hf' (by intro k hk'; rw [hm] at hk'; simp at hk')
    | feed i =>
      obtain ⟨f, sh, f1, hf, hfs, rfl⟩ := step_feed_inv hstep
      simp only [feeds_set_get _ hf] at hf'
      by_cases hi : i' = i
      · subst hi
        simp only [if_true, Option.some.injEq] at hf'
        subst hf'
        exact (feedStep_pc hfs).2.1
      · rw [if_neg hi] at hf'
        exact ih i' f' hf' hk
    | article i j =>
      obtain ⟨f, a, sh, a', hf, ha, has, rfl⟩ := step_article_inv hstep
      simp only [feeds_set_get _ hf] at hf'
      by_cases hi : i' = i
      · subst hi
        simp only [if_true, Option.some.injEq] at hf'
        subst hf'
        exact ih i' f hf hk
      · rw [if_neg hi] at hf'
        exact ih i' f' hf' hk

/-- The units of `feedSem` that are available and those that the feed workers hold make
up its capacity. -/
theorem feedSem_invariant (g : String → String) (feeds : List Feed) {s : State}
    (hs : Reachable g (init feeds) s) :
    s.sh.feedSem + s.feeds.countP holdsFeedUnit = kFeedCapacity := by
  induction hs with
  | start =>
    have h0 : (init feeds).feeds.countP holdsFeedUnit = 0 := by
      rw [List.countP_eq_zero]
      intro f hf
      simp [holdsFeedUnit, (init_arts_idle f hf).1]
    rw [h0]; rfl
  | @next s s' tid hreach hstep ih =>
    cases tid with
    | main =>
      rcases mainStep_cases (step_main_inv hstep) with
        ⟨k, hm, hnone, rfl⟩ | ⟨k, f, n, hm, hf, hsem, rfl⟩ | ⟨hm, _, rfl⟩ | ⟨hm, rfl⟩
      · exact ih
      · have hidle := unlaunched_idle g feeds hreach k hm k f hf (le_refl _)
        have := countP_set holdsFeedUnit { f with pc := .dedup } hf
        simp [holdsFeedUnit, hidle] at this
        show n + (s.feeds.set k { f with pc := .dedup }).countP holdsFeedUnit = kFeedCapacity
        omega
      · exact ih
      · exact ih
    | feed i =>
      obtain ⟨f, sh, f1, hf, hfs, rfl⟩ := step_feed_inv hstep
      have hset := countP_set holdsFeedUnit f1 hf
      show sh.feedSem + (s.feeds.set i f1).countP holdsFeedUnit = kFeedCapacity
      generalize (s.feeds.set i f1).countP holdsFeedUnit = N' at hset ⊢
      rcases feedStep_cases hfs with ⟨hpc, _, rfl, rfl⟩ | ⟨hpc, _, rfl, rfl⟩ |
        ⟨hpc, _, rfl, rfl⟩ | ⟨hpc, _, rfl, rfl⟩ | ⟨j, hpc, _, rfl, rfl⟩ |
        ⟨j, a, n, hpc, ha, _, rfl, rfl⟩ | ⟨hpc, _, rfl, rfl⟩ | ⟨hpc, rfl, rfl⟩ <;>
        simp [holdsFeedUnit, hpc] at hset ⊢ <;> omega
    | article i j =>
      obtain ⟨f, a, sh, a', hf, ha, has, rfl⟩ := step_article_inv hstep
      have hset := countP_set holdsFeedUnit
        { f with arts := f.arts.set j a', pc := f.pc } hf
      have hsem : sh.feedSem = s.sh.feedSem := by
        rcases articleStep_cases has with ⟨_, _, rfl, rfl⟩ | ⟨_, _, rfl, rfl⟩ |
          ⟨_, _, rfl, rfl⟩ | ⟨_, _, rfl, rfl⟩ | ⟨_, ⟨n, _, rfl⟩, rfl⟩ |
          ⟨_, ⟨tokens, _, rfl⟩, rfl⟩ | ⟨_, _, rfl, rfl⟩ | ⟨_, rfl, rfl⟩ |
          ⟨_, rfl, rfl⟩ | ⟨_, rfl, rfl⟩ <;> rfl
      show sh.feedSem + (s.feeds.set i _).countP holdsFeedUnit = kFeedCapacity
      simp only [holdsFeedUnit] at hset ih ⊢
      simp only [add_left_inj] at hset
      rw [hsem, hset]
      exact ih

/-- A transition of `processFeeds` in the crawl without feed `n` is one of the crawl
with it, when the worker of feed `n` has ended, or is not yet launched and
`processFeeds` has not reached it. -/
theorem lift_main {g : String → String} {s t' : State} {n : Nat} {u : String}
    {fb : FeedThread} (hfb : s.feeds[n]? = some fb)
    (hcond : fb.pc = .done ∨ (fb.pc = .idle ∧ ∃ k, s.main = .spawn k ∧ k < n))
    (hidle : s.main = .spawn n → fb.pc = .idle)
    (hstep : step g (proj n u s) .main = some t') :
    ∃ t, step g s .main = some t ∧ proj n u t = t' := by
  have hheld : heldUnit n s = 0 := by
    unfold heldUnit
    rw [hfb]
    rcases hcond with h | ⟨h, _⟩ <;> simp [h]
  have hne : s.main ≠ .spawn n := by
    intro hm
    rcases hcond with h | ⟨_, k, hk, hlt⟩
    · rw [hidle hm] at h; simp at h
    · rw [hm] at hk
      simp only [MPc.spawn.injEq] at hk
      omega
  have hen : ∃ t, step g s .main = some t := by
    simp only [step] at hstep ⊢
    unfold mainStep at hstep ⊢
    cases hm : s.main with
    | spawn k =>
      have hkn : k ≠ n := fun e => hne (by rw [hm, e])
      have hmain : (proj n u s).main = .spawn (downIdx n k) := by
        show projMain n s.main = _
        rw [hm]
        simp only [projMain, downIdx, MPc.spawn.injEq]
        split_ifs <;> omega
      have hget : (proj n u s).feeds[downIdx n k]? = s.feeds[k]? := by
        show (s.feeds.eraseIdx n)[downIdx n k]? = _
        exact getElem?_eraseIdx_down _ hkn
      have hsem : (proj n u s).sh.feedSem = s.sh.feedSem := by
        show s.sh.feedSem + heldUnit n s = _
        rw [hheld]; rfl
      simp only [hmain, hget, hsem] at hstep
      simp only
      cases hf : s.feeds[k]? with
      | none => exact ⟨_, rfl⟩
      | some f =>
        simp only [hf] at hstep ⊢
        cases hn : s.sh.feedSem with
        | zero => simp [hn] at hstep
        | succ m => exact ⟨_, rfl⟩
    | join =>
      have hmain : (proj n u s).main = .join := by
        show projMain n s.main = _
        rw [hm]; rfl
      simp only [hmain] at hstep
      simp only
      split_ifs at hstep with hall
      have hall' : (s.feeds.all fun f => decide (f.pc = FPc.done)) = true := by
        rw [List.all_eq_true] at hall ⊢
        intro f hf
        obtain ⟨i, hi⟩ := List.getElem?_of_mem hf
        by_cases hin : i = n
        · subst hin
          rw [hfb] at hi
          simp only [Option.some.injEq] at hi
          subst hi
          rcases hcond with h | ⟨_, k, hk, _⟩
          · simp [h]
          · rw [hm] at hk; simp at hk
        · have : f ∈ (proj n u s).feeds := by
            show f ∈ s.feeds.eraseIdx n
            rw [List.mem_eraseIdx_iff_getElem?]
            exact ⟨i, hin, hi⟩
          exact hall f this
      rw [if_pos hall']
      exact ⟨_, rfl⟩
    | fold => exact ⟨_, rfl⟩
    | done =>
      have hmain : (proj n u s).main = .done := by
        show projMain n s.main = _
        rw [hm]; rfl
      simp [hmain] at hstep
  obtain ⟨t, ht⟩ := hen
  refine ⟨t, ht, ?_⟩
  rcases step_main_proj u ht hfb hidle with ⟨h, _⟩ | ⟨_, h⟩
  · exact absurd h hne
  · rw [hstep] at h
    exact (Option.some.inj h).symm

/-- A transition of a worker leaves `processFeeds` where it is, and does not depend on
where it is. -/
theorem step_with_main {g : String → String} {s t : State} {tid : Tid} (m : MPc)
    (htid : tid ≠ .main) (h : step g s tid = some t) :
    t.main = s.main ∧
    step g { sh := s.sh, main := m, feeds := s.feeds } tid =
      some { sh := t.sh, main := m, feeds := t.feeds } := by
  cases tid with
  | main => exact absurd rfl htid
  | feed i =>
    obtain ⟨f, sh, f', hf, hfs, rfl⟩ := step_feed_inv h
    exact ⟨rfl, by simp [step, hf, hfs]⟩
  | article i j =>
    obtain ⟨f, a, sh, a', hf, ha, has, rfl⟩ := step_article_inv h
    exact ⟨rfl, by simp [step, hf, ha, has]⟩

/-- One transition of the worker of the feed whose parse fails, seen from the crawl
without the feed. -/
theorem bad_step (g : String → String) (pre post : List Feed) (bad : Feed)
    (hbad : bad.parses = false) {s : State}
    (hs : Reachable g (init (pre ++ bad :: post)) s) {fb f' : FeedThread} {sh' : Shared}
    (hfb : s.feeds[pre.length]? = some fb) (hfs : feedStep s.sh fb = some (sh', f')) :
    Reachable g (init (pre ++ bad :: post))
      { sh := sh', main := s.main, feeds := s.feeds.set pre.length f' } ∧
    proj pre.length bad.feedUri
      { sh := sh', main := s.main, feeds := s.feeds.set pre.length f' } =
      proj pre.length bad.feedUri s ∧
    ({ sh := sh', main := s.main, feeds := s.feeds.set pre.length f' } : State).feeds[pre.length]?
      = some f' := by
  have hst : step g s (.feed pre.length) =
      some { sh := sh', main := s.main, feeds := s.feeds.set pre.length f' } := by
    simp [step, hfb, hfs]
  obtain ⟨fb0, hfb0, hu, hp⟩ := feed_at g pre post bad hs
  rw [hfb] at hfb0
  simp only [Option.some.injEq] at hfb0
  subst hfb0
  rw [hbad] at hp
  have hinv := failed_feed_invariant g _ hs pre.length fb hfb hp
  refine ⟨Reachable.next _ hs hst, ?_, by simp [feeds_set_get _ hfb]⟩
  exact step_bad_proj _ hst (fun f hf => by
    rw [hfb] at hf
    simp only [Option.some.injEq] at hf
    subst hf
    exact ⟨hu, hp, hinv.1⟩)

/-- Once launched, the worker of the feed whose parse fails can run to its end, and
this changes nothing of the crawl without the feed. -/
theorem bad_runs_to_end (g : String → String) (pre post : List Feed) (bad : Feed)
    (hbad : bad.parses = false) {s : State}
    (hs : Reachable g (init (pre ++ bad :: post)) s) {fb : FeedThread}
    (hfb : s.feeds[pre.length]? = some fb) (hpc : fb.pc ≠ .idle) :
    ∃ t, Reachable g (init (pre ++ bad :: post)) t ∧
      proj pre.length bad.feedUri t = proj pre.length bad.feedUri s ∧
      t.main = s.main ∧ t.feeds.length = s.feeds.length ∧
      ∃ fb', t.feeds[pre.length]? = some fb' ∧ fb'.pc = .done := by
  -- from the exit
  have from_exit : ∀ {s : State}, Reachable g (init (pre ++ bad :: post)) s →
      ∀ {fb : FeedThread}, s.feeds[pre.length]? = some fb → fb.pc = .exit →
      ∃ t, Reachable g (init (pre ++ bad :: post)) t ∧
        proj pre.length bad.feedUri t = proj pre.length bad.feedUri s ∧
        t.main = s.main ∧ t.feeds.length = s.feeds.length ∧
        ∃ fb', t.feeds[pre.length]? = some fb' ∧ fb'.pc = .done := by
    intro s hs fb hfb hpc
    have hfs : feedStep s.sh fb =
        some ({ s.sh with feedSem := s.sh.feedSem + 1 }, { fb with pc := .done }) := by
      simp [feedStep, hpc]
    obtain ⟨h1, h2, h3⟩ := bad_step g pre post bad hbad hs hfb hfs
    exact ⟨_, h1, h2, rfl, by simp, _, h3, rfl⟩
  -- from the parse
  have from_parse : ∀ {s : State}, Reachable g (init (pre ++ bad :: post)) s →
      ∀ {fb : FeedThread}, s.feeds[pre.length]? = some fb → fb.pc = .parse →
      ∃ t, Reachable g (init (pre ++ bad :: post)) t ∧
        proj pre.length bad.feedUri t = proj pre.length bad.feedUri s ∧
        t.main = s.main ∧ t.feeds.length = s.feeds.length ∧
        ∃ fb', t.feeds[pre.length]? = some fb' ∧ fb'.pc = .done := by
    intro s hs fb hfb hpc
    obtain ⟨fb0, hfb0, _, hp⟩ := feed_at g pre post bad hs
    rw [hfb] at hfb0
    simp only [Option.some.injEq] at hfb0
    subst hfb0
    rw [hbad] at hp
    have hfs : feedStep s.sh fb =
        some ({ s.sh with trace := s.sh.trace ++
                  [Event.feedBeginning fb.feedUri, Event.feedParse fb.feedUri,
                   Event.feedFailure fb.feedUri] }, { fb with pc := .exit }) := by
      simp [feedStep, hpc, hp]
    obtain ⟨h1, h2, h3⟩ := bad_step g pre post bad hbad hs hfb hfs
    obtain ⟨t, ht1, ht2, ht3, ht4, ht5⟩ := from_exit h1 h3 rfl
    exact ⟨t, ht1, ht2.trans h2, ht3, by rw [ht4]; simp, ht5⟩
  obtain ⟨fb0, hfb0, _, hp⟩ := feed_at g pre post bad hs
  rw [hfb] at hfb0
  simp only [Option.some.injEq] at hfb0
  subst hfb0
  rw [hbad] at hp
  rcases (failed_feed_invariant g _ hs pre.length fb hfb hp).1 with h | h | h | h | h
  · exact absurd h hpc
  · by_cases hmem : fb.feedUri ∈ s.sh.seenFeedsUri
    · have hfs : feedStep s.sh fb =
          some ({ s.sh with trace := s.sh.trace ++ [Event.feedSkipped fb.feedUri] },
                { fb with pc := .exit }) := by
        simp [feedStep, h, hmem]
      obtain ⟨h1, h2, h3⟩ := bad_step g pre post bad hbad hs hfb hfs
      obtain ⟨t, ht1, ht2, ht3, ht4, ht5⟩ := from_exit h1 h3 rfl
      exact ⟨t, ht1, ht2.trans h2, ht3, by rw [ht4]; simp, ht5⟩
    · have hfs : feedStep s.sh fb =
          some ({ s.sh with seenFeedsUri := fb.feedUri :: s.sh.seenFeedsUri },
                { fb with pc := .parse }) := by
        simp [feedStep, h, hmem]
      obtain ⟨h1, h2, h3⟩ := bad_step g pre post bad hbad hs hfb hfs
      obtain ⟨t, ht1, ht2, ht3, ht4, ht5⟩ := from_parse h1 h3 rfl
      exact ⟨t, ht1, ht2.trans h2, ht3, by rw [ht4]; simp, ht5⟩
  · exact from_parse hs hfb h
  · exact from_exit hs hfb h
  · exact ⟨s, hs, rfl, rfl, rfl, fb, hfb, h⟩

/-- When `processFeeds` is about to launch the feed whose parse fails and `feedSem` has
a unit, the feed can be launched and run to its end, and this changes nothing of the
crawl without the feed. -/
theorem bad_launch_and_run (g : String → String) (pre post : List Feed) (bad : Feed)
    (hbad : bad.parses = false) {s : State}
    (hs : Reachable g (init (pre ++ bad :: post)) s) (hm : s.main = .spawn pre.length)
    (hsem : 0 < s.sh.feedSem) :
    ∃ t, Reachable g (init (pre ++ bad :: post)) t ∧
      proj pre.length bad.feedUri t = proj pre.length bad.feedUri s ∧
      t.main = .spawn (pre.length + 1) ∧ t.feeds.length = s.feeds.length ∧
      ∃ fb', t.feeds[pre.length]? = some fb' ∧ fb'.pc = .done := by
  obtain ⟨fb, hfb, _, _⟩ := feed_at g pre post bad hs
  have hidle := unlaunched_idle g _ hs _ hm _ fb hfb (le_refl _)
  obtain ⟨m, hm'⟩ : ∃ m, s.sh.feedSem = m + 1 := ⟨s.sh.feedSem - 1, by omega⟩
  obtain ⟨s1, hs1⟩ : ∃ s1 : State, s1 =
      { sh := { s.sh with feedSem := m }, main := .spawn (pre.length + 1),
        feeds := s.feeds.set pre.length { fb with pc := .dedup } } := ⟨_, rfl⟩
  have hst : step g s .main = some s1 := by
    rw [hs1]
    simp [step, mainStep, hm, hfb, hm']
  have hreach := Reachable.next _ hs hst
  have hproj : proj pre.length bad.feedUri s1 = proj pre.length bad.feedUri s := by
    rcases step_main_proj bad.feedUri hst hfb (fun _ => hidle) with ⟨_, h⟩ | ⟨h, _⟩
    · exact h
    · exact absurd hm h
  have hfb1 : s1.feeds[pre.length]? = some { fb with pc := .dedup } := by
    rw [hs1]
    simp [feeds_set_get _ hfb]
  obtain ⟨t, ht1, ht2, ht3, ht4, ht5⟩ := bad_runs_to_end g pre post bad hbad hreach hfb1
    (by simp)
  refine ⟨t, ht1, ht2.trans hproj, ?_, ?_, ht5⟩
  · rw [ht3, hs1]
  · rw [ht4, hs1]; simp

theorem step_length {g : String → String} {s t : State} {tid : Tid}
    (h : step g s tid = some t) : t.feeds.length = s.feeds.length := by
  cases tid with
  | main =>
    rcases mainStep_cases (step_main_inv h) with
      ⟨i, _, _, rfl⟩ | ⟨i, f, n, _, hf, _, rfl⟩ | ⟨_, _, rfl⟩ | ⟨_, rfl⟩ <;> simp
  | feed i =>
    obtain ⟨f, sh, f', hf, hfs, rfl⟩ := step_feed_inv h
    simp
  | article i j =>
    obtain ⟨f, a, sh, a', hf, ha, has, rfl⟩ := step_article_inv h
    simp

/-- A transition of another thread leaves the worker of feed `n` as it is. -/
theorem step_keeps_feed {g : String → String} {s t : State} {tid : Tid} {n : Nat}
    (h : step g s tid = some t)
    (hother : tid ≠ .feed n ∧ (∀ j, tid ≠ .article n j) ∧ (tid = .main → s.main ≠ .spawn n)) :
    t.feeds[n]? = s.feeds[n]? := by
  obtain ⟨h1, h2, h3⟩ := hother
  cases tid with
  | main =>
    rcases mainStep_cases (step_main_inv h) with
      ⟨i, _, _, rfl⟩ | ⟨i, f, m, hm, hf, _, rfl⟩ | ⟨_, _, rfl⟩ | ⟨_, rfl⟩
    · rfl
    · have hne : ¬ n = i := by
        intro e
        subst e
        exact h3 rfl hm
      simp [feeds_set_get _ hf, hne]
    · rfl
    · rfl
  | feed i =>
    obtain ⟨f, sh, f', hf, hfs, rfl⟩ := step_feed_inv h
    have hne : ¬ n = i := fun e => h1 (by rw [e])
    simp [feeds_set_get _ hf, hne]
  | article i j =>
    obtain ⟨f, a, sh, a', hf, ha, has, rfl⟩ := step_article_inv h
    have hne : ¬ n = i := fun e => h2 j (by rw [e])
    simp [feeds_set_get _ hf, hne]

/-- When every other feed worker has ended and the worker of feed `n` is not launched,
`feedSem` is full. -/
theorem feedSem_full (g : String → String) (feeds : List Feed) {s : State}
    (hs : Reachable g (init feeds) s) {n : Nat}
    (hall : ∀ (i : Nat) (f : FeedThread), s.feeds[i]? = some f →
      (i ≠ n → f.pc = .done) ∧ (i = n → f.pc = .idle)) :
    s.sh.feedSem = kFeedCapacity := by
  have h := feedSem_invariant g feeds hs
  have h0 : s.feeds.countP holdsFeedUnit = 0 := by
    rw [List.countP_eq_zero]
    intro f hf
    obtain ⟨i, hi⟩ := List.getElem?_of_mem hf
    by_cases hin : i = n
    · simp [holdsFeedUnit, (hall i f hi).2 hin]
    · simp [holdsFeedUnit, (hall i f hi).1 hin]
  omega

/-- Every state of the crawl of the list without the feed whose parse fails is the state
without that feed of a state of the crawl of the full list, in which the worker of the
feed is not launched or has ended; or `processFeeds` of the reduced list already waits
in its join while that of the full list still has the failing feed, its last, to
launch. -/
theorem reachable_unproj (g : String → String) (pre post : List Feed) (bad : Feed)
    (hbad : bad.parses = false)
    (hnodup : ((pre ++ bad :: post).map (fun f => f.feedUri)).Nodup) {s' : State}
    (hs' : Reachable g (init (pre ++ post)) s') :
    ∃ s, Reachable g (init (pre ++ bad :: post)) s ∧
      ((proj pre.length bad.feedUri s = s' ∧
          ∃ fb, s.feeds[pre.length]? = some fb ∧ (fb.pc = .idle ∨ fb.pc = .done)) ∨
       (s'.main = .join ∧ s.main = .spawn pre.length ∧ s.feeds.length = pre.length + 1 ∧
          proj pre.length bad.feedUri s =
            { sh := s'.sh, main := .spawn pre.length, feeds := s'.feeds })) := by
  induction hs' with
  | start =>
    refine ⟨init (pre ++ bad :: post), Reachable.start, Or.inl ⟨proj_init pre post bad, ?_⟩⟩
    obtain ⟨fb, hfb, _, _⟩ := feed_at g pre post bad Reachable.start
    exact ⟨fb, hfb, Or.inl (init_arts_idle fb (List.getElem?_mem hfb)).1⟩
  | @next s' t' tid' _ hstep' ih =>
    obtain ⟨s, hs, hrel⟩ := ih
    obtain ⟨fb, hfb, hu, _⟩ := feed_at g pre post bad hs
    have hother : ∀ (i : Nat) (f : FeedThread), i ≠ pre.length → s.feeds[i]? = some f →
        f.feedUri ≠ bad.feedUri := by
      intro i f hi hf hfu
      exact hi (feed_index_unique g _ hnodup hs hf hfb (hfu.trans hu.symm))
    have hlen : pre.length < s.feeds.length := by
      rcases Nat.lt_or_ge pre.length s.feeds.length with h | h
      · exact h
      · rw [List.getElem?_eq_none h] at hfb; simp at hfb
    rcases hrel with ⟨hproj, fb0, hfb0, hpc0⟩ | ⟨hm', hm, hlen1, hproj⟩
    · -- in step
      rw [hfb] at hfb0
      simp only [Option.some.injEq] at hfb0
      subst hfb0
      subst hproj
      cases tid' with
      | feed i' =>
        obtain ⟨t, ht, hpt⟩ := lift_feed hstep'
          (fun f hf => hother _ f (upIdx_ne _ _) hf)
        refine ⟨t, Reachable.next _ hs ht, Or.inl ⟨hpt, fb, ?_, hpc0⟩⟩
        rw [step_keeps_feed ht ⟨by simp [upIdx_ne], by simp, by simp⟩]
        exact hfb
      | article i' j =>
        obtain ⟨t, ht, hpt⟩ := lift_article hstep'
        refine ⟨t, Reachable.next _ hs ht, Or.inl ⟨hpt, fb, ?_, hpc0⟩⟩
        rw [step_keeps_feed ht ⟨by simp, by simp [upIdx_ne], by simp⟩]
        exact hfb
      | main =>
        by_cases hm : s.main = .spawn pre.length
        · have hidle := unlaunched_idle g _ hs _ hm _ fb hfb (le_refl _)
          have hmain : (proj pre.length bad.feedUri s).main = .spawn pre.length := by
            show projMain pre.length s.main = _
            rw [hm]; simp [projMain]
          have hheld : heldUnit pre.length s = 0 := by simp [heldUnit, hfb, hidle]
          rcases mainStep_cases (step_main_inv hstep') with
            ⟨k, hk, hnone, rfl⟩ | ⟨k, f, m, hk, hf, hsem, _⟩ | ⟨hk, _, _⟩ | ⟨hk, _⟩
          · rw [hmain] at hk
            simp only [MPc.spawn.injEq] at hk
            subst hk
            refine ⟨s, hs, Or.inr ⟨rfl, hm, ?_, ?_⟩⟩
            · have h1 : (s.feeds.eraseIdx pre.length).length ≤ pre.length := by
                rcases Nat.lt_or_ge pre.length (s.feeds.eraseIdx pre.length).length with h | h
                · have hn : (proj pre.length bad.feedUri s).feeds[pre.length]? = none := hnone
                  have : (s.feeds.eraseIdx pre.length)[pre.length]? = none := hn
                  rw [List.getElem?_eq_getElem h] at this
                  simp at this
                · exact h
              rw [List.length_eraseIdx_of_lt hlen] at h1
              omega
            · apply State.eq_of
              · rfl
              · exact hmain
              · rfl
          · have hpos : 0 < s.sh.feedSem := by
              have : (proj pre.length bad.feedUri s).sh.feedSem =
                  s.sh.feedSem + heldUnit pre.length s := rfl
              rw [this, hheld] at hsem
              omega
            obtain ⟨s4, hs4, hp4, hm4, _, fb4, hfb4, hpc4⟩ :=
              bad_launch_and_run g pre post bad hbad hs hm hpos
            rw [← hp4] at hstep'
            obtain ⟨t, ht, hpt⟩ := lift_main hfb4 (Or.inl hpc4)
              (by intro h; rw [hm4] at h; simp at h) hstep'
            refine ⟨t, Reachable.next _ hs4 ht, Or.inl ⟨hpt, fb4, ?_, Or.inr hpc4⟩⟩
            rw [step_keeps_feed ht ⟨by simp, by simp, by intro _; rw [hm4]; simp⟩]
            exact hfb4
          · rw [hmain] at hk; simp at hk
          · rw [hmain] at hk; simp at hk
        · have hcond : fb.pc = .done ∨ (fb.pc = .idle ∧ ∃ k, s.main = .spawn k ∧ k < pre.length) := by
            rcases hpc0 with h | h
            · right
              refine ⟨h, ?_⟩
              by_contra hno
              apply launched_not_idle g _ hs _ fb hfb _ h
              intro k hk
              rcases Nat.lt_or_ge pre.length k with h1 | h1
              · exact h1
              · rcases Nat.lt_or_ge k pre.length with h2 | h2
                · exact absurd ⟨k, hk, h2⟩ hno
                · have : k = pre.length := by omega
                  rw [this] at hk
                  exact absurd hk hm
            · exact Or.inl h
          obtain ⟨t, ht, hpt⟩ := lift_main hfb hcond (fun h => absurd h hm) hstep'
          refine ⟨t, Reachable.next _ hs ht, Or.inl ⟨hpt, fb, ?_, hpc0⟩⟩
          rw [step_keeps_feed ht ⟨by simp, by simp, fun _ => hm⟩]
          exact hfb
    · -- `processFeeds` of the reduced list is ahead
      have hidle := unlaunched_idle g _ hs _ hm _ fb hfb (le_refl _)
      cases tid' with
      | feed i' =>
        obtain ⟨hmt, hst⟩ := step_with_main (.spawn pre.length) (by simp) hstep'
        rw [← hproj] at hst
        obtain ⟨t, ht, hpt⟩ := lift_feed hst (fun f hf => hother _ f (upIdx_ne _ _) hf)
        refine ⟨t, Reachable.next _ hs ht, Or.inr ⟨by rw [hmt, hm'], ?_, ?_, hpt⟩⟩
        · rw [(step_with_main .join (by simp) ht).1, hm]
        · rw [step_length ht, hlen1]
      | article i' j =>
        obtain ⟨hmt, hst⟩ := step_with_main (.spawn pre.length) (by simp) hstep'
        rw [← hproj] at hst
        obtain ⟨t, ht, hpt⟩ := lift_article hst
        refine ⟨t, Reachable.next _ hs ht, Or.inr ⟨by rw [hmt, hm'], ?_, ?_, hpt⟩⟩
        · rw [(step_with_main .join (by simp) ht).1, hm]
        · rw [step_length ht, hlen1]
      | main =>
        have hfeeds : s'.feeds = s.feeds.eraseIdx pre.length := by
          have := congrArg State.feeds hproj
          exact this.symm
        have hall : ∀ f ∈ s'.feeds, f.pc = .done := by
          rcases mainStep_cases (step_main_inv hstep') with
            ⟨k, hk, _, _⟩ | ⟨k, f, m, hk, _, _, _⟩ | ⟨_, hall, _⟩ | ⟨hk, _⟩
          · rw [hm'] at hk; simp at hk
          · rw [hm'] at hk; simp at hk
          · exact hall
          · rw [hm'] at hk; simp at hk
        have hfull : s.sh.feedSem = kFeedCapacity := by
          apply feedSem_full g _ hs
          intro i f hf
          constructor
          · intro hi
            apply hall
            rw [hfeeds, List.mem_eraseIdx_iff_getElem?]
            exact ⟨i, hi, hf⟩
          · intro hi
            subst hi
            rw [hfb] at hf
            simp only [Option.some.injEq] at hf
            subst hf
            exact hidle
        obtain ⟨s4, hs4, hp4, hm4, hlen4, fb4, hfb4, hpc4⟩ :=
          bad_launch_and_run g pre post bad hbad hs hm (by rw [hfull]; decide)
        have hnone4 : s4.feeds[pre.length + 1]? = none :=
          List.getElem?_eq_none (by rw [hlen4, hlen1])
        have hst5 : step g s4 .main =
            some { sh := s4.sh, main := .join, feeds := s4.feeds } := by
          simp [step, mainStep, hm4, hnone4]
        have hs5 := Reachable.next _ hs4 hst5
        have hp5 : proj pre.length bad.feedUri
            { sh := s4.sh, main := .join, feeds := s4.feeds } = s' := by
          rcases step_main_proj bad.feedUri hst5 hfb4
            (by intro h; rw [hm4] at h; simp at h) with ⟨h, _⟩ | ⟨_, h⟩
          · rw [hm4] at h; simp at h
          · rw [hp4, hproj] at h
            have hnone' : s'.feeds[pre.length]? = none := by
              rw [hfeeds]
              apply List.getElem?_eq_none
              rw [List.length_eraseIdx_of_lt hlen]
              omega
            have h2 : step g { sh := s'.sh, main := .spawn pre.length, feeds := s'.feeds }
                .main = some s' := by
              simp only [step, mainStep, hnone', Option.some.injEq]
              apply State.eq_of
              · rfl
              · exact hm'.symm
              · rfl
            rw [h2] at h
            exact (Option.some.inj h).symm
        rw [← hp5] at hstep'
        obtain ⟨t, ht, hpt⟩ := lift_main
          (show ({ sh := s4.sh, main := .join, feeds := s4.feeds } : State).feeds[pre.length]?
            = some fb4 from hfb4)
          (Or.inl hpc4) (by intro h; simp at h) hstep'
        refine ⟨t, Reachable.next _ hs5 ht, Or.inl ⟨hpt, fb4, ?_, Or.inr hpc4⟩⟩
        rw [step_keeps_feed ht ⟨by simp, by simp, by intro _; simp⟩]
        exact hfb4

theorem step_none_with_main {g : String → String} {s : State} {tid : Tid} (m : MPc)
    (htid : tid ≠ .main) (h : step g s tid = none) :
    step g { sh := s.sh, main := m, feeds := s.feeds } tid = none := by
  cases hst : step g { sh := s.sh, main := m, feeds := s.feeds } tid with
  | none => rfl
  | some t =>
    have := (step_with_main s.main htid hst).2
    have hs : ({ sh := s.sh, main := s.main, feeds := s.feeds } : State) = s := rfl
    rw [hs, h] at this
    simp at this

/-- A state of the full crawl in which no thread can move gives a state of the reduced
crawl in which no thread can move. -/
theorem stuck_proj (g : String → String) (pre post : List Feed) (bad : Feed)
    (hbad : bad.parses = false)
    (hnodup : ((pre ++ bad :: post).map (fun f => f.feedUri)).Nodup) {s : State}
    (hs : Reachable g (init (pre ++ bad :: post)) s) (hnd : s.main ≠ .done)
    (hstuck : ∀ tid, step g s tid = none) :
    ∃ s', Reachable g (init (pre ++ post)) s' ∧ s'.main ≠ .done ∧
      ∀ tid, step g s' tid = none := by
  obtain ⟨fb, hfb, hu, hp⟩ := feed_at g pre post bad hs
  rw [hbad] at hp
  have hinv := failed_feed_invariant g _ hs pre.length fb hfb hp
  have hother : ∀ (i : Nat) (f : FeedThread), i ≠ pre.length → s.feeds[i]? = some f →
      f.feedUri ≠ bad.feedUri := by
    intro i f hi hf hfu
    exact hi (feed_index_unique g _ hnodup hs hf hfb (hfu.trans hu.symm))
  have hlen : pre.length < s.feeds.length := by
    rcases Nat.lt_or_ge pre.length s.feeds.length with h | h
    · exact h
    · rw [List.getElem?_eq_none h] at hfb; simp at hfb
  have hrp := reachable_proj g pre post bad hbad hnodup hs
  -- the worker of the failing feed is not launched or has ended
  have hpc0 : fb.pc = .idle ∨ fb.pc = .done := by
    have hno := hstuck (.feed pre.length)
    rcases hinv.1 with h | h | h | h | h
    · exact Or.inl h
    · by_cases hmem : fb.feedUri ∈ s.sh.seenFeedsUri <;>
        simp [step, hfb, feedStep, h, hmem] at hno
    · simp [step, hfb, feedStep, h, hp] at hno
    · simp [step, hfb, feedStep, h] at hno
    · exact Or.inr h
  -- the workers of the reduced crawl cannot move
  have hworkers : ∀ tid, tid ≠ .main → step g (proj pre.length bad.feedUri s) tid = none := by
    intro tid htid
    cases hst : step g (proj pre.length bad.feedUri s) tid with
    | none => rfl
    | some t' =>
      cases tid with
      | main => exact absurd rfl htid
      | feed i' =>
        obtain ⟨t, ht, _⟩ := lift_feed hst (fun f hf => hother _ f (upIdx_ne _ _) hf)
        rw [hstuck] at ht; simp at ht
      | article i' j =>
        obtain ⟨t, ht, _⟩ := lift_article hst
        rw [hstuck] at ht; simp at ht
  have hmain_nd : (proj pre.length bad.feedUri s).main ≠ .done := by
    show projMain pre.length s.main ≠ .done
    cases hm : s.main <;> simp [projMain]
    exact hnd hm
  by_cases hm : s.main = .spawn pre.length
  · have hidle := unlaunched_idle g _ hs _ hm _ fb hfb (le_refl _)
    have hsem0 : s.sh.feedSem = 0 := by
      have hno := hstuck .main
      cases hn : s.sh.feedSem with
      | zero => rfl
      | succ m => simp [step, mainStep, hm, hfb, hn] at hno
    have hheld : heldUnit pre.length s = 0 := by simp [heldUnit, hfb, hidle]
    have hmain : (proj pre.length bad.feedUri s).main = .spawn pre.length := by
      show projMain pre.length s.main = _
      rw [hm]; simp [projMain]
    have hsem' : (proj pre.length bad.feedUri s).sh.feedSem = 0 := by
      show s.sh.feedSem + heldUnit pre.length s = 0
      rw [hsem0, hheld]
    cases hnext : (proj pre.length bad.feedUri s).feeds[pre.length]? with
    | some f =>
      refine ⟨_, hrp, hmain_nd, ?_⟩
      intro tid
      by_cases htid : tid = .main
      · subst htid
        simp [step, mainStep, hmain, hnext, hsem']
      · exact hworkers tid htid
    | none =>
      have hst : step g (proj pre.length bad.feedUri s) .main =
          some { sh := (proj pre.length bad.feedUri s).sh, main := .join,
                 feeds := (proj pre.length bad.feedUri s).feeds } := by
        simp [step, mainStep, hmain, hnext]
      refine ⟨_, Reachable.next _ hrp hst, by simp, ?_⟩
      intro tid
      by_cases htid : tid = .main
      · subst htid
        have hnot : ¬ ∀ f ∈ (proj pre.length bad.feedUri s).feeds, f.pc = .done := by
          intro hall
          have hfull : s.sh.feedSem = kFeedCapacity := by
            apply feedSem_full g _ hs
            intro i f hf
            constructor
            · intro hi
              apply hall
              show f ∈ s.feeds.eraseIdx pre.length
              rw [List.mem_eraseIdx_iff_getElem?]
              exact ⟨i, hi, hf⟩
            · intro hi
              subst hi
              rw [hfb] at hf
              simp only [Option.some.injEq] at hf
              subst hf
              exact hidle
          rw [hsem0] at hfull
          exact absurd hfull (by decide)
        have hall' : ((proj pre.length bad.feedUri s).feeds.all
            fun f => decide (f.pc = FPc.done)) = false := by
          rw [Bool.eq_false_iff]
          intro h
          apply hnot
          rw [List.all_eq_true] at h
          intro f hf
          simpa using h f hf
        simp [step, mainStep, hall']
      · exact step_none_with_main .join htid (hworkers tid htid)
  · refine ⟨_, hrp, hmain_nd, ?_⟩
    intro tid
    by_cases htid : tid = .main
    · subst htid
      cases hst : step g (proj pre.length bad.feedUri s) .main with
      | none => rfl
      | some t' =>
        have hcond : fb.pc = .done ∨
            (fb.pc = .idle ∧ ∃ k, s.main = .spawn k ∧ k < pre.length) := by
          rcases hpc0 with h | h
          · right
            refine ⟨h, ?_⟩
            by_contra hno
            apply launched_not_idle g _ hs _ fb hfb _ h
            intro k hk
            rcases Nat.lt_or_ge pre.length k with h1 | h1
            · exact h1
            · rcases Nat.lt_or_ge k pre.length with h2 | h2
              · exact absurd ⟨k, hk, h2⟩ hno
              · have : k = pre.length := by omega
                rw [this] at hk
                exact absurd hk hm
          · exact Or.inl h
        obtain ⟨t, ht, _⟩ := lift_main hfb hcond (fun h => absurd h hm) hst
        rw [hstuck] at ht; simp at ht
    · exact hworkers tid htid

theorem proj_done {n : Nat} {u : String} {s : State} :
    (proj n u s).main = .done ↔ s.main = .done := by
  show projMain n s.main = .done ↔ _
  cases s.main <;> simp [projMain]

/-- Feed failure, relative to the crawl without the failing feed: let the feed list (with
pairwise distinct feed URLs, the keys of the `map`) hold a feed `bad` whose parse fails,
between `pre` and `post`. The failing feed launches no article worker. Every end of the
crawl of the full list is matched by an end of the crawl of the list without `bad` with
the same resolver and the same index, and conversely; and a state of the full crawl in
which no thread can move yields such a state of the crawl without `bad`. Whether either
crawl reaches its end is not part of the statement. -/
theorem feed_failure_isolation (g : String → String) (pre post : List Feed) (bad : Feed)
    (hbad : bad.parses = false)
    (hnodup : ((pre ++ bad :: post).map (fun f => f.feedUri)).Nodup) :
    (∀ s, Reachable g (init (pre ++ bad :: post)) s →
      ∀ j a, s.art pre.length j = some a → a.pc = .idle) ∧
    (∀ s, Reachable g (init (pre ++ bad :: post)) s → s.main = .done →
      ∃ s', Reachable g (init (pre ++ post)) s' ∧ s'.main = .done ∧
        s'.sh.seenServerTitleToArticleTokens = s.sh.seenServerTitleToArticleTokens ∧
        s'.sh.index = s.sh.index) ∧
    (∀ s', Reachable g (init (pre ++ post)) s' → s'.main = .done →
      ∃ s, Reachable g (init (pre ++ bad :: post)) s ∧ s.main = .done ∧
        s.sh.seenServerTitleToArticleTokens = s'.sh.seenServerTitleToArticleTokens ∧
        s.sh.index = s'.sh.index) ∧
    (∀ s, Reachable g (init (pre ++ bad :: post)) s → s.main ≠ .done →
      (∀ tid, step g s tid = none) →
      ∃ s', Reachable g (init (pre ++ post)) s' ∧ s'.main ≠ .done ∧
        ∀ tid, step g s' tid = none) := by
  refine ⟨?_, ?_, ?_, ?_⟩
  · intro s hs j a ha
    obtain ⟨fb, hfb, _, hp⟩ := feed_at g pre post bad hs
    rw [hbad] at hp
    obtain ⟨f, hf, haf⟩ := State.art_some ha
    rw [hfb] at hf
    simp only [Option.some.injEq] at hf
    subst hf
    exact (failed_feed_invariant g _ hs pre.length fb hfb hp).2 a (List.getElem?_mem haf)
  · intro s hs hdone
    exact ⟨proj pre.length bad.feedUri s, reachable_proj g pre post bad hbad hnodup hs,
      proj_done.2 hdone, rfl, rfl⟩
  · intro s' hs' hdone
    obtain ⟨s, hs, hrel⟩ := reachable_unproj g pre post bad hbad hnodup hs'
    rcases hrel with ⟨hproj, _⟩ | ⟨hjoin, _⟩
    · refine ⟨s, hs, ?_, ?_, ?_⟩
      · rw [← hproj] at hdone
        exact proj_done.1 hdone
      · rw [← hproj]; rfl
      · rw [← hproj]; rfl
    · rw [hjoin] at hdone; simp at hdone
  · intro s hs hnd hstuck
    exact stuck_proj g pre post bad hbad hnodup hs hnd hstuck

theorem feed_failure_isolation_witness :
    ∃ s, run exampleServer (init feedsS4) schedS4 = some s ∧ s.main = .done ∧
      s.sh.seenServerTitleToArticleTokens =
        [("h1", [("One", (⟨"h1/u1", "One"⟩, ["a", "b"])),
                 ("Three", (⟨"h1/u3", "Three"⟩, ["b", "b"]))])] ∧
      s.sh.trace.count (Event.feedFailure "f2") = 1 ∧
      ∃ s', Reachable exampleServer (init [feedS4first, feedS4last]) s' ∧ s'.main = .done ∧
        s'.sh.seenServerTitleToArticleTokens = s.sh.seenServerTitleToArticleTokens ∧
        s'.sh.index = s.sh.index := by
  have h : ((run exampleServer (init feedsS4) schedS4).map
      (fun s => (s.main, s.sh.seenServerTitleToArticleTokens,
                 s.sh.trace.count (Event.feedFailure "f2")))) =
      some (.done, [("h1", [("One", (⟨"h1/u1", "One"⟩, ["a", "b"])),
                            ("Three", (⟨"h1/u3", "Three"⟩, ["b", "b"]))])], 1) := by
    decide!
  cases hr : run exampleServer (init feedsS4) schedS4 with
  | none => rw [hr] at h; simp at h
  | some s =>
    rw [hr] at h
    simp only [Option.map_some', Option.some.injEq, Prod.mk.injEq] at h
    have hd := (feed_failure_isolation exampleServer [feedS4first] [feedS4last] feedS4middle
      rfl (by decide)).2.1 s (reachable_of_run hr) h.1
    exact ⟨s, rfl, h.1, h.2.1, h.2.2, hd⟩

/-! ### The resolver and the index of a crawl -/

theorem articleStep_resolver {g : String → String} {sh sh' : Shared} {a a' : ArticleThread}
    (h : articleStep g sh a = some (sh', a')) :
    sh'.index = sh.index ∧ a.pc ≠ .idle ∧ a.pc ≠ .done ∧
    (sh'.seenServerTitleToArticleTokens = sh.seenServerTitleToArticleTokens ∨
     sh'.seenServerTitleToArticleTokens =
       resolverUpdate g sh.seenServerTitleToArticleTokens a.article a.tokens) := by
  rcases articleStep_cases h with ⟨hpc, _, rfl, rfl⟩ | ⟨hpc, _, rfl, rfl⟩ |
    ⟨hpc, _, rfl, rfl⟩ | ⟨hpc, _, rfl, rfl⟩ | ⟨hpc, ⟨n, _, rfl⟩, rfl⟩ |
    ⟨hpc, ⟨tokens, _, rfl⟩, rfl⟩ | ⟨hpc, _, rfl, rfl⟩ | ⟨hpc, rfl, rfl⟩ |
    ⟨hpc, rfl, rfl⟩ | ⟨hpc, rfl, rfl⟩ <;>
    refine ⟨rfl, by simp [hpc], by simp [hpc], ?_⟩ <;>
    first | exact Or.inl rfl | exact Or.inr rfl

/-- The resolver of every state of a crawl is well-formed. -/
theorem reachable_resolver_wf (g : String → String) (feeds : List Feed) {s : State}
    (hs : Reachable g (init feeds) s) : Resolver.WF g s.sh.seenServerTitleToArticleTokens := by
  induction hs with
  | start => exact Resolver.WF_nil g
  | @next s s' tid _ hstep ih =>
    cases tid with
    | main => rw [(mainStep_seen (step_main_inv hstep)).2.1]; exact ih
    | feed i =>
      obtain ⟨f, sh, f', _, hfs, rfl⟩ := step_feed_inv hstep
      show Resolver.WF g sh.seenServerTitleToArticleTokens
      rw [(feedStep_seen hfs).2.1]; exact ih
    | article i j =>
      obtain ⟨f, a, sh, a', _, _, has, rfl⟩ := step_article_inv hstep
      show Resolver.WF g sh.seenServerTitleToArticleTokens
      rcases (articleStep_resolver has).2.2.2 with h | h
      · rw [h]; exact ih
      · rw [h]; exact Resolver.WF_update ih _ _

/-- The article workers of a feed worker that has not called the feed parser are not
launched; those of a feed worker at its exit or ended are not launched or have ended. -/
theorem feed_arts_invariant (g : String → String) (feeds : List Feed) {s : State}
    (hs : Reachable g (init feeds) s) :
    ∀ (i : Nat) (f : FeedThread), s.feeds[i]? = some f →
      ((f.pc = .idle ∨ f.pc = .dedup ∨ f.pc = .parse) → ∀ a ∈ f.arts, a.pc = .idle) ∧
      ((f.pc = .exit ∨ f.pc = .done) → ∀ a ∈ f.arts, a.pc = .idle ∨ a.pc = .done) := by
  induction hs with
  | start =>
    intro i f hf
    have := (init_arts_idle f (List.getElem?_mem hf)).2
    exact ⟨fun _ => this, fun _ a ha => Or.inl (this a ha)⟩
  | @next s s' tid hreach hstep ih =>
    intro i' f' hf'
    cases tid with
    | main =>
      rcases mainStep_cases (step_main_inv hstep) with
        ⟨i, _, _, rfl⟩ | ⟨i, f, n, hm, hf, _, rfl⟩ | ⟨_, _, rfl⟩ | ⟨_, rfl⟩
      · exact ih i' f' hf'
      · simp only [feeds_set_get _ hf] at hf'
        by_cases hi : i' = i
        · subst hi
          simp only [if_true, Option.some.injEq] at hf'
          subst hf'
          have hidle : f.pc = .idle :=
            unlaunched_idle g feeds hreach i' hm i' f hf (le_refl _)
          exact ⟨fun _ => (ih i' f hf).1 (Or.inl hidle), fun h => by simp at h⟩
        · rw [if_neg hi] at hf'
          exact ih i' f' hf'
      · exact ih i' f' hf'
      · exact ih i' f' hf'
    | feed i =>
      obtain ⟨f, sh, f1, hf, hfs, rfl⟩ := step_feed_inv hstep
      simp only [feeds_set_get _ hf] at hf'
      by_cases hi : i' = i
      · subst hi
        simp only [if_true, Option.some.injEq] at hf'
        subst hf'
        obtain ⟨ih1, ih2⟩ := ih i' f hf
        rcases feedStep_cases hfs with ⟨hpc, _, rfl, rfl⟩ | ⟨hpc, _, rfl, rfl⟩ |
          ⟨hpc, _, rfl, rfl⟩ | ⟨hpc, _, rfl, rfl⟩ | ⟨j, hpc, _, rfl, rfl⟩ |
          ⟨j, a, n, hpc, ha, _, rfl, rfl⟩ | ⟨hpc, hall, rfl, rfl⟩ | ⟨hpc, rfl, rfl⟩
        · exact ⟨fun h => by simp at h,
            fun _ a ha => Or.inl (ih1 (Or.inr (Or.inl hpc)) a ha)⟩
        · exact ⟨fun _ => ih1 (Or.inr (Or.inl hpc)), fun h => by simp at h⟩
        · exact ⟨fun h => by simp at h, fun h => by simp at h⟩
        · exact ⟨fun h => by simp at h,
            fun _ a ha => Or.inl (ih1 (Or.inr (Or.inr hpc)) a ha)⟩
        · exact ⟨fun h => by simp at h, fun h => by simp at h⟩
        · exact ⟨fun h => by simp at h, fun h => by simp at h⟩
        · exact ⟨fun h => by simp at h, fun _ a ha => Or.inr (hall a ha)⟩
        · exact ⟨fun h => by simp at h, fun _ => ih2 (Or.inl hpc)⟩
      · rw [if_neg hi] at hf'
        exact ih i' f' hf'
    | article i j =>
      obtain ⟨f, a, sh, a', hf, ha, has, rfl⟩ := step_article_inv hstep
      simp only [feeds_set_get _ hf] at hf'
      by_cases hi : i' = i
      · subst hi
        simp only [if_true, Option.some.injEq] at hf'
        subst hf'
        obtain ⟨ih1, ih2⟩ := ih i' f hf
        obtain ⟨_, hn1, hn2, _⟩ := articleStep_resolver has
        have hmem := List.getElem?_mem ha
        constructor
        · intro h
          exact absurd (ih1 h a hmem) hn1
        · intro h
          rcases ih2 h a hmem with h' | h'
          · exact absurd h' hn1
          · exact absurd h' hn2
      · rw [if_neg hi] at hf'
        exact ih i' f' hf'

/-- The index is empty until the fold, and is the fold of the resolver at the end of
`processFeeds`. -/
theorem index_invariant (g : String → String) (feeds : List Feed) {s : State}
    (hs : Reachable g (init feeds) s) :
    (s.main ≠ .done → s.sh.index = fun _ _ => 0) ∧
    (s.main = .done →
      s.sh.index = foldIndex (fun _ _ => 0) s.sh.seenServerTitleToArticleTokens) := by
  induction hs with
  | start => exact ⟨fun _ => rfl, fun h => by simp [init] at h⟩
  | @next s s' tid hreach hstep ih =>
    obtain ⟨ih1, ih2⟩ := ih
    cases tid with
    | main =>
      rcases mainStep_cases (step_main_inv hstep) with
        ⟨i, hm, _, rfl⟩ | ⟨i, f, n, hm, hf, _, rfl⟩ | ⟨hm, _, rfl⟩ | ⟨hm, rfl⟩
      · exact ⟨fun _ => ih1 (by rw [hm]; simp), fun h => by simp at h⟩
      · exact ⟨fun _ => ih1 (by rw [hm]; simp), fun h => by simp at h⟩
      · exact ⟨fun _ => ih1 (by rw [hm]; simp), fun h => by simp at h⟩
      · refine ⟨fun h => by simp at h, fun _ => ?_⟩
        show foldIndex s.sh.index _ = _
        rw [ih1 (by rw [hm]; simp)]
    | feed i =>
      obtain ⟨f, sh, f', hf, hfs, rfl⟩ := step_feed_inv hstep
      have hnd : s.main ≠ .done := by
        intro hd
        exact feedStep_not_done hfs (joined_feeds_done g feeds hreach (Or.inr hd) i f hf)
      refine ⟨fun _ => ?_, fun h => absurd h hnd⟩
      show sh.index = _
      rw [(feedStep_seen hfs).2.2.1]
      exact ih1 hnd
    | article i j =>
      obtain ⟨f, a, sh, a', hf, ha, has, rfl⟩ := step_article_inv hstep
      obtain ⟨hidx, hn1, hn2, _⟩ := articleStep_resolver has
      have hnd : s.main ≠ .done := by
        intro hd
        have hfd := joined_feeds_done g feeds hreach (Or.inr hd) i f hf
        rcases (feed_arts_invariant g feeds hreach i f hf).2 (Or.inr hfd) a
          (List.getElem?_mem ha) with h | h
        · exact hn1 h
        · exact hn2 h
      refine ⟨fun _ => ?_, fun h => absurd h hnd⟩
      show sh.index = _
      rw [hidx]
      exact ih1 hnd

/-- C9. Resolver well-formedness: let `r` be a resolver reached from the empty one by
any sequence of article-worker updates, or the resolver of any state of a crawl. Every
entry stored in `r` under (host, title) holds a token list in ascending order
(duplicates allowed) and an article of that title whose URL is on that host; so the
stored list that `set_intersection` receives, like the freshly sorted one, is
ascending. -/
theorem resolver_wellformed (g : String → String) (r : Resolver)
    (hr : (∃ all, r = applyUpdates g all) ∨
      (∃ feeds s, Reachable g (init feeds) s ∧ r = s.sh.seenServerTitleToArticleTokens))
    (host title : String) (a : Article) (tokens : List String)
    (h : r.find host title = some (a, tokens)) :
    tokens.Sorted (· ≤ ·) ∧ a.title = title ∧ g a.url = host ∧
    ∀ docTokens : List String, (std_sort docTokens).Sorted (· ≤ ·) := by
  have hwf : Resolver.WF g r := by
    rcases hr with ⟨all, rfl⟩ | ⟨feeds, s, hs, rfl⟩
    · exact Resolver.WF_applyUpdates g all
    · exact reachable_resolver_wf g feeds hs
  obtain ⟨m, hm, hmem⟩ := Resolver.entry_of_find h
  obtain ⟨h1, h2, h3⟩ := (hwf.2 host m hm).2 title a tokens hmem
  exact ⟨h3, h1, h2, std_sort_sorted⟩

theorem resolver_wellformed_witness :
    (applyUpdates exampleServer updatesS2).find "h1" "News" =
      some (⟨"h1/u1", "News"⟩, ["a", "b"]) ∧
    (["a", "b"].Sorted (· ≤ ·) ∧ (⟨"h1/u1", "News"⟩ : Article).title = "News" ∧
      exampleServer (⟨"h1/u1", "News"⟩ : Article).url = "h1" ∧
      ∀ docTokens : List String, (std_sort docTokens).Sorted (· ≤ ·)) :=
  ⟨by decide!, resolver_wellformed exampleServer (applyUpdates exampleServer updatesS2)
    (Or.inl ⟨updatesS2, rfl⟩) "h1" "News" ⟨"h1/u1", "News"⟩ ["a", "b"] (by decide!)⟩

/-- C5. Count fidelity: in every state of a crawl in which `processFeeds` has ended,
the index is the empty index after the fold of lines 196-200 (one `index.add` per
resolver entry), and for every resolver entry (A, T) and every token `w` the count of
the index for (w, A) is the multiplicity of `w` in T: no other entry adds to the
counts of A. -/
theorem count_fidelity (g : String → String) (feeds : List Feed) (s : State)
    (hs : Reachable g (init feeds) s) (hdone : s.main = .done)
    (e : Article × List String) (he : e ∈ s.sh.seenServerTitleToArticleTokens.entries)
    (w : String) :
    s.sh.index = foldIndex (fun _ _ => 0) s.sh.seenServerTitleToArticleTokens ∧
    s.sh.index w e.1 = e.2.count w := by
  have hidx := (index_invariant g feeds hs).2 hdone
  refine ⟨hidx, ?_⟩
  rw [hidx]
  exact foldIndex_entry (reachable_resolver_wf g feeds hs) he w

theorem count_fidelity_witness :
    ∃ s, run exampleServer (init feedsS2) schedS2 = some s ∧ s.main = .done ∧
      s.sh.seenServerTitleToArticleTokens =
        [("h1", [("News", (⟨"h1/u1", "News"⟩, ["a", "b"]))])] ∧
      s.sh.index "a" ⟨"h1/u1", "News"⟩ = 1 ∧ s.sh.index "b" ⟨"h1/u1", "News"⟩ = 1 ∧
      s.sh.index "c" ⟨"h1/u1", "News"⟩ = 0 ∧ s.sh.index "d" ⟨"h1/u1", "News"⟩ = 0 ∧
      s.sh.index "a" ⟨"h1/u2", "News"⟩ = 0 := by
  have h : ((run exampleServer (init feedsS2) schedS2).map
      (fun s => (s.main, s.sh.seenServerTitleToArticleTokens))) =
      some (.done, [("h1", [("News", (⟨"h1/u1", "News"⟩, ["a", "b"]))])]) := by
    decide!
  cases hr : run exampleServer (init feedsS2) schedS2 with
  | none => rw [hr] at h; simp at h
  | some s =>
    rw [hr] at h
    simp only [Option.map_some', Option.some.injEq, Prod.mk.injEq] at h
    obtain ⟨hm, hres⟩ := h
    have hmem : (⟨"h1/u1", "News"⟩, ["a", "b"]) ∈
        s.sh.seenServerTitleToArticleTokens.entries := by
      rw [hres]; decide
    have hc := fun w => count_fidelity exampleServer feedsS2 s (reachable_of_run hr) hm
      (⟨"h1/u1", "News"⟩, ["a", "b"]) hmem w
    have hidx := (hc "a").1
    refine ⟨s, rfl, hm, hres, ?_, ?_, ?_, ?_, ?_⟩
    · rw [(hc "a").2]; decide
    · rw [(hc "b").2]; decide
    · rw [(hc "c").2]; decide
    · rw [(hc "d").2]; decide!
    · rw [hidx, hres]; decide!

/-! ### The claims on feeds at the inputs where the crawl stops -/

/-- A call of `buildIndex` on an aggregator as created enters `processFeeds` in the
state `init feeds`. -/
theorem buildIndex_created (feeds : List Feed) :
    buildIndex createNewsAggregator feeds =
      ({ createNewsAggregator with built := true }, some (init feeds)) := rfl

/-- After a call of `buildIndex` no later call enters `processFeeds`. -/
theorem buildIndex_again (a : Aggregator) (feeds feeds' : List Feed) :
    (buildIndex a feeds).1.built = true ∧
    buildIndex (buildIndex a feeds).1 feeds' = ((buildIndex a feeds).1, none) := by
  have h : (buildIndex a feeds).1.built = true := by
    unfold buildIndex
    cases hb : a.built <;> simp [hb]
  exact ⟨h, by rw [buildIndex, if_pos h]⟩

/-- C7, at the failing input. In the crawl of a feed list whose first feed fails in its
parse and whose second feed has nine articles of one host with failing tokenizer calls,
the failure of the first feed is logged, its worker ends without launching its article
worker, and the crawl reaches a state where the ninth article worker waits on the
semaphore of the host, which holds no unit, the second feed worker and `processFeeds`
wait in their joins, and no thread can move: the crawl does not complete. -/
theorem feed_failure_crawl_stuck :
    ∃ s, run exampleServer (init feedsFailureThenNine) schedFailureThenNine = some s ∧
      s.sh.trace.count (Event.feedFailure "bad") = 1 ∧
      (s.feeds[0]?.map (fun f => (f.pc, f.arts.map (fun a => a.pc)))) =
        some (.done, [.idle]) ∧
      s.main = .join ∧
      (s.feeds[1]?.map (fun f => f.pc)) = some .join ∧
      (s.art 1 8 |>.map (fun a => a.pc)) = some .waitSem ∧
      Map.find "h" s.sh.serverSem = some 0 ∧
      ∀ tid, step exampleServer s tid = none := by
  have h : ((run exampleServer (init feedsFailureThenNine) schedFailureThenNine).map
      (fun s => decide (s.sh.trace.count (Event.feedFailure "bad") = 1) &&
        decide ((s.feeds[0]?.map (fun f => (f.pc, f.arts.map (fun a => a.pc)))) =
          some (.done, [.idle])) &&
        decide (s.main = .join) &&
        decide ((s.feeds[1]?.map (fun f => f.pc)) = some .join) &&
        decide ((s.art 1 8 |>.map (fun a => a.pc)) = some .waitSem) &&
        decide (Map.find "h" s.sh.serverSem = some 0) &&
        s.stuck exampleServer)) = some true := by
    decide!
  cases hr : run exampleServer (init feedsFailureThenNine) schedFailureThenNine with
  | none => rw [hr] at h; simp at h
  | some s =>
    rw [hr] at h
    simp only [Option.map_some', Option.some.injEq, Bool.and_eq_true,
      decide_eq_true_eq] at h
    obtain ⟨⟨⟨⟨⟨⟨h1, h2⟩, h3⟩, h4⟩, h5⟩, h6⟩, h7⟩ := h
    exact ⟨s, rfl, h1, h2, h3, h4, h5, h6, stuck_no_step h7⟩

/-- C10, at the failing input. The first call of `buildIndex` on a new aggregator, for
seven feeds with distinct URLs, enters `processFeeds` with an empty `seenFeedsUri`. The
crawl reaches a state where six feed workers hold the six units of `feedSem`, each
waiting in its join for an article worker that waits on the semaphore of host `h`, which
holds no unit; `processFeeds` waits in `feedSem.wait()` (line 168) to launch the seventh
worker, and no thread can move. No skip of a feed has been logged, and the seventh feed
is never parsed. -/
theorem seventh_feed_never_parsed :
    (feedsSeven.map (fun f => f.feedUri)).Nodup ∧
    (buildIndex createNewsAggregator feedsSeven).2 = some (init feedsSeven) ∧
    (init feedsSeven).sh.seenFeedsUri = [] ∧
    ∃ s, run exampleServer (init feedsSeven) schedSeven = some s ∧
      s.main = .spawn 6 ∧
      s.sh.feedSem = 0 ∧
      Map.find "h" s.sh.serverSem = some 0 ∧
      (s.feeds.map (fun f => f.pc)) = [.join, .join, .join, .join, .join, .join, .idle] ∧
      (∀ u, Event.feedSkipped u ∉ s.sh.trace) ∧
      s.sh.trace.count (Event.feedParse "f6") = 0 ∧
      ∀ tid, step exampleServer s tid = none := by
  refine ⟨by decide, rfl, rfl, ?_⟩
  have h : ((run exampleServer (init feedsSeven) schedSeven).map
      (fun s => decide (s.main = .spawn 6) &&
        decide (s.sh.feedSem = 0) &&
        decide (Map.find "h" s.sh.serverSem = some 0) &&
        decide ((s.feeds.map (fun f => f.pc)) =
          [.join, .join, .join, .join, .join, .join, .idle]) &&
        s.sh.trace.all (fun e => !isFeedSkipped e) &&
        decide (s.sh.trace.count (Event.feedParse "f6") = 0) &&
        s.stuck exampleServer)) = some true := by
    decide!
  cases hr : run exampleServer (init feedsSeven) schedSeven with
  | none => rw [hr] at h; simp at h
  | some s =>
    rw [hr] at h
    simp only [Option.map_some', Option.some.injEq, Bool.and_eq_true,
      decide_eq_true_eq] at h
    obtain ⟨⟨⟨⟨⟨⟨h1, h2⟩, h3⟩, h4⟩, h5⟩, h6⟩, h7⟩ := h
    refine ⟨s, rfl, h1, h2, h3, h4, ?_, h6, stuck_no_step h7⟩
    intro u hu
    rw [List.all_eq_true] at h5
    have := h5 _ hu
    simp [isFeedSkipped] at this

end NewsAggregator
